import Mathlib

/-!
# Relay hub: pairing, takeover, forwarding and quota gates

A shallow embedding of the session pairing and forwarding core of the relay
(`internal/hub`, `internal/ratelimit`, `internal/protocol`, `internal/store`).

* Go pointers become indices into explicit heaps: a `ConnId` names a
  `*Connection`, a `SessId` names a `*Session`, and the hub state carries both
  heaps next to the session table, the Store state and the atomic counter.
* Everything the code reads from its environment is an explicit argument:
  `time.Now()`, the identifier and timestamp put into a fresh envelope, and the
  outcome of decoding an auth payload.
* A buffered channel is the list of the frames waiting in it, oldest first.
* The byte and connection counters are `Int`; reaching the `int64` range would
  take 2^63 connections or forwarded bytes, so no wrap-around is modelled.
-/

namespace Relay

/-! ## Basic types -/

/-- A Go byte slice. -/
abbrev Bytes := List UInt8

/-- A `time.Time`, in nanoseconds since the Unix epoch. -/
abbrev Time := Int

/-- Index of a `*Connection` in the connection heap. -/
abbrev ConnId := Nat

/-- Index of a `*Session` in the session heap. -/
abbrev SessId := Nat

/-- Go `len(s)` of a string: its length in bytes. -/
def strLen (s : String) : Nat := s.utf8ByteSize

/-- The bytes of a Go string. -/
def strBytes (s : String) : Bytes := s.toList.flatMap String.utf8EncodeChar

/-! ## internal/protocol/types.go -/

def ProtocolVersion : Int := 1

def TypeChatError : String := "chat.error"
def TypeStatus : String := "status"

def RolePhone : String := "phone"
def RoleAgent : String := "agent"

def ErrPeerOffline : String := "PEER_OFFLINE"
def ErrRateLimited : String := "RATE_LIMITED"
def ErrDailyQuotaExceeded : String := "DAILY_QUOTA_EXCEEDED"
def ErrMonthlyQuotaExceeded : String := "MONTHLY_QUOTA_EXCEEDED"
def ErrMessageTooLarge : String := "MESSAGE_TOO_LARGE"

/-- Go struct `AuthPayload`. -/
structure AuthPayload where
  Token : String
  Role : String
deriving DecidableEq, Repr

/-- Go struct `StatusPayload`. -/
structure StatusPayload where
  Peer : String
deriving DecidableEq, Repr

/-- Go struct `ErrorPayload`; `RetryAfterMs` carries the tag `omitempty`. -/
structure ErrorPayload where
  Code : String
  Message : String
  RetryAfterMs : Int
deriving DecidableEq, Repr

/-- The `interface{}` values the hub hands to `NewEnvelope`. -/
inductive PayloadValue where
  | status (p : StatusPayload)
  | error (p : ErrorPayload)
  | null
deriving DecidableEq, Repr

/-! ## encoding/json, as far as the hub uses it -/

def quoteChar : Char := Char.ofNat 34
def backslashChar : Char := Char.ofNat 92

def hexDigit (n : Nat) : Char := "0123456789abcdef".toList.getD n '0'

/-- How `json.Marshal` writes one character of a string (HTML escaping on). -/
def jsonEscapeChar (c : Char) : List Char :=
  if c = quoteChar ∨ c = backslashChar then [backslashChar, c]
  else if c.toNat = 8 then [backslashChar, 'b']
  else if c.toNat = 12 then [backslashChar, 'f']
  else if c.toNat = 10 then [backslashChar, 'n']
  else if c.toNat = 13 then [backslashChar, 'r']
  else if c.toNat = 9 then [backslashChar, 't']
  else if c.toNat < 32 ∨ c = '<' ∨ c = '>' ∨ c = '&' then
    [backslashChar, 'u', '0', '0', hexDigit (c.toNat / 16), hexDigit (c.toNat % 16)]
  else if c.toNat = 0x2028 ∨ c.toNat = 0x2029 then
    [backslashChar, 'u', '2', '0', '2', hexDigit (c.toNat % 16)]
  else [c]

/-- A Go string as a JSON string literal. -/
def jsonString (s : String) : String :=
  String.mk ([quoteChar] ++ s.toList.flatMap jsonEscapeChar ++ [quoteChar])

/-- The text `json.Marshal` produces for a payload value. Field order follows the
struct declarations; `retry_after_ms` is `omitempty`. -/
def jsonMarshalText : PayloadValue → String
  | .status p => "\x7b" ++ jsonString "peer" ++ ":" ++ jsonString p.Peer ++ "\x7d"
  | .error p =>
      "\x7b" ++ jsonString "code" ++ ":" ++ jsonString p.Code ++ ","
        ++ jsonString "message" ++ ":" ++ jsonString p.Message
        ++ (if p.RetryAfterMs = 0 then ""
            else "," ++ jsonString "retry_after_ms" ++ ":" ++ toString p.RetryAfterMs)
        ++ "\x7d"
  | .null => "null"

/-- The bytes of `json.Marshal(payload)`. It cannot fail on these values: their
fields are strings and integers. -/
def jsonMarshal (p : PayloadValue) : Bytes := strBytes (jsonMarshalText p)

/-! ## encoding/json: the scanner -/

/-- Go `isSpace`: the four bytes JSON allows between tokens. -/
def isSpace (b : UInt8) : Bool := b = 32 || b = 9 || b = 13 || b = 10

/-- Drop leading insignificant white space (`scanSkipSpace`). -/
def skipSpace : Bytes → Bytes
  | [] => []
  | b :: bs => if isSpace b then skipSpace bs else b :: bs

def isDigit (b : UInt8) : Bool := 48 ≤ b && b ≤ 57

def isHexDigit (b : UInt8) : Bool :=
  isDigit b || (97 ≤ b && b ≤ 102) || (65 ≤ b && b ≤ 70)

/-- The scanner inside a string literal, after the opening quote; the result is
what follows the closing quote. State 0 is `stateInString`, 1 is
`stateInStringEsc`, and `k + 2` is the state with `k + 1` hexadecimal digits of a
`\u` escape still to come. -/
def scanString : Nat → Bytes → Option Bytes
  | _, [] => none
  | 0, b :: bs =>
      if b = 34 then some bs
      else if b = 92 then scanString 1 bs
      else if b < 32 then none
      else scanString 0 bs
  | 1, b :: bs =>
      if b = 98 ∨ b = 102 ∨ b = 110 ∨ b = 114 ∨ b = 116 ∨ b = 92 ∨ b = 47 ∨ b = 34 then
        scanString 0 bs
      else if b = 117 then scanString 5 bs
      else none
  | k + 2, b :: bs =>
      if isHexDigit b then scanString (if k = 0 then 0 else k + 1) bs else none

/-- Drop a run of decimal digits. -/
def skipDigits : Bytes → Bytes
  | [] => []
  | b :: bs => if isDigit b then skipDigits bs else b :: bs

/-- The exponent of a number, if there is one (`stateE`, `stateESign`, `stateE0`). -/
def scanExp : Bytes → Option Bytes
  | [] => some []
  | e :: r =>
      if e = 101 ∨ e = 69 then
        match r with
        | [] => none
        | s :: t =>
            if s = 43 ∨ s = 45 then
              match t with
              | [] => none
              | d :: u => if isDigit d then some (skipDigits u) else none
            else if isDigit s then some (skipDigits t)
            else none
      else some (e :: r)

/-- The fraction of a number, if there is one (`stateDot`, `stateDot0`). -/
def scanFrac : Bytes → Option Bytes
  | [] => some []
  | p :: r =>
      if p = 46 then
        match r with
        | [] => none
        | d :: u => if isDigit d then scanExp (skipDigits u) else none
      else scanExp (p :: r)

/-- The integer part of a number after an optional minus sign (`state0`, `state1`). -/
def scanInt : Bytes → Option Bytes
  | [] => none
  | d :: r =>
      if d = 48 then scanFrac r
      else if isDigit d then scanFrac (skipDigits r)
      else none

/-- A number literal, from its first byte (`stateNeg` after a minus sign). -/
def scanNumber : Bytes → Option Bytes
  | [] => none
  | b :: bs => if b = 45 then scanInt bs else scanInt (b :: bs)

/-- The rest of a literal name: `inp` must begin with `lit`. -/
def scanLit : Bytes → Bytes → Option Bytes
  | [], inp => some inp
  | _ :: _, [] => none
  | l :: ls, b :: bs => if b = l then scanLit ls bs else none

/-- What the scanner is reading: one value, the elements of an array after its
bracket, or the members of an object after its brace. -/
inductive ScanMode where
  | value
  | elems
  | members
deriving DecidableEq, Repr

/-- The constant `maxNestingDepth` of encoding/json: the scanner gives the error
"exceeded max depth" when an opening bracket or brace would make more than this
many arrays and objects open at once. -/
def maxNestingDepth : Nat := 10000

/-- The scanner of `encoding/json` as a recursive descent: the input begins at
the first byte of a value (of an element, of a key), the result is what follows
the value (the closing bracket, the closing brace). The first argument bounds
the number of nested calls; the second is the number of arrays and objects open
around the position, the length of the scanner's `parseState`, and
`pushParseState` refuses a bracket or brace at depth `maxNestingDepth`. -/
def scan : Nat → Nat → ScanMode → Bytes → Option Bytes
  | 0, _, _, _ => none
  | _ + 1, _, _, [] => none
  | n + 1, d, .value, b :: bs =>
      if b = 34 then scanString 0 bs
      else if b = 123 then
        if maxNestingDepth ≤ d then none
        else
          match skipSpace bs with
          | [] => none
          | c :: cs => if c = 125 then some cs else scan n (d + 1) .members (c :: cs)
      else if b = 91 then
        if maxNestingDepth ≤ d then none
        else
          match skipSpace bs with
          | [] => none
          | c :: cs => if c = 93 then some cs else scan n (d + 1) .elems (c :: cs)
      else if b = 116 then scanLit [114, 117, 101] bs
      else if b = 102 then scanLit [97, 108, 115, 101] bs
      else if b = 110 then scanLit [117, 108, 108] bs
      else scanNumber (b :: bs)
  | n + 1, d, .elems, b :: bs =>
      (scan n d .value (b :: bs)).bind fun r =>
        match skipSpace r with
        | [] => none
        | c :: cs =>
            if c = 44 then scan n d .elems (skipSpace cs)
            else if c = 93 then some cs
            else none
  | n + 1, d, .members, b :: bs =>
      if b = 34 then
        (scanString 0 bs).bind fun r1 =>
          match skipSpace r1 with
          | [] => none
          | c :: cs =>
              if c = 58 then
                (scan n d .value (skipSpace cs)).bind fun r2 =>
                  match skipSpace r2 with
                  | [] => none
                  | e :: es =>
                      if e = 44 then scan n d .members (skipSpace es)
                      else if e = 125 then some es
                      else none
              else none
      else none

/-- Nested calls that suffice for an input: each call but one in two reads a byte. -/
def scanFuel (inp : Bytes) : Nat := 2 * inp.length + 2

/-- The check `checkValid`: one JSON value, white space around it allowed. -/
def jsonValid (data : Bytes) : Bool :=
  match scan (scanFuel data) 0 .value (skipSpace data) with
  | some r => skipSpace r = []
  | none => false

/-! ## encoding/json: compaction of a raw message -/

/-- One digit of the table `hex` of encoding/json, as a byte. -/
def hexNibble (n : Nat) : UInt8 := if n < 10 then UInt8.ofNat (48 + n) else UInt8.ofNat (87 + n)

/-- Whether the input begins with the encoding of U+2028 or U+2029. -/
def lineSeparatorAt : Bytes → Bool
  | b :: b1 :: b2 :: _ => b = 226 && b1 = 128 && (b2 = 168 || b2 = 169)
  | _ => false

/-- The bytes `appendCompact(dst, src, true)` writes for a valid `src`: white
space outside strings is dropped, `<`, `>`, `&` and the encodings of U+2028 and
U+2029 are written as `\u` escapes, every other byte is copied. State 0 is
outside a string, 1 inside one, 2 right after a backslash inside one; `skip`
counts the bytes still to pass over after an escape written for three bytes. -/
def squeeze : Nat → Nat → Bytes → Bytes
  | _, _, [] => []
  | st, skip, b :: bs =>
      let st1 : Nat :=
        if st = 0 then (if b = 34 then 1 else 0)
        else if st = 1 then (if b = 34 then 0 else if b = 92 then 2 else 1)
        else 1
      if 0 < skip then squeeze st1 (skip - 1) bs
      else if b = 60 ∨ b = 62 ∨ b = 38 then
        [92, 117, 48, 48, hexNibble (b.toNat / 16), hexNibble (b.toNat % 16)] ++ squeeze st1 0 bs
      else if lineSeparatorAt (b :: bs) then
        [92, 117, 50, 48, 50, hexNibble ((bs.getD 1 0).toNat % 16)] ++ squeeze st1 2 bs
      else if st = 0 ∧ isSpace b then squeeze 0 0 bs
      else b :: squeeze st1 0 bs

/-- How `json.Marshal` writes a `json.RawMessage`: the compacted bytes, or an
error (`none`) when the message is not valid JSON. -/
def jsonCompact (p : Bytes) : Option Bytes :=
  if jsonValid p then some (squeeze 0 0 p) else none

/-- A raw message in the form `json.Marshal` itself writes, fit to stand as a
member of an object: one JSON value from the first byte to the last, read with
one object open around it (so at most `maxNestingDepth - 1` arrays and objects
are open at once inside it), which compaction leaves as it is. -/
def Compact (p : Bytes) : Prop :=
  scan (scanFuel p) 1 .value p = some [] ∧ squeeze 0 0 p = p

instance (p : Bytes) : Decidable (Compact p) := by
  unfold Compact; exact inferInstance

/-! ## internal/protocol/message.go -/

/-- Go struct `Envelope`; `MsgType` is its field `Type` and `Payload` is a
`json.RawMessage`. -/
structure Envelope where
  V : Int
  MsgType : String
  ID : String
  TS : Int
  Payload : Bytes
deriving DecidableEq, Repr

/-- `NewEnvelope(msgType, payload)`. The identifier `generateID()` draws and the
millisecond clock reading are the arguments `id` and `ts`. -/
def NewEnvelope (msgType : String) (payload : PayloadValue) (id : String) (ts : Int) :
    Envelope :=
  { V := ProtocolVersion, MsgType := msgType, ID := id, TS := ts, Payload := jsonMarshal payload }

/-- The literal `null`. -/
def nullLit : Bytes := [110, 117, 108, 108]

/-- `RawMessage.MarshalJSON`: a nil message is written as `null`, any other as
its own bytes. A `RawMessage` of this program is nil (the zero value, a frame
without the key) or holds at least one byte (the output of `json.Marshal`, the
text of a value the decoder read), so the empty list stands for nil. -/
def rawMessageJSON (m : Bytes) : Bytes := if m = [] then nullLit else m

/-- `Envelope.Marshal`: the fields in declaration order, the payload compacted as
`json.Marshal` writes a `json.RawMessage`. `none` is its error result, which it
gives only for a payload that is not valid JSON. -/
def Envelope.Marshal (e : Envelope) : Option Bytes :=
  (jsonCompact (rawMessageJSON e.Payload)).map fun p =>
    strBytes ("\x7b" ++ jsonString "v" ++ ":" ++ toString e.V ++ ","
        ++ jsonString "type" ++ ":" ++ jsonString e.MsgType ++ ","
        ++ jsonString "id" ++ ":" ++ jsonString e.ID ++ ","
        ++ jsonString "ts" ++ ":" ++ toString e.TS ++ ","
        ++ jsonString "payload" ++ ":")
      ++ p ++ strBytes "\x7d"

/-- The bytes of an envelope that `NewEnvelope` built: its payload is the output
of `json.Marshal`, on which `Envelope.Marshal` has no error to report (theorem
`NewEnvelope_Marshal`), so the branches `if err != nil` after `env.Marshal()` in
hub.go and websocket.go are never taken. -/
def Envelope.frame (e : Envelope) : Bytes := e.Marshal.getD []

/-! ## encoding/json: the decoder -/

/-- The bytes of `inp` in front of its final segment `rest`, less `k` of them. -/
def before (inp rest : Bytes) (k : Nat) : Bytes := inp.take (inp.length - rest.length - k)

def hexVal (b : UInt8) : Nat :=
  if isDigit b then b.toNat - 48
  else if 97 ≤ b ∧ b ≤ 102 then b.toNat - 87
  else b.toNat - 55

/-- The four hexadecimal digits of a `\u` escape (`getu4`, after the `\u`). -/
def getu4 : Bytes → Option Nat
  | a :: b :: c :: d :: _ =>
      if isHexDigit a ∧ isHexDigit b ∧ isHexDigit c ∧ isHexDigit d then
        some (((hexVal a * 16 + hexVal b) * 16 + hexVal c) * 16 + hexVal d)
      else none
  | _ => none

/-- The second half of a surrogate pair: `\u` and four digits in DC00..DFFF. -/
def lowSurrogate : Bytes → Option Nat
  | s :: u :: r =>
      if s = 92 ∧ u = 117 then
        match getu4 r with
        | some w => if 0xDC00 ≤ w ∧ w < 0xE000 then some w else none
        | none => none
      else none
  | _ => none

/-- `utf8.EncodeRune` of a valid code point. -/
def runeBytes (v : Nat) : Bytes := String.utf8EncodeChar (Char.ofNat v)

/-- The encoding of U+FFFD, which replaces what is not valid. -/
def replacementBytes : Bytes := [239, 191, 189]

def isCont (b : UInt8) : Bool := 128 ≤ b && b ≤ 191

/-- The size `utf8.DecodeRune` reports for a multi-byte encoding at the head of
the input, `none` for what it reports as `RuneError` of size 1. -/
def runeLen : Bytes → Option Nat
  | [] => none
  | b0 :: rest =>
      if b0 < 194 then none
      else if b0 ≤ 223 then
        match rest with
        | b1 :: _ => if isCont b1 then some 2 else none
        | _ => none
      else if b0 ≤ 239 then
        match rest with
        | b1 :: b2 :: _ =>
            if (if b0 = 224 then 160 ≤ b1 && b1 ≤ 191
                else if b0 = 237 then 128 ≤ b1 && b1 ≤ 159
                else isCont b1) && isCont b2 then some 3 else none
        | _ => none
      else if b0 ≤ 244 then
        match rest with
        | b1 :: b2 :: b3 :: _ =>
            if (if b0 = 240 then 144 ≤ b1 && b1 ≤ 191
                else if b0 = 244 then 128 ≤ b1 && b1 ≤ 143
                else isCont b1) && isCont b2 && isCont b3 then some 4 else none
        | _ => none
      else none

/-- The byte a one-letter escape stands for. -/
def simpleEscape (e : UInt8) : Option UInt8 :=
  if e = 34 ∨ e = 92 ∨ e = 47 then some e
  else if e = 98 then some 8
  else if e = 102 then some 12
  else if e = 110 then some 10
  else if e = 114 then some 13
  else if e = 116 then some 9
  else none

/-- The decoder `unquote` on the bytes between the quotes of a string literal:
escapes are resolved, a lone surrogate and bytes that are not UTF-8 become
U+FFFD, a valid multi-byte encoding is written back as it was read. The first
argument bounds the number of steps. -/
def unquote : Nat → Bytes → Option Bytes
  | _, [] => some []
  | 0, _ :: _ => none
  | n + 1, b :: bs =>
      if b = 92 then
        match bs with
        | [] => none
        | e :: r =>
            if e = 117 then
              match getu4 r with
              | none => none
              | some v =>
                  if 0xD800 ≤ v ∧ v < 0xE000 then
                    match (if v < 0xDC00 then lowSurrogate (r.drop 4) else none) with
                    | some w =>
                        (unquote n (r.drop 10)).map
                          (runeBytes (0x10000 + (v - 0xD800) * 1024 + (w - 0xDC00)) ++ ·)
                    | none => (unquote n (r.drop 4)).map (replacementBytes ++ ·)
                  else (unquote n (r.drop 4)).map (runeBytes v ++ ·)
            else
              match simpleEscape e with
              | some x => (unquote n r).map (x :: ·)
              | none => none
      else if b = 34 ∨ b < 32 then none
      else if b < 128 then (unquote n bs).map (b :: ·)
      else
        match runeLen (b :: bs) with
        | some k => (unquote n ((b :: bs).drop k)).map ((b :: bs).take k ++ ·)
        | none => (unquote n bs).map (replacementBytes ++ ·)

/-- The members of a JSON object in order, each as its key (unquoted) and the
raw text of its value; the input begins at the opening quote of a key, the
second component is what follows the closing brace. The object is the outermost
value of the input, so its values are read with one object open. -/
def scanMembers : Nat → Bytes → Option (List (Bytes × Bytes) × Bytes)
  | 0, _ => none
  | _ + 1, [] => none
  | n + 1, q :: bs =>
      if q = 34 then
        (scanString 0 bs).bind fun r1 =>
          (unquote bs.length (before bs r1 1)).bind fun key =>
            match skipSpace r1 with
            | [] => none
            | c :: cs =>
                if c = 58 then
                  (scan (scanFuel cs) 1 .value (skipSpace cs)).bind fun r2 =>
                    match skipSpace r2 with
                    | [] => none
                    | d :: ds =>
                        if d = 44 then
                          (scanMembers n (skipSpace ds)).map fun m =>
                            ((key, before (skipSpace cs) r2 0) :: m.1, m.2)
                        else if d = 125 then some ([(key, before (skipSpace cs) r2 0)], ds)
                        else none
                else none
      else none

/-- The members of the JSON object that makes up `data`; `none` when `data` is
not one valid object. -/
def objectMembers (data : Bytes) : Option (List (Bytes × Bytes)) :=
  match skipSpace data with
  | [] => none
  | b :: bs =>
      if b = 123 then
        match skipSpace bs with
        | [] => none
        | c :: cs =>
            (if c = 125 then some ([], cs) else scanMembers data.length (c :: cs)).bind fun m =>
              if skipSpace m.2 = [] then some m.1 else none
      else none

/-- The raw text of the first member with the given key. -/
def lookupKey (key : Bytes) : List (Bytes × Bytes) → Option Bytes
  | [] => none
  | m :: ms => if m.1 = key then some m.2 else lookupKey key ms

/-- The value of a run of decimal digits read after `acc`. -/
def digitsVal : Bytes → Nat → Option Nat
  | [], acc => some acc
  | b :: bs, acc => if isDigit b then digitsVal bs (acc * 10 + (b.toNat - 48)) else none

/-- `strconv.ParseInt(raw, 10, 64)` on a number literal the scanner accepted: it
fails on a fraction, on an exponent and outside the range of `int64`. -/
def parseInt (raw : Bytes) : Option Int :=
  match raw with
  | [] => none
  | b :: bs =>
      (if b = 45 then
          (if bs = [] then none
            else Option.map (fun n : Nat => -(Int.ofNat n)) (digitsVal bs 0))
        else Option.map (fun n : Nat => Int.ofNat n) (digitsVal (b :: bs) 0)).bind fun v =>
        if -(2 : Int) ^ 63 ≤ v ∧ v < (2 : Int) ^ 63 then some v else none

/-- An `Envelope` as the decoder fills it, the two Go strings as their bytes. -/
structure WireEnvelope where
  V : Int
  MsgType : Bytes
  ID : Bytes
  TS : Int
  Payload : Bytes
deriving DecidableEq, Repr

/-- The zero value `var env protocol.Envelope`. -/
def WireEnvelope.zero : WireEnvelope := { V := 0, MsgType := [], ID := [], TS := 0, Payload := [] }

/-- An envelope of the model as the decoder would hold it. -/
def Envelope.wire (e : Envelope) : WireEnvelope :=
  { V := e.V, MsgType := strBytes e.MsgType, ID := strBytes e.ID, TS := e.TS,
    Payload := e.Payload }

/-- The folding of a key under which the decoder looks up a field: ASCII letters
in upper case, and the two runes outside ASCII that fold to an ASCII letter
(U+017F to S, U+212A to K); `skip` counts the bytes of such a rune still to pass
over. -/
def foldName : Nat → Bytes → Bytes
  | _, [] => []
  | skip, b :: bs =>
      if 0 < skip then foldName (skip - 1) bs
      else if 97 ≤ b ∧ b ≤ 122 then (b - 32) :: foldName 0 bs
      else if b = 197 ∧ bs.head? = some 191 then 83 :: foldName 1 bs
      else if b = 226 ∧ bs.head? = some 132 ∧ bs.tail.head? = some 170 then 75 :: foldName 2 bs
      else b :: foldName 0 bs

/-- An integer field set from the raw text of a value: `null` leaves it as it
is, anything but an integer literal in range is an `UnmarshalTypeError`. -/
def decodeInt (old : Int) (raw : Bytes) : Option Int :=
  if raw = nullLit then some old
  else
    match raw with
    | [] => none
    | b :: _ => if b = 45 ∨ isDigit b then parseInt raw else none

/-- A string field set from the raw text of a value: `null` leaves it as it is,
anything but a string literal is an `UnmarshalTypeError`. -/
def decodeString (old : Bytes) (raw : Bytes) : Option Bytes :=
  if raw = nullLit then some old
  else
    match raw with
    | [] => none
    | b :: bs => if b = 34 then unquote bs.length bs.dropLast else none

/-- One member stored into the envelope: the field is found by its folded name,
a key that names no field is skipped, `Payload` takes the raw text of any value
(`RawMessage.UnmarshalJSON`). -/
def setField (e : WireEnvelope) (m : Bytes × Bytes) : Option WireEnvelope :=
  let k := foldName 0 m.1
  if k = [86] then (decodeInt e.V m.2).map fun v => { e with V := v }
  else if k = [84, 89, 80, 69] then (decodeString e.MsgType m.2).map fun s => { e with MsgType := s }
  else if k = [73, 68] then (decodeString e.ID m.2).map fun s => { e with ID := s }
  else if k = [84, 83] then (decodeInt e.TS m.2).map fun v => { e with TS := v }
  else if k = [80, 65, 89, 76, 79, 65, 68] then some { e with Payload := m.2 }
  else some e

/-- All members stored in order, a later one over an earlier one. -/
def setFields : WireEnvelope → List (Bytes × Bytes) → Option WireEnvelope
  | e, [] => some e
  | e, m :: ms => (setField e m).bind fun e1 => setFields e1 ms

/-- `json.Unmarshal(data, &env)` into a zero `Envelope`; `none` stands for any
error it returns. -/
def jsonUnmarshal (data : Bytes) : Option WireEnvelope :=
  if (skipSpace data).take 4 = nullLit ∧ skipSpace ((skipSpace data).drop 4) = [] then
    some WireEnvelope.zero
  else (objectMembers data).bind (setFields WireEnvelope.zero)

/-! ## internal/ratelimit/limiter.go and golang.org/x/time/rate -/

def PhoneMessagesPerMinute : Int := 30
def AgentMessagesPerMinute : Int := 120
def MaxMessageSize : Nat := 5 * 1024 * 1024

/-- Number of token units in one token: with this unit a limiter of `m` events per
minute earns exactly `m` units per nanosecond. -/
def tokenUnit : Int := 60 * 1000000000

/-- Modelled from the spec: `rate.Limiter` of golang.org/x/time/rate, which is not
under src/. Section 4.3 describes a classic token bucket, one per connection,
with a sustained rate and a burst; this is that bucket in exact arithmetic.
`perMinute / 60` is its `limit` in events per second, `tokens` is counted in units
of `1 / tokenUnit` token. -/
structure Limiter where
  perMinute : Int
  burst : Int
  tokens : Int
  last : Time
deriving DecidableEq, Repr

/-- Modelled from the spec: `rate.NewLimiter(perMinute / 60, burst)`; the bucket
starts full. -/
def NewLimiter (perMinute burst : Int) : Limiter :=
  { perMinute := perMinute, burst := burst, tokens := burst * tokenUnit, last := 0 }

def NewPhoneLimiter : Limiter := NewLimiter PhoneMessagesPerMinute PhoneMessagesPerMinute

def NewAgentLimiter : Limiter := NewLimiter AgentMessagesPerMinute AgentMessagesPerMinute

/-- Modelled from the spec: `Limiter.advance`, the token count at time `t`: the
tokens earned since the last update are added, capped at the burst. -/
def Limiter.advance (lim : Limiter) (t : Time) : Int :=
  let last := if t < lim.last then t else lim.last
  let tokens := lim.tokens + (t - last) * lim.perMinute
  if tokens > lim.burst * tokenUnit then lim.burst * tokenUnit else tokens

/-- Modelled from the spec: `Limiter.Allow()` read at clock value `t` ("consumes one
token or denies"), that is `reserveN(t, 1, 0).ok` of the library for a finite
positive limit: the wait for the missing fraction of a token is cut to whole
nanoseconds, and the state is written only when the event is allowed. -/
def Limiter.Allow (lim : Limiter) (t : Time) : Bool × Limiter :=
  let tokens := lim.advance t - tokenUnit
  let waitDuration : Int := if tokens < 0 then (-tokens) / lim.perMinute else 0
  if 1 ≤ lim.burst ∧ waitDuration ≤ 0 then
    (true, { lim with last := t, tokens := tokens })
  else (false, lim)

/-! ## internal/store/store.go -/

/-- The `Store` interface over an implementation state `σ`. A Go `error` result is
`some msg` (or `Except.error msg`); writes return the new state. -/
structure Store (σ : Type) where
  CreateToken : σ → String → σ × Option String
  DeleteToken : σ → String → σ × Option String
  TokenExists : σ → String → Except String Bool
  RecordBytes : σ → String → Int → σ × Option String
  GetDailyUsage : σ → String → Except String Int
  GetMonthlyUsage : σ → String → Except String Int

/-- State of `mockStore` (hub_test.go): two maps. -/
structure MockState where
  tokens : String → Bool
  bandwidth : String → Int

def newMockStore : MockState := { tokens := fun _ => false, bandwidth := fun _ => 0 }

/-- The `mockStore` of hub_test.go: it never fails and keeps one running total per
token, reported as both the daily and the monthly usage. -/
def mockStore : Store MockState where
  CreateToken st token :=
    ({ st with tokens := fun t => if t = token then true else st.tokens t }, none)
  DeleteToken st token :=
    ({ st with tokens := fun t => if t = token then false else st.tokens t }, none)
  TokenExists st token := .ok (st.tokens token)
  RecordBytes st token bytes :=
    ({ st with bandwidth := fun t => if t = token then st.bandwidth t + bytes
                                     else st.bandwidth t }, none)
  GetDailyUsage st token := .ok (st.bandwidth token)
  GetMonthlyUsage st token := .ok (st.bandwidth token)

/-! ## internal/ratelimit/quota.go -/

def DailyQuotaBytes : Int := 500 * 1024 * 1024
def MonthlyQuotaBytes : Int := 10 * 1024 * 1024 * 1024

/-- `QuotaChecker.Check`: the pair (code, err) it returns. -/
def QuotaChecker.Check {σ : Type} (S : Store σ) (st : σ) (token : String) :
    String × Option String :=
  match S.GetDailyUsage st token with
  | .error e => ("", some e)
  | .ok daily =>
    if daily ≥ DailyQuotaBytes then ("DAILY_QUOTA_EXCEEDED", none)
    else
      match S.GetMonthlyUsage st token with
      | .error e => ("", some e)
      | .ok monthly =>
        if monthly ≥ MonthlyQuotaBytes then ("MONTHLY_QUOTA_EXCEEDED", none)
        else ("", none)

/-- `QuotaChecker.Record`. -/
def QuotaChecker.Record {σ : Type} (S : Store σ) (st : σ) (token : String) (bytes : Int) :
    σ × Option String :=
  S.RecordBytes st token bytes

/-! ## internal/hub/session.go -/

/-- Capacity of a connection's `Send` channel (`make(chan []byte, 256)`). -/
def sendCap : Nat := 256

/-- Go struct `Connection` without its transport handle and ping clock. `Send` is
the content of the outbound channel, oldest frame first; `Done` is true once the
done channel has been closed. -/
structure Connection where
  Role : String
  Limiter : Option Limiter
  BytesSent : Int
  BytesRecv : Int
  Send : List Bytes
  Done : Bool
deriving DecidableEq, Repr

/-- Go struct `Session`; a nil slot is `none`, a `LastActive` that was never stored
is `none`. -/
structure Session where
  Token : String
  PhoneConn : Option ConnId
  AgentConn : Option ConnId
  LastActive : Option Time
deriving DecidableEq, Repr

/-- `NewConnection(ws, role, limiter)`. -/
def NewConnection (role : String) (limiter : Option Limiter) : Connection :=
  { Role := role, Limiter := limiter, BytesSent := 0, BytesRecv := 0, Send := [], Done := false }

/-- `Connection.CloseDone`: closing twice is closing once. -/
def Connection.CloseDone (c : Connection) : Connection := { c with Done := true }

/-- The non-blocking send `select { case c.Send <- data: default: }`. -/
def Connection.trySend (c : Connection) (data : Bytes) : Connection :=
  if c.Send.length < sendCap then { c with Send := c.Send ++ [data] } else c

/-- `Session.PeerConn`. -/
def Session.PeerConn (s : Session) (role : String) : Option ConnId :=
  if role = "phone" then s.AgentConn else s.PhoneConn

/-- `Session.SetConn`, with the clock reading it stores in `LastActive`. -/
def Session.SetConn (s : Session) (role : String) (conn : ConnId) (now : Time) : Session :=
  if role = "phone" then { s with PhoneConn := some conn, LastActive := some now }
  else { s with AgentConn := some conn, LastActive := some now }

/-- `Session.ClearConn`. -/
def Session.ClearConn (s : Session) (role : String) : Session :=
  if role = "phone" then { s with PhoneConn := none } else { s with AgentConn := none }

/-- `Session.IsPaired`. -/
def Session.IsPaired (s : Session) : Bool :=
  s.PhoneConn.isSome && s.AgentConn.isSome

/-- `Session.SameRoleConn`. -/
def Session.SameRoleConn (s : Session) (role : String) : Option ConnId :=
  if role = "phone" then s.PhoneConn else s.AgentConn

/-- The slot of a session that belongs to a role, as `SetConn` and `ClearConn`
select it. -/
def Session.slot (s : Session) (role : String) : Option ConnId := s.SameRoleConn role

/-! ## internal/hub/hub.go -/

/-- Go struct `Hub` together with the two heaps its pointers refer to.
`sessions` is the table `map[string]*Session`; `sess` and `conn` give the current
value of every session and connection object; `nextSess` is the next unused
session address. -/
structure Hub (σ : Type) where
  sessions : String → Option SessId
  store : σ
  connCount : Int
  sess : SessId → Session
  nextSess : SessId
  conn : ConnId → Connection

/-- `NewHub(s)`: no sessions, counter 0, every connection object as `NewConnection`
leaves it. -/
def NewHub {σ : Type} (s : σ) : Hub σ :=
  { sessions := fun _ => none, store := s, connCount := 0,
    sess := fun _ => { Token := "", PhoneConn := none, AgentConn := none, LastActive := none },
    nextSess := 0, conn := fun _ => NewConnection "" none }

/-- Write through a `*Connection`. -/
def Hub.modifyConn {σ : Type} (h : Hub σ) (c : ConnId) (f : Connection → Connection) : Hub σ :=
  { h with conn := Function.update h.conn c (f (h.conn c)) }

/-- Write through a `*Session`. -/
def Hub.modifySess {σ : Type} (h : Hub σ) (s : SessId) (f : Session → Session) : Hub σ :=
  { h with sess := Function.update h.sess s (f (h.sess s)) }

/-- `Hub.ConnectionCount`. -/
def Hub.ConnectionCount {σ : Type} (h : Hub σ) : Int := h.connCount

/-- What a call of `Authenticate` ends in: the returned session, the returned
error, or a run-time panic. -/
inductive AuthResult where
  | ok (session : SessId)
  | error (msg : String)
  | panic
deriving DecidableEq, Repr

/-- Lines 85-91 of hub.go: under the table lock, the session of `token` is looked
up, and a new `Session{Token: token}` is allocated and entered when there is
none. -/
def Hub.lookupOrInsert {σ : Type} (h : Hub σ) (token : String) : Hub σ × SessId :=
  match h.sessions token with
  | some s => (h, s)
  | none =>
    ({ h with
        sessions := Function.update h.sessions token (some h.nextSess)
        sess := Function.update h.sess h.nextSess
          { Token := token, PhoneConn := none, AgentConn := none, LastActive := none }
        nextSess := h.nextSess + 1 }, h.nextSess)

/-- Lines 94-97 of hub.go: the connection found in the slot of `role`, if any, has
its done channel closed. -/
def Hub.closeExisting {σ : Type} (h : Hub σ) (session : SessId) (role : String) : Hub σ :=
  match (h.sess session).SameRoleConn role with
  | some existing => h.modifyConn existing Connection.CloseDone
  | none => h

/-- Lines 77-100 of hub.go, the part of `Authenticate` after its checks: role and
limiter are written to the connection, the session is looked up or created, the
incumbent of the slot is told to stop, the connection is installed and counted. -/
def Hub.install {σ : Type} (h : Hub σ) (conn : ConnId) (auth : AuthPayload) (now : Time) :
    Hub σ × SessId :=
  let limiter := if auth.Role = RolePhone then NewPhoneLimiter else NewAgentLimiter
  let h1 := h.modifyConn conn (fun c => { c with Role := auth.Role, Limiter := some limiter })
  let h2 := (h1.lookupOrInsert auth.Token).1
  let session := (h1.lookupOrInsert auth.Token).2
  let h3 := h2.closeExisting session auth.Role
  let h4 := h3.modifySess session (fun s => s.SetConn auth.Role conn now)
  ({ h4 with connCount := h4.connCount + 1 }, session)

/-- `Hub.Authenticate(conn, env)`. `parsed` is the outcome of `env.ParsePayload`,
`now` the clock reading of `SetConn`. The slice `auth.Token[:16]` of the log line
panics on a token shorter than 16 bytes, after the connection was installed and
counted. -/
def Hub.Authenticate {σ : Type} (S : Store σ) (h : Hub σ) (conn : ConnId)
    (parsed : Except String AuthPayload) (now : Time) : Hub σ × AuthResult :=
  match parsed with
  | .error e => (h, .error e)
  | .ok auth =>
    match S.TokenExists h.store auth.Token with
    | .error e => (h, .error e)
    | .ok false => (h, .error "invalid token")
    | .ok true =>
      if auth.Role ≠ RolePhone ∧ auth.Role ≠ RoleAgent then
        (h, .error ("invalid role: " ++ auth.Role))
      else if strLen auth.Token < 16 then ((h.install conn auth now).1, .panic)
      else ((h.install conn auth now).1, .ok (h.install conn auth now).2)

/-- The frame `Disconnect` offers to the peer: a marshalled `status` envelope with
payload `StatusPayload{Peer: "offline"}`. -/
def offlineStatus (id : String) (ts : Int) : Bytes :=
  (NewEnvelope TypeStatus (.status { Peer := "offline" }) id ts).frame

/-- `Hub.Disconnect(session, conn)`; a nil pointer is `none`. `id` and `ts` are the
identifier and timestamp of the status envelope it may build. -/
def Hub.Disconnect {σ : Type} (h : Hub σ) (session : Option SessId) (conn : Option ConnId)
    (id : String) (ts : Int) : Hub σ :=
  match session, conn with
  | some s, some c =>
    let role := (h.conn c).Role
    let h1 := h.modifySess s (fun x => x.ClearConn role)
    let h2 := { h1 with connCount := h1.connCount + (-1) }
    match (h2.sess s).PeerConn role with
    | some peer => h2.modifyConn peer (fun p => p.trySend (offlineStatus id ts))
    | none => h2
  | _, _ => h

/-- The frame `sendError` offers to a connection: a marshalled `chat.error`
envelope. -/
def errorFrame (code message : String) (retryMs : Int) (id : String) (ts : Int) : Bytes :=
  (NewEnvelope TypeChatError
    (.error { Code := code, Message := message, RetryAfterMs := retryMs }) id ts).frame

/-- `Hub.sendError(conn, code, message, retryMs)`: a non-blocking send on the
connection's own queue; its Go result is always nil. -/
def Hub.sendError {σ : Type} (h : Hub σ) (conn : ConnId) (code message : String)
    (retryMs : Int) (id : String) (ts : Int) : Hub σ :=
  h.modifyConn conn (fun c => c.trySend (errorFrame code message retryMs id ts))

/-- Which return statement of `ForwardMessage` was taken: the frame was put on a
peer's queue, or the sender was answered with `sendError(code, _, retryMs)`. -/
inductive Outcome where
  | delivered (peer : ConnId)
  | refused (code : String) (retryMs : Int)
deriving DecidableEq, Repr

/-- Line 140 of hub.go, `sender.Limiter != nil && !sender.Limiter.Allow()`, read
as "the frame may pass": a connection without limiter always passes, otherwise
`Allow` decides and leaves its new state in the limiter. -/
def Hub.limiterGate {σ : Type} (h : Hub σ) (sender : ConnId) (now : Time) : Bool × Hub σ :=
  match (h.conn sender).Limiter with
  | none => (true, h)
  | some lim =>
    ((lim.Allow now).1, h.modifyConn sender (fun c => { c with Limiter := some (lim.Allow now).2 }))

/-- Lines 160-167 of hub.go, the first branch of the `select`: the frame goes onto
the peer's queue, then the ledger and the two byte counters are updated. An error
of `Record` is only logged. -/
def Hub.deliver {σ : Type} (S : Store σ) (h : Hub σ) (session : SessId) (sender peer : ConnId)
    (raw : Bytes) : Hub σ :=
  let msgSize : Int := raw.length
  let h2 := h.modifyConn peer (fun p => { p with Send := p.Send ++ [raw] })
  let h3 := { h2 with
    store := (QuotaChecker.Record S h2.store (h2.sess session).Token msgSize).1 }
  let h4 := h3.modifyConn sender (fun c => { c with BytesSent := c.BytesSent + msgSize })
  h4.modifyConn peer (fun p => { p with BytesRecv := p.BytesRecv + msgSize })

/-- `Hub.ForwardMessage(session, sender, raw)`. `now` is the clock reading of the
rate limiter, `id` and `ts` go into the error envelope if one is built. The Go
result is nil on every path; the second component names the path. An error of the
quota check is only logged, so only its code is used. -/
def Hub.ForwardMessage {σ : Type} (S : Store σ) (h : Hub σ) (session : SessId)
    (sender : ConnId) (raw : Bytes) (now : Time) (id : String) (ts : Int) :
    Hub σ × Outcome :=
  if raw.length > MaxMessageSize then
    (h.sendError sender ErrMessageTooLarge "Message exceeds 5MB limit" 0 id ts,
      .refused ErrMessageTooLarge 0)
  else
    let h1 := (h.limiterGate sender now).2
    if (h.limiterGate sender now).1 = false then
      (h1.sendError sender ErrRateLimited "Rate limit exceeded" 1000 id ts,
        .refused ErrRateLimited 1000)
    else
      let code := (QuotaChecker.Check S h1.store (h1.sess session).Token).1
      if code ≠ "" then
        (h1.sendError sender code "Bandwidth quota exceeded" 60000 id ts, .refused code 60000)
      else
        match (h1.sess session).PeerConn (h1.conn sender).Role with
        | none =>
          (h1.sendError sender ErrPeerOffline "Peer is not connected" 0 id ts,
            .refused ErrPeerOffline 0)
        | some peer =>
          if (h1.conn peer).Send.length < sendCap then
            (h1.deliver S session sender peer raw, .delivered peer)
          else
            (h1.sendError sender ErrPeerOffline "Peer send buffer full" 1000 id ts,
              .refused ErrPeerOffline 1000)

/-- `Hub.GetTokenStatus(token)`. -/
def Hub.GetTokenStatus {σ : Type} (h : Hub σ) (token : String) : Bool × Bool :=
  match h.sessions token with
  | some s => ((h.sess s).PhoneConn.isSome, (h.sess s).AgentConn.isSome)
  | none => (false, false)

/-- The slot a token's session holds for a role, read through the session table;
`none` when the table has no session for the token. -/
def Hub.slotOf {σ : Type} (h : Hub σ) (token role : String) : Option ConnId :=
  match h.sessions token with
  | some s => (h.sess s).slot role
  | none => none

/-- Every table entry points at an allocated session object that carries its key:
the table is only ever extended by `sessions[auth.Token] = &Session{Token:
auth.Token}` and `Token` is never written again. -/
def Hub.WellKeyed {σ : Type} (h : Hub σ) : Prop :=
  ∀ t s, h.sessions t = some s → (h.sess s).Token = t ∧ s < h.nextSess

/-! ## internal/server/websocket.go: the writer side of a queue -/

/-- The receive `msg := <-conn.Send` of `writePump`: the oldest frame leaves the
queue; with nothing queued the writer keeps waiting. -/
def Hub.writePumpRecv {σ : Type} (h : Hub σ) (c : ConnId) : Hub σ × Option Bytes :=
  match (h.conn c).Send with
  | [] => (h, none)
  | msg :: rest => (h.modifyConn c (fun x => { x with Send := rest }), some msg)

/-- One step of the traffic around a sender: its reader hands a frame to
`ForwardMessage`, the writer of some connection takes a frame off its queue, or
the relay offers an envelope (status, error, pong) to some connection without
blocking. -/
inductive Event where
  | forward (raw : Bytes) (now : Time) (id : String) (ts : Int)
  | dequeue (c : ConnId)
  | notify (c : ConnId) (data : Bytes)
deriving DecidableEq, Repr

/-- A hub state with two histories per connection: `wire c` lists the frames the
writer of `c` has taken off its queue, `accepted c` lists the frames
`ForwardMessage` has put on the queue of `c`, both oldest first. -/
structure Run (σ : Type) where
  hub : Hub σ
  wire : ConnId → List Bytes
  accepted : ConnId → List Bytes

/-- A run that starts in hub state `h` with empty histories. -/
def Run.start {σ : Type} (h : Hub σ) : Run σ :=
  { hub := h, wire := fun _ => [], accepted := fun _ => [] }

/-- Effect of one event for a fixed session and sender. -/
def Run.step {σ : Type} (S : Store σ) (session : SessId) (sender : ConnId) (r : Run σ) :
    Event → Run σ
  | .forward raw now id ts =>
    match r.hub.ForwardMessage S session sender raw now id ts with
    | (h, .delivered peer) =>
      { r with hub := h, accepted := Function.update r.accepted peer (r.accepted peer ++ [raw]) }
    | (h, .refused _ _) => { r with hub := h }
  | .dequeue c =>
    match r.hub.writePumpRecv c with
    | (h, some msg) => { r with hub := h, wire := Function.update r.wire c (r.wire c ++ [msg]) }
    | (h, none) => { r with hub := h }
  | .notify c data => { r with hub := r.hub.modifyConn c (fun x => x.trySend data) }

/-- The run after a list of events. -/
def Run.exec {σ : Type} (S : Store σ) (session : SessId) (sender : ConnId) (r : Run σ)
    (events : List Event) : Run σ :=
  events.foldl (Run.step S session sender) r

/-! ## A takeover, step by step -/

namespace Takeover

def token : String := "oc_pair_3f9a1c0e5b7d2a4486c0d1e2f3a4b5c6"

/-- A mock store in which `token` has been created. -/
def store0 : MockState := (mockStore.CreateToken newMockStore token).1

def a1 : ConnId := 1
def phone : ConnId := 2
def a2 : ConnId := 3

/-- Agent `a1` authenticates for `token` on a fresh hub. -/
def authA1 : Hub MockState × AuthResult :=
  (NewHub store0).Authenticate mockStore a1 (.ok { Token := token, Role := RoleAgent }) 100

/-- Then the phone authenticates. -/
def authPhone : Hub MockState × AuthResult :=
  authA1.1.Authenticate mockStore phone (.ok { Token := token, Role := RolePhone }) 200

/-- Then a second agent `a2` authenticates for the same token. -/
def authA2 : Hub MockState × AuthResult :=
  authPhone.1.Authenticate mockStore a2 (.ok { Token := token, Role := RoleAgent }) 300

/-- Then the reader of the deposed `a1` exits and its deferred `Disconnect` runs. -/
def afterDisconnect : Hub MockState :=
  authA2.1.Disconnect (some 0) (some a1) "7c9e6679-7425-40de-944b-e07fc1f90ae7" 400

end Takeover

/-! ## A stored token shorter than 16 bytes -/

namespace ShortToken

def token : String := "t0k3n"

/-- A mock store in which the five-byte `token` has been created. -/
def store0 : MockState := (mockStore.CreateToken newMockStore token).1

/-- A phone authenticates with `token` on a fresh hub. -/
def auth : Hub MockState × AuthResult :=
  (NewHub store0).Authenticate mockStore 1 (.ok { Token := token, Role := RolePhone }) 100

end ShortToken

/-! ## A frame between a paired phone and agent -/

namespace Paired

/-- A five-byte frame. -/
def raw : Bytes := [104, 101, 108, 108, 111]

end Paired

/-- What a hub state `k` shares with `h` when no frame was forwarded between them:
the Store, the sessions, every byte counter and every queue. -/
def Hub.SameTraffic {σ : Type} (k h : Hub σ) (sender : ConnId) : Prop :=
  k.store = h.store ∧ k.sess = h.sess ∧
  (∀ q, (k.conn q).BytesSent = (h.conn q).BytesSent ∧
    (k.conn q).BytesRecv = (h.conn q).BytesRecv) ∧
  (∀ q, q ≠ sender → (k.conn q).Send = (h.conn q).Send)

/-- The invariant behind per-direction order, for one connection `p`: what its
writer has taken plus what is still queued is the initial queue followed by
everything enqueued since, and the frames `ForwardMessage` delivered to `p` sit in
that tail in the order in which they were submitted. -/
def Run.Ordered {σ : Type} (q0 : ConnId → List Bytes) (r : Run σ) (p : ConnId) : Prop :=
  ∃ rest, r.wire p ++ (r.hub.conn p).Send = q0 p ++ rest ∧ List.Sublist (r.accepted p) rest

/-! ## Usage exactly at the daily quota -/

namespace AtLimit

def token : String := "oc_pair_3f9a1c0e5b7d2a4486c0d1e2f3a4b5c6"

/-- A mock store whose running total for `token` is exactly 500 MiB. -/
def store0 : MockState := (mockStore.RecordBytes newMockStore token (500 * 1024 * 1024)).1

end AtLimit

/-! ## Store failures -/

/-- A Store whose every call fails and changes nothing: the database is down. -/
def downStore : Store MockState where
  CreateToken st _ := (st, some "database is locked")
  DeleteToken st _ := (st, some "database is locked")
  TokenExists _ _ := .error "database is locked"
  RecordBytes st _ _ := (st, some "database is locked")
  GetDailyUsage _ _ := .error "database is locked"
  GetMonthlyUsage _ _ := .error "database is locked"

/-- A read of the quota gate failed: the daily read, or the monthly read that
follows a daily read below the quota. -/
def QuotaReadFails {σ : Type} (S : Store σ) (st : σ) (token : String) : Prop :=
  (∃ e, S.GetDailyUsage st token = .error e) ∨
  (∃ daily e, S.GetDailyUsage st token = .ok daily ∧ daily < DailyQuotaBytes ∧
    S.GetMonthlyUsage st token = .error e)

/-- Both reads of the quota gate succeed with usage below the quotas. -/
def WithinQuota {σ : Type} (S : Store σ) (st : σ) (token : String) : Prop :=
  ∃ daily monthly, S.GetDailyUsage st token = .ok daily ∧ daily < DailyQuotaBytes ∧
    S.GetMonthlyUsage st token = .ok monthly ∧ monthly < MonthlyQuotaBytes

/-! ## A deposed connection that keeps sending -/

namespace Deposed

/-- The takeover scenario continued differently: the newcomer `a2` leaves, so its
own `Disconnect` empties the agent slot, while the reader of the deposed `a1` is
still running. -/
def afterA2Leaves : Hub MockState :=
  Takeover.authA2.1.Disconnect (some 0) (some Takeover.a2) "5b8d0c7e-0a1f-4c3e-9d2a-6f7e8b9c0d1e" 400

end Deposed

/-! ## internal/hub: the idle reaper -/

/-- `IdleSessionTimeout`, 30 minutes in nanoseconds. -/
def IdleSessionTimeout : Int := 30 * 60 * 1000000000

/-- `Session.IsIdle(timeout)`; `now` is the clock reading of `time.Since`. -/
def Session.IsIdle (s : Session) (timeout : Int) (now : Time) : Bool :=
  if s.PhoneConn.isSome ∨ s.AgentConn.isSome then false
  else
    match s.LastActive with
    | none => true
    | some lastActive => decide (now - lastActive > timeout)

/-- `Hub.cleanIdleSessions`: every table entry whose session is idle is deleted.
`clock token` is the clock reading of the `IsIdle` call made for that entry. -/
def Hub.cleanIdleSessions {σ : Type} (h : Hub σ) (clock : String → Time) : Hub σ :=
  { h with
    sessions := fun token =>
      match h.sessions token with
      | some s => if (h.sess s).IsIdle IdleSessionTimeout (clock token) then none else some s
      | none => none }

/-! ## A table for the idle reaper -/

namespace Idle

/-- A table with three sessions, read at clock value 31 minutes: `gone` was last
active at 0 and has no connection, `busy` was last active at 0 and holds a phone,
`fresh` has no connection and was last active 30 minutes ago to the nanosecond. -/
def hub : Hub MockState :=
  { NewHub newMockStore with
    sessions := fun t => if t = "gone" then some 0 else if t = "busy" then some 1
      else if t = "fresh" then some 2 else none
    sess := fun s =>
      if s = 0 then { Token := "gone", PhoneConn := none, AgentConn := none, LastActive := some 0 }
      else if s = 1 then
        { Token := "busy", PhoneConn := some 7, AgentConn := none, LastActive := some 0 }
      else { Token := "fresh", PhoneConn := none, AgentConn := none,
             LastActive := some (60 * 1000000000) }
    nextSess := 3 }

/-- The clock reading of the reaper: 31 minutes. -/
def now : Time := 31 * 60 * 1000000000

end Idle

/-! ## internal/hub: tokens (pairing.go, CreateToken, DeleteToken) -/

/-- `fmt.Sprintf("%x", b)` for one byte: two lowercase hexadecimal digits. -/
def hexByte (b : UInt8) : List Char := [hexDigit (b.toNat / 16), hexDigit (b.toNat % 16)]

/-- `fmt.Sprintf("%x", bs)` for a byte slice. -/
def hexBytes (bs : Bytes) : String := String.mk (bs.flatMap hexByte)

/-- `fmt.Sprintf("%x", n)` for an `int64`: the digits of the absolute value, a minus
sign in front of a negative number. -/
def hexInt (n : Int) : String :=
  (if n < 0 then "-" else "") ++ String.mk (Nat.toDigits 16 n.natAbs)

/-- `GenerateToken()` of pairing.go. `rand` is what `rand.Read` left in the 16-byte
buffer, `none` when it failed; `nanos` is `time.Now().UnixNano()`. -/
def GenerateToken (rand : Option Bytes) (nanos : Int) : String :=
  match rand with
  | none => "oc_pair_" ++ hexInt nanos
  | some b => "oc_pair_" ++ hexBytes b

/-- What a call of `CreateToken` ends in. -/
inductive CreateResult where
  | ok (token : String)
  | error (msg : String)
  | panic
deriving DecidableEq, Repr

/-- `Hub.CreateToken()`. The log line slices `token[:16]`. -/
def Hub.CreateToken {σ : Type} (S : Store σ) (h : Hub σ) (rand : Option Bytes) (nanos : Int) :
    Hub σ × CreateResult :=
  let token := GenerateToken rand nanos
  match S.CreateToken h.store token with
  | (st, some e) => ({ h with store := st }, .error e)
  | (st, none) =>
    if strLen token < 16 then ({ h with store := st }, .panic)
    else ({ h with store := st }, .ok token)

/-- Lines 205-219 of hub.go: the session of `token`, if the table has one, has the
done channels of both its connections closed and leaves the table. -/
def Hub.evict {σ : Type} (h : Hub σ) (token : String) : Hub σ :=
  match h.sessions token with
  | some s =>
    let phone := (h.sess s).PhoneConn
    let agent := (h.sess s).AgentConn
    let h1 := match phone with
      | some p => h.modifyConn p Connection.CloseDone
      | none => h
    let h2 := match agent with
      | some a => h1.modifyConn a Connection.CloseDone
      | none => h1
    { h2 with sessions := Function.update h2.sessions token none }
  | none => h

/-- `Hub.DeleteToken(token)`: evict, then `store.DeleteToken`, whose error is the
result. -/
def Hub.DeleteToken {σ : Type} (S : Store σ) (h : Hub σ) (token : String) :
    Hub σ × Option String :=
  let h1 := h.evict token
  ({ h1 with store := (S.DeleteToken h1.store token).1 }, (S.DeleteToken h1.store token).2)

/-- The contract of the token operations of a Store (section 4.5 of the
specification; `SQLiteStore` meets it with `INSERT OR IGNORE`, `DELETE` and
`SELECT COUNT(*)` on the `tokens` table, `mockStore` with its map): a token that
was created exists, a token that was deleted does not, deleting one token shows
nothing about another, and deleting an absent token leaves the Store as it was. -/
structure Store.TokenLaws {σ : Type} (S : Store σ) : Prop where
  create_exists : ∀ st t, (S.CreateToken st t).2 = none →
    S.TokenExists (S.CreateToken st t).1 t = .ok true
  delete_exists : ∀ st t, (S.DeleteToken st t).2 = none →
    S.TokenExists (S.DeleteToken st t).1 t = .ok false
  delete_other : ∀ st t u, u ≠ t → (S.DeleteToken st t).2 = none →
    S.TokenExists (S.DeleteToken st t).1 u = S.TokenExists st u ∧
    S.GetDailyUsage (S.DeleteToken st t).1 u = S.GetDailyUsage st u ∧
    S.GetMonthlyUsage (S.DeleteToken st t).1 u = S.GetMonthlyUsage st u
  delete_absent : ∀ st t, S.TokenExists st t = .ok false → (S.DeleteToken st t).2 = none →
    (S.DeleteToken st t).1 = st

/-! ## Minting and revoking a token -/

namespace Revoke

/-- Minting on a fresh hub with these 16 random bytes gives the token of the
takeover scenario. -/
def rand : Bytes :=
  [0x3f, 0x9a, 0x1c, 0x0e, 0x5b, 0x7d, 0x2a, 0x44, 0x86, 0xc0, 0xd1, 0xe2, 0xf3, 0xa4, 0xb5, 0xc6]

end Revoke

/-! ## internal/server/websocket.go: the dispatch of readPump -/

def TypeAuth : String := "auth"
def TypeAuthOk : String := "auth.ok"
def TypeAuthFail : String := "auth.fail"
def TypeChatSend : String := "chat.send"
def TypeChatStream : String := "chat.stream"
def TypeChatDone : String := "chat.done"
def TypePing : String := "ping"
def TypePong : String := "pong"
def TypeKeyExchange : String := "key_exchange"
def TypeAgentList : String := "agent.list"
def TypeAgentListResult : String := "agent.list.result"
def TypeAgentCreate : String := "agent.create"
def TypeAgentUpdate : String := "agent.update"
def TypeAgentDelete : String := "agent.delete"
def TypeAgentResult : String := "agent.result"
def TypeChatHistory : String := "chat.history"
def TypeChatHistoryResult : String := "chat.history.result"
def TypeChatToolStatus : String := "chat.tool_status"
def TypeMemorySearch : String := "memory.search"
def TypeMemorySearchResult : String := "memory.search.result"

def ErrUnauthorized : String := "UNAUTHORIZED"
def ErrInvalidMessage : String := "INVALID_MESSAGE"

/-- The types of the second `switch` of `readPump` that lead to `ForwardMessage`
(websocket.go, lines 163-167), in the order of the `case` list. -/
def forwardedTypes : List String :=
  [TypeChatSend, TypeChatStream, TypeChatDone, TypeChatError, TypeKeyExchange,
   TypeAgentList, TypeAgentListResult, TypeAgentCreate, TypeAgentUpdate, TypeAgentDelete,
   TypeAgentResult, TypeChatHistory, TypeChatHistoryResult, TypeChatToolStatus,
   TypeMemorySearch, TypeMemorySearchResult]

/-- What one iteration of `readPump` does with a frame it has read: it writes a
`chat.error` straight to the socket (`sendError` of websocket.go), offers a pong to
the connection's own queue, hands the frame to `ForwardMessage`, or does nothing. -/
inductive ReadAction where
  | wsError (code message : String)
  | pong
  | forwarded (outcome : Outcome)
  | ignored
deriving DecidableEq, Repr

/-- The frame `readPump` offers in answer to a ping: a marshalled `pong` envelope
with a null payload. -/
def pongFrame (id : String) (ts : Int) : Bytes :=
  (NewEnvelope TypePong .null id ts).frame

/-- One iteration of the loop of `readPump` after a successful read. `msgType` is
the `Type` of the envelope `json.Unmarshal` decoded from `raw`, `none` when the
decoding failed; `now`, `id` and `ts` are the clock reading and the identifier
and timestamp of an envelope built on the way. -/
def Hub.readPumpStep {σ : Type} (S : Store σ) (h : Hub σ) (session : SessId) (conn : ConnId)
    (raw : Bytes) (msgType : Option String) (now : Time) (id : String) (ts : Int) :
    Hub σ × ReadAction :=
  match msgType with
  | none => (h, .wsError ErrInvalidMessage "Invalid JSON message")
  | some ty =>
    if (h.conn conn).Role = RolePhone ∧ (ty = TypeChatStream ∨ ty = TypeChatDone) then
      (h, .wsError ErrInvalidMessage "Phone cannot send stream messages")
    else if ty = TypePing then
      (h.modifyConn conn (fun c => c.trySend (pongFrame id ts)), .pong)
    else if ty ∈ forwardedTypes then
      ((h.ForwardMessage S session conn raw now id ts).1,
        .forwarded (h.ForwardMessage S session conn raw now id ts).2)
    else (h, .ignored)

/-- Whether the string `s` begins with `p`. -/
def beginsWith (p s : String) : Bool := p.toList.isPrefixOf s.toList

/-! ## A series of calls on one limiter -/

/-- A series of `Allow()` calls on one limiter at the given clock readings: the
answers in order, and the limiter afterwards. -/
def Limiter.run (lim : Limiter) : List Time → List Bool × Limiter
  | [] => ([], lim)
  | t :: ts => ((lim.Allow t).1 :: ((lim.Allow t).2.run ts).1, ((lim.Allow t).2.run ts).2)

/-! ## internal/protocol/message.go: generateID -/

/-- `generateID()` of message.go. `rand` is what `rand.Read` left in the 16-byte
buffer, `none` when it failed; `nanos` is `time.Now().UnixNano()`. -/
def generateID (rand : Option Bytes) (nanos : Int) : String :=
  match rand with
  | none => hexInt nanos
  | some b =>
    hexBytes (b.take 4) ++ "-" ++ hexBytes ((b.drop 4).take 2) ++ "-"
      ++ hexBytes ((b.drop 6).take 2) ++ "-" ++ hexBytes ((b.drop 8).take 2) ++ "-"
      ++ hexBytes (b.drop 10)

/-! ## internal/server/server.go: the registration limiter -/

/-- Go struct `ipRateLimiter` of server.go: the accepted registration times per
client address (a missing map entry is the empty list), the limit and the window
in nanoseconds. -/
structure ipRateLimiter where
  entries : String → List Time
  limit : Nat
  window : Int

/-- `newIPRateLimiter(limit, window)`. -/
def newIPRateLimiter (limit : Nat) (window : Int) : ipRateLimiter :=
  { entries := fun _ => [], limit := limit, window := window }

/-- `ipRateLimiter.Allow(ip)`; `now` is its reading of `time.Now()`. Entries that
are not after `now - window` are dropped, then the call is refused when `limit`
entries remain and recorded otherwise. -/
def ipRateLimiter.Allow (l : ipRateLimiter) (ip : String) (now : Time) : Bool × ipRateLimiter :=
  let cutoff := now - l.window
  let valid := (l.entries ip).filter (fun t => t > cutoff)
  if valid.length ≥ l.limit then
    (false, { l with entries := Function.update l.entries ip valid })
  else
    (true, { l with entries := Function.update l.entries ip (valid ++ [now]) })

/-- One hour, the window of the registration limiter (`time.Hour`). -/
def hour : Int := 3600 * 1000000000

/-- The limiter `New` gives the server: 5 registrations per hour per address. -/
def regLimiter : ipRateLimiter := newIPRateLimiter 5 hour

/-- A limiter together with the history of its answers: `accepted ip` lists the
clock readings of the calls for `ip` that returned true, oldest first. -/
structure RegRun where
  limiter : ipRateLimiter
  accepted : String → List Time

/-- A run that starts with the limiter `l` and no history. -/
def RegRun.start (l : ipRateLimiter) : RegRun := { limiter := l, accepted := fun _ => [] }

/-- One call `Allow(ip)` at clock reading `now`. -/
def RegRun.step (r : RegRun) (call : String × Time) : RegRun :=
  { limiter := (r.limiter.Allow call.1 call.2).2
    accepted :=
      if (r.limiter.Allow call.1 call.2).1 = true then
        Function.update r.accepted call.1 (r.accepted call.1 ++ [call.2])
      else r.accepted }

/-- The run after a list of calls. -/
def RegRun.exec (r : RegRun) (calls : List (String × Time)) : RegRun :=
  calls.foldl RegRun.step r

/-- The registration limiter of the server after a list of calls, started fresh. -/
def registrations (calls : List (String × Time)) : RegRun :=
  (RegRun.start regLimiter).exec calls

/-! ## A burst of registrations -/

namespace Burst

/-- Six registrations from one address in the first six nanoseconds, one from
another address, and one more from the first address exactly an hour after its
first. -/
def calls : List (String × Time) :=
  [("10.0.0.1", 0), ("10.0.0.1", 1), ("10.0.0.1", 2), ("10.0.0.1", 3), ("10.0.0.1", 4),
   ("10.0.0.1", 5), ("10.0.0.2", 6), ("10.0.0.1", 3600 * 1000000000)]

end Burst

/-- The invariant of a run whose calls so far were made at or before `T` and whose
later calls are made at or after `T`: the limiter keeps its parameters, each
entry list is the accepted history cut at some point at least a window before
`T`, no accepted time is after `T`, and no window of the limiter's length holds
more than `limit` accepted times. -/
def RegRun.Inv (r : RegRun) (limit : Nat) (window : Int) (T : Time) : Prop :=
  r.limiter.limit = limit ∧ r.limiter.window = window ∧
  (∀ ip, ∃ c : Int, c ≤ T - window ∧
    r.limiter.entries ip = (r.accepted ip).filter (fun t => t > c)) ∧
  (∀ ip, ∀ t ∈ r.accepted ip, t ≤ T) ∧
  (∀ ip (s : Int), ((r.accepted ip).filter (fun t => s ≤ t ∧ t < s + window)).length ≤ limit)

/-! ## Auxiliary notions for the round trip -/

/-- A byte of a string that the scanner passes over in `stateInString`. -/
def plainByte (b : UInt8) : Prop := 32 ≤ b.toNat ∧ b.toNat ≠ 34 ∧ b.toNat ≠ 92

/-- The bytes between the quotes of the literal `jsonString` writes. -/
def escBytes (cs : List Char) : Bytes :=
  (cs.flatMap jsonEscapeChar).flatMap String.utf8EncodeChar

/-- The decimal digits of a natural number as `strconv` writes them: at least
one, no leading zero but for zero itself. -/
def GoodDigits (n : Nat) (ds : Bytes) : Prop :=
  ds ≠ [] ∧ (∀ b ∈ ds, isDigit b = true) ∧ digitsVal ds 0 = some n ∧
    (ds.head? = some 48 → ds = [48])

/-- A byte after which a number literal cannot go on. -/
def endsNumber (c : UInt8) : Prop := isDigit c = false ∧ c ≠ 46 ∧ c ≠ 101 ∧ c ≠ 69

/-- A byte that can follow a value: it is no white space and no part of a
number. -/
def endsValue (c : UInt8) : Prop := endsNumber c ∧ isSpace c = false

/-- A value as it stands in a written object with `dp` arrays and objects open,
that object among them: the scanner reads exactly `v` when a comma or a closing
brace follows. -/
def ValueText (dp : Nat) (v : Bytes) : Prop :=
  ∀ (d : UInt8) (rest : Bytes), d = 44 ∨ d = 125 →
    skipSpace (v ++ d :: rest) = v ++ d :: rest ∧
    ∃ k, k ≤ scanFuel (v ++ d :: rest) ∧ scan k dp .value (v ++ d :: rest) = some (d :: rest)

/-- One member of a written object: the key as a string literal, a colon, the
text of the value. -/
def memberText (k : String) (v : Bytes) : Bytes := strBytes (jsonString k) ++ 58 :: v

/-- The members of a written object after its opening brace: separated by
commas, closed by a brace. -/
def objectText : List (String × Bytes) → Bytes
  | [] => [125]
  | [m] => memberText m.1 m.2 ++ [125]
  | m :: m1 :: ms => memberText m.1 m.2 ++ 44 :: objectText (m1 :: ms)

/-! ## Two envelopes for the round trip -/

/-- The envelope `readPump` answers a ping with. -/
def RoundTrip.pong : Envelope := NewEnvelope TypePong .null "8f3a1c2e-77aa-4b1d-9c0e-5d2f6a7b8c9d" 1762250000000

/-- An envelope whose payload is valid JSON with a blank after the colon. -/
def RoundTrip.spaced : Envelope :=
  { V := 1, MsgType := "chat.message", ID := "m1", TS := 5,
    Payload := strBytes "\x7b\"a\": 1\x7d" }

/-! ## Auxiliary notions for compaction -/

/-- A byte that compaction copies wherever it stands and that leaves the state
inside a string as it is. -/
def inertByte (b : UInt8) : Prop :=
  b ≠ 60 ∧ b ≠ 62 ∧ b ≠ 38 ∧ b ≠ 226 ∧ b ≠ 34 ∧ b ≠ 92

/-- A text that compaction copies when it stands outside a string. -/
def SqueezeFixed (v : Bytes) : Prop :=
  ∀ tail : Bytes, squeeze 0 0 (v ++ tail) = v ++ squeeze 0 0 tail

/-- The members `json.Marshal` writes for a payload value that is a struct. -/
def payloadMembers : PayloadValue → List (String × Bytes)
  | .status p => [("peer", strBytes (jsonString p.Peer))]
  | .error p =>
      [("code", strBytes (jsonString p.Code)), ("message", strBytes (jsonString p.Message))]
        ++ (if p.RetryAfterMs = 0 then []
            else [("retry_after_ms", strBytes (toString p.RetryAfterMs))])
  | .null => []

/-! ## A frame for an empty peer slot -/

namespace Alone

/-- Agent `a1` is the only connection of its session and sends a frame. -/
def reply : Hub MockState × Outcome :=
  Takeover.authA1.1.ForwardMessage mockStore 0 Takeover.a1 Paired.raw 1000
    "0b7e2f6a-93c1-4d58-a1f0-6c2d9e8b7a45" 1762250000000

/-- The frame the relay put on the sender's queue in answer. -/
def frame : Option Bytes := (reply.1.conn Takeover.a1).Send.getLast?

/-- The `MESSAGE_TOO_LARGE` frame of `ForwardMessage`. -/
def tooLarge : Bytes :=
  errorFrame ErrMessageTooLarge "Message exceeds 5MB limit" 0
    "0b7e2f6a-93c1-4d58-a1f0-6c2d9e8b7a45" 1762250000000

end Alone

/-! ## Runs of the hub with the connections that are live -/

/-- One call on the hub, with the inputs the environment supplies to it. -/
inductive HubStep where
  | authenticate (conn : ConnId) (parsed : Except String AuthPayload) (now : Time)
  | disconnect (session : SessId) (conn : ConnId) (id : String) (ts : Int)
  | deleteToken (token : String)
  | cleanIdle (clock : String → Time)

/-- A hub state together with what a run has seen so far: `live` lists the
connections whose `Authenticate` returned a session and whose `Disconnect` has
not been called, each with that session; `seen` lists the connections whose
`Authenticate` has returned a session at some time. -/
structure CountRun (σ : Type) where
  hub : Hub σ
  live : List (ConnId × SessId)
  seen : List ConnId

/-- A fresh hub on a Store, nothing live. -/
def CountRun.start {σ : Type} (st : σ) : CountRun σ := { hub := NewHub st, live := [], seen := [] }

/-- One step of a run. A connection becomes live when `Authenticate` returns a
session for it and stops being live when `Disconnect` is called for it. -/
def CountRun.step {σ : Type} (S : Store σ) (r : CountRun σ) : HubStep → CountRun σ
  | .authenticate c parsed now =>
      match (r.hub.Authenticate S c parsed now).2 with
      | .ok s =>
          { hub := (r.hub.Authenticate S c parsed now).1, live := (c, s) :: r.live,
            seen := c :: r.seen }
      | _ => { r with hub := (r.hub.Authenticate S c parsed now).1 }
  | .disconnect s c id ts =>
      { r with hub := r.hub.Disconnect (some s) (some c) id ts, live := r.live.erase (c, s) }
  | .deleteToken token => { r with hub := (r.hub.DeleteToken S token).1 }
  | .cleanIdle clock => { r with hub := r.hub.cleanIdleSessions clock }

/-- A run from a state. -/
def CountRun.exec {σ : Type} (S : Store σ) (r : CountRun σ) (steps : List HubStep) :
    CountRun σ :=
  steps.foldl (CountRun.step S) r

/-- The discipline of a step: a connection is given a session at most once, and
`Disconnect` is called only for a live connection, with the session its
`Authenticate` returned. Since a connection leaves `live` with its `Disconnect`,
that is at most once. -/
def CountRun.Allowed {σ : Type} (S : Store σ) (r : CountRun σ) : HubStep → Prop
  | .authenticate c parsed now =>
      (∃ s, (r.hub.Authenticate S c parsed now).2 = .ok s) → c ∉ r.seen
  | .disconnect s c _ _ => (c, s) ∈ r.live
  | .deleteToken _ => True
  | .cleanIdle _ => True

/-- The discipline of a run: every step is allowed in the state it is taken in. -/
def CountRun.Disciplined {σ : Type} (S : Store σ) (r : CountRun σ) : List HubStep → Prop
  | [] => True
  | st :: rest => r.Allowed S st ∧ (r.step S st).Disciplined S rest

/-- No call of `Authenticate` in the run ends in a panic. -/
def CountRun.NoPanic {σ : Type} (S : Store σ) (r : CountRun σ) : List HubStep → Prop
  | [] => True
  | st :: rest =>
      (match st with
        | .authenticate c parsed now => (r.hub.Authenticate S c parsed now).2 ≠ .panic
        | _ => True) ∧
      (r.step S st).NoPanic S rest

/-- The sessions in the table, each once: the allocated session objects the
table entry of their own token points at. -/
def Hub.tableSessions {σ : Type} (h : Hub σ) : List SessId :=
  (List.range h.nextSess).filter (fun s => decide (h.sessions (h.sess s).Token = some s))

/-- The connections in the slots of a session, the phone slot first. -/
def Session.holders (s : Session) : List ConnId := s.PhoneConn.toList ++ s.AgentConn.toList

/-- The number of occupied slots over all sessions in the table. -/
def Hub.occupiedSlots {σ : Type} (h : Hub σ) : Nat :=
  (h.tableSessions.flatMap (fun s => (h.sess s).holders)).length

/-! ## A short token in a run -/

namespace ShortToken

/-- The run of one call: a phone authenticates with the five-byte token. -/
def steps : List HubStep := [.authenticate 1 (.ok { Token := token, Role := RolePhone }) 100]

/-- The same with the role `agent`, on connection 2. -/
def authAgent : Hub MockState × AuthResult :=
  (NewHub store0).Authenticate mockStore 2 (.ok { Token := token, Role := RoleAgent }) 100

end ShortToken

/-- What holds of a run under the discipline while no call panics: the table is
well keyed, the counter is the number of live connections, no connection is
live twice, every live connection has been given a session, and the connection
in a slot of a session of the table is live with that session and has the role
of the slot. -/
def CountRun.Inv {σ : Type} (r : CountRun σ) : Prop :=
  r.hub.WellKeyed ∧
  r.hub.connCount = (r.live.length : Int) ∧
  (r.live.map Prod.fst).Nodup ∧
  (∀ p ∈ r.live, p.1 ∈ r.seen) ∧
  (∀ t s c, r.hub.sessions t = some s → (r.hub.sess s).PhoneConn = some c →
    (c, s) ∈ r.live ∧ (r.hub.conn c).Role = RolePhone) ∧
  (∀ t s c, r.hub.sessions t = some s → (r.hub.sess s).AgentConn = some c →
    (c, s) ∈ r.live ∧ (r.hub.conn c).Role = RoleAgent)

/-! ## A run with a takeover -/

namespace Counted

/-- Agent `a1`, the phone and agent `a2` authenticate for one token; the
deposed `a1`, then `a2` and the phone disconnect; the token is revoked and the
reaper runs. -/
def steps : List HubStep :=
  [.authenticate Takeover.a1 (.ok { Token := Takeover.token, Role := RoleAgent }) 100,
   .authenticate Takeover.phone (.ok { Token := Takeover.token, Role := RolePhone }) 200,
   .authenticate Takeover.a2 (.ok { Token := Takeover.token, Role := RoleAgent }) 300,
   .disconnect 0 Takeover.a1 "7c9e6679-7425-40de-944b-e07fc1f90ae7" 400,
   .disconnect 0 Takeover.a2 "5b8d0c7e-1f2a-4c3b-9d4e-6a7b8c9d0e1f" 500,
   .disconnect 0 Takeover.phone "2a1b3c4d-5e6f-4a7b-8c9d-0e1f2a3b4c5d" 600,
   .deleteToken Takeover.token,
   .cleanIdle (fun _ => 700)]

end Counted

/-! ## The tokens a Store holds -/

/-- Every token the Store holds has at least 16 bytes. The tokens table has one
writer, `Hub.CreateToken` (hub.go:195-197, called at server.go:163 and 222),
which stores what `GenerateToken` mints: 40 bytes from 16 random ones. -/
def Hub.LongTokens {σ : Type} (S : Store σ) (h : Hub σ) : Prop :=
  ∀ t, S.TokenExists h.store t = .ok true → 16 ≤ strLen t

/-- What the writes of a Store leave of its tokens table (the table `tokens` of
`SQLiteStore`, the map `tokens` of `mockStore`): creating a token adds no other
token, deleting a token adds none, and recording bytes writes another table. -/
structure Store.TokenFrame {σ : Type} (S : Store σ) : Prop where
  create_other : ∀ st t u, u ≠ t → S.TokenExists (S.CreateToken st t).1 u = S.TokenExists st u
  delete_sub : ∀ st t u, S.TokenExists (S.DeleteToken st t).1 u = .ok true →
    S.TokenExists st u = .ok true
  record_tokens : ∀ st t n u, S.TokenExists (S.RecordBytes st t n).1 u = S.TokenExists st u

/-! ## The rate gate of a forward -/

/-- The sender's limiter let the frame pass and `g` is the hub after that: a
connection without a limiter (`sender.Limiter == nil`) passes and nothing
changes; otherwise `Limiter.Allow` answered true and the connection holds the
limiter as `Allow` left it, one token taken. -/
def Hub.PassedLimiter {σ : Type} (h : Hub σ) (sender : ConnId) (now : Time) (g : Hub σ) : Prop :=
  ((h.conn sender).Limiter = none ∧ g = h) ∨
  ∃ lim, (h.conn sender).Limiter = some lim ∧ (lim.Allow now).1 = true ∧
    g = h.modifyConn sender (fun c => { c with Limiter := some (lim.Allow now).2 })

/-! ## A phone whose bucket is empty -/

namespace Drained

/-- The paired session of the takeover scenario, the phone's bucket emptied at
clock reading 1000. -/
def hub : Hub MockState :=
  Takeover.authPhone.1.modifyConn Takeover.phone
    (fun c => { c with Limiter := some { NewPhoneLimiter with tokens := 0, last := 1000 } })

end Drained

/-! ## A payload nested to the limit of the scanner -/

/-- Arrays inside one another, `k` deep, the innermost empty. -/
def nestedArrays (k : Nat) : Bytes := List.replicate k 91 ++ List.replicate k 93

/-- An envelope whose payload is 10000 arrays deep: valid JSON on its own, one
array too deep once it stands in the envelope object. -/
def RoundTrip.deep : Envelope :=
  { V := 1, MsgType := "chat.message", ID := "m2", TS := 5,
    Payload := nestedArrays maxNestingDepth }

/-! # Theorems -/

/-! ## Field lemmas -/

section lemmas

variable {σ : Type}

@[simp] theorem modifyConn_conn_self (h : Hub σ) (c : ConnId) (f : Connection → Connection) :
    (h.modifyConn c f).conn c = f (h.conn c) := by
  simp [Hub.modifyConn]

theorem modifyConn_conn_other (h : Hub σ) (c d : ConnId) (f : Connection → Connection)
    (hne : d ≠ c) : (h.modifyConn c f).conn d = h.conn d := by
  simp [Hub.modifyConn, Function.update_noteq hne]

@[simp] theorem modifyConn_sess (h : Hub σ) (c : ConnId) (f : Connection → Connection) :
    (h.modifyConn c f).sess = h.sess := rfl

@[simp] theorem modifyConn_sessions (h : Hub σ) (c : ConnId) (f : Connection → Connection) :
    (h.modifyConn c f).sessions = h.sessions := rfl

@[simp] theorem modifyConn_store (h : Hub σ) (c : ConnId) (f : Connection → Connection) :
    (h.modifyConn c f).store = h.store := rfl

@[simp] theorem modifyConn_connCount (h : Hub σ) (c : ConnId) (f : Connection → Connection) :
    (h.modifyConn c f).connCount = h.connCount := rfl

@[simp] theorem modifySess_sess_self (h : Hub σ) (s : SessId) (f : Session → Session) :
    (h.modifySess s f).sess s = f (h.sess s) := by
  simp [Hub.modifySess]

theorem modifySess_sess_other (h : Hub σ) (s u : SessId) (f : Session → Session)
    (hne : u ≠ s) : (h.modifySess s f).sess u = h.sess u := by
  simp [Hub.modifySess, Function.update_noteq hne]

@[simp] theorem modifySess_conn (h : Hub σ) (s : SessId) (f : Session → Session) :
    (h.modifySess s f).conn = h.conn := rfl

@[simp] theorem modifySess_sessions (h : Hub σ) (s : SessId) (f : Session → Session) :
    (h.modifySess s f).sessions = h.sessions := rfl

@[simp] theorem modifySess_store (h : Hub σ) (s : SessId) (f : Session → Session) :
    (h.modifySess s f).store = h.store := rfl

@[simp] theorem modifySess_connCount (h : Hub σ) (s : SessId) (f : Session → Session) :
    (h.modifySess s f).connCount = h.connCount := rfl

@[simp] theorem trySend_Role (c : Connection) (d : Bytes) : (c.trySend d).Role = c.Role := by
  unfold Connection.trySend; split <;> rfl

@[simp] theorem trySend_Limiter (c : Connection) (d : Bytes) :
    (c.trySend d).Limiter = c.Limiter := by
  unfold Connection.trySend; split <;> rfl

@[simp] theorem trySend_BytesSent (c : Connection) (d : Bytes) :
    (c.trySend d).BytesSent = c.BytesSent := by
  unfold Connection.trySend; split <;> rfl

@[simp] theorem trySend_BytesRecv (c : Connection) (d : Bytes) :
    (c.trySend d).BytesRecv = c.BytesRecv := by
  unfold Connection.trySend; split <;> rfl

@[simp] theorem trySend_Done (c : Connection) (d : Bytes) : (c.trySend d).Done = c.Done := by
  unfold Connection.trySend; split <;> rfl

theorem trySend_Send (c : Connection) (d : Bytes) :
    (c.trySend d).Send = if c.Send.length < sendCap then c.Send ++ [d] else c.Send := by
  unfold Connection.trySend; split <;> rfl

/-- `ClearConn` empties the slot of the role it is given, whatever the slot held. -/
theorem ClearConn_slot (s : Session) (role : String) : (s.ClearConn role).slot role = none := by
  unfold Session.ClearConn Session.slot Session.SameRoleConn
  by_cases hr : role = "phone" <;> simp [hr]

/-- `ClearConn` twice is `ClearConn` once. -/
theorem ClearConn_idem (s : Session) (role : String) :
    (s.ClearConn role).ClearConn role = s.ClearConn role := by
  unfold Session.ClearConn
  by_cases hr : role = "phone" <;> simp [hr]

/-- Whatever the arguments, `Disconnect` on two non-nil pointers leaves the slot of
the connection's role empty: it never compares the slot with `conn`. -/
theorem Disconnect_slot_empty (h : Hub σ) (s : SessId) (c : ConnId) (id : String) (ts : Int) :
    ((h.Disconnect (some s) (some c) id ts).sess s).slot (h.conn c).Role = none := by
  simp only [Hub.Disconnect]
  split <;> simp [ClearConn_slot]

end lemmas

/-! ## C1 and C2: the deferred Disconnect of a deposed connection -/

/-- C1. After `a1` was replaced by `a2` in the agent slot, `Disconnect(session, a1)`
finds the slot holding `a2`, a connection other than `a1`, and empties it all the
same: the slot is not left holding the other connection. -/
theorem Disconnect_clears_slot_of_other_conn :
    Takeover.authA2.2 = AuthResult.ok 0 ∧
    (Takeover.authA2.1.sess 0).AgentConn = some Takeover.a2 ∧
    Takeover.a2 ≠ Takeover.a1 ∧
    (Takeover.authA2.1.conn Takeover.a1).Role = RoleAgent ∧
    ((Takeover.authA2.1.Disconnect (some 0) (some Takeover.a1) "d" 400).sess 0).AgentConn
      = none := by
  decide

/-- C2. In the takeover scenario the three authentications succeed on session 0,
the phone's queue is empty before the deposed agent disconnects, and after its
`Disconnect` the queue holds a `status` envelope with peer `offline` while the
agent slot is empty although `a2` is still connected. -/
theorem takeover_Disconnect_sends_offline :
    Takeover.authA1.2 = AuthResult.ok 0 ∧ Takeover.authPhone.2 = AuthResult.ok 0 ∧
    Takeover.authA2.2 = AuthResult.ok 0 ∧
    (Takeover.authA2.1.conn Takeover.phone).Send = [] ∧
    (Takeover.afterDisconnect.conn Takeover.phone).Send
      = [offlineStatus "7c9e6679-7425-40de-944b-e07fc1f90ae7" 400] ∧
    (Takeover.afterDisconnect.sess 0).AgentConn = none ∧
    (Takeover.afterDisconnect.conn Takeover.a2).Done = false := by
  decide

/-! ## C3: a successful Authenticate -/

section authenticate

variable {σ : Type}

theorem NewHub_wellKeyed (st : σ) : (NewHub st).WellKeyed := by
  intro t s h
  simp [NewHub] at h

theorem lookupOrInsert_sessions (h : Hub σ) (t : String) :
    (h.lookupOrInsert t).1.sessions t = some (h.lookupOrInsert t).2 := by
  unfold Hub.lookupOrInsert
  split
  · assumption
  · simp

theorem lookupOrInsert_sessions_none (h : Hub σ) (t u : String)
    (hn : (h.lookupOrInsert t).1.sessions u = none) : h.sessions u = none := by
  unfold Hub.lookupOrInsert at hn
  split at hn
  · exact hn
  · by_cases hu : u = t
    · subst hu; simp at hn
    · simpa [Function.update_noteq hu] using hn

@[simp] theorem lookupOrInsert_conn (h : Hub σ) (t : String) :
    (h.lookupOrInsert t).1.conn = h.conn := by
  unfold Hub.lookupOrInsert; split <;> rfl

@[simp] theorem lookupOrInsert_connCount (h : Hub σ) (t : String) :
    (h.lookupOrInsert t).1.connCount = h.connCount := by
  unfold Hub.lookupOrInsert; split <;> rfl

@[simp] theorem lookupOrInsert_store (h : Hub σ) (t : String) :
    (h.lookupOrInsert t).1.store = h.store := by
  unfold Hub.lookupOrInsert; split <;> rfl

theorem lookupOrInsert_slot (h : Hub σ) (t role : String) :
    ((h.lookupOrInsert t).1.sess (h.lookupOrInsert t).2).slot role = h.slotOf t role := by
  unfold Hub.lookupOrInsert Hub.slotOf
  split
  · rename_i s hs; simp [hs]
  · rename_i hs; simp [hs, Session.slot, Session.SameRoleConn]

theorem lookupOrInsert_Token (h : Hub σ) (t : String) (hkey : h.WellKeyed) :
    ((h.lookupOrInsert t).1.sess (h.lookupOrInsert t).2).Token = t := by
  unfold Hub.lookupOrInsert
  split
  · rename_i s hs; exact (hkey t s hs).1
  · simp

@[simp] theorem closeExisting_sess (h : Hub σ) (s : SessId) (role : String) :
    (h.closeExisting s role).sess = h.sess := by
  unfold Hub.closeExisting; split <;> rfl

@[simp] theorem closeExisting_sessions (h : Hub σ) (s : SessId) (role : String) :
    (h.closeExisting s role).sessions = h.sessions := by
  unfold Hub.closeExisting; split <;> rfl

@[simp] theorem closeExisting_store (h : Hub σ) (s : SessId) (role : String) :
    (h.closeExisting s role).store = h.store := by
  unfold Hub.closeExisting; split <;> rfl

@[simp] theorem closeExisting_connCount (h : Hub σ) (s : SessId) (role : String) :
    (h.closeExisting s role).connCount = h.connCount := by
  unfold Hub.closeExisting; split <;> rfl

@[simp] theorem closeExisting_nextSess (h : Hub σ) (s : SessId) (role : String) :
    (h.closeExisting s role).nextSess = h.nextSess := by
  unfold Hub.closeExisting; split <;> rfl

@[simp] theorem closeExisting_Role (h : Hub σ) (s : SessId) (role : String) (c : ConnId) :
    ((h.closeExisting s role).conn c).Role = (h.conn c).Role := by
  unfold Hub.closeExisting
  split
  · rename_i e _
    by_cases hc : c = e
    · subst hc; simp [Connection.CloseDone]
    · simp [modifyConn_conn_other _ _ _ _ hc]
  · rfl

theorem closeExisting_Done (h : Hub σ) (s : SessId) (role : String) (e : ConnId)
    (he : (h.sess s).slot role = some e) : ((h.closeExisting s role).conn e).Done = true := by
  unfold Hub.closeExisting
  unfold Session.slot at he
  simp [he, Connection.CloseDone]

theorem SetConn_slot (s : Session) (role : String) (c : ConnId) (now : Time) :
    (s.SetConn role c now).slot role = some c := by
  unfold Session.SetConn Session.slot Session.SameRoleConn
  by_cases hr : role = "phone" <;> simp [hr]

theorem SetConn_slot_other (s : Session) (r r' : String) (c : ConnId) (now : Time)
    (hr : r = RolePhone ∨ r = RoleAgent) (hr' : r' = RolePhone ∨ r' = RoleAgent) (hne : r' ≠ r) :
    (s.SetConn r c now).slot r' = s.slot r' := by
  unfold Session.SetConn Session.slot Session.SameRoleConn
  rcases hr with rfl | rfl <;> rcases hr' with rfl | rfl <;> simp [RolePhone, RoleAgent] at hne ⊢

@[simp] theorem SetConn_Token (s : Session) (role : String) (c : ConnId) (now : Time) :
    (s.SetConn role c now).Token = s.Token := by
  unfold Session.SetConn; split <;> rfl

theorem install_connCount (h : Hub σ) (conn : ConnId) (auth : AuthPayload) (now : Time) :
    (h.install conn auth now).1.connCount = h.connCount + 1 := by
  simp [Hub.install]

theorem install_sessions (h : Hub σ) (conn : ConnId) (auth : AuthPayload) (now : Time) :
    (h.install conn auth now).1.sessions auth.Token = some (h.install conn auth now).2 := by
  simp only [Hub.install, modifySess_sessions, closeExisting_sessions]
  exact lookupOrInsert_sessions _ _

theorem lookupOrInsert_modifyConn (h : Hub σ) (c : ConnId) (f : Connection → Connection)
    (t : String) :
    (h.modifyConn c f).lookupOrInsert t
      = ((h.lookupOrInsert t).1.modifyConn c f, (h.lookupOrInsert t).2) := by
  unfold Hub.lookupOrInsert
  simp only [modifyConn_sessions]
  cases h.sessions t <;> rfl

theorem install_sess (h : Hub σ) (conn : ConnId) (auth : AuthPayload) (now : Time) :
    (h.install conn auth now).1.sess (h.install conn auth now).2
      = ((h.lookupOrInsert auth.Token).1.sess (h.lookupOrInsert auth.Token).2).SetConn
          auth.Role conn now := by
  simp [Hub.install, lookupOrInsert_modifyConn]

theorem install_Role (h : Hub σ) (conn : ConnId) (auth : AuthPayload) (now : Time) :
    ((h.install conn auth now).1.conn conn).Role = auth.Role := by
  simp [Hub.install, lookupOrInsert_modifyConn]

theorem install_Done (h : Hub σ) (conn : ConnId) (auth : AuthPayload) (now : Time) (e : ConnId)
    (he : h.slotOf auth.Token auth.Role = some e) :
    ((h.install conn auth now).1.conn e).Done = true := by
  simp only [Hub.install, modifySess_conn, lookupOrInsert_modifyConn]
  apply closeExisting_Done
  simpa [lookupOrInsert_slot] using he

theorem install_sessions_none (h : Hub σ) (conn : ConnId) (auth : AuthPayload) (now : Time)
    (t : String) (hn : (h.install conn auth now).1.sessions t = none) : h.sessions t = none := by
  simp only [Hub.install, modifySess_sessions, closeExisting_sessions,
    lookupOrInsert_modifyConn, modifyConn_sessions] at hn
  exact lookupOrInsert_sessions_none _ _ _ hn

/-- C3. When `Authenticate(conn, {T, r})` returns session `s` on a hub whose table
is well keyed: `T` is in the Store and `r` is a role; `s` is the table entry of `T`
and carries `T`; slot `r` holds `conn`; an incumbent of slot `r` has its done
signal closed and, unless it is `conn` itself, is out of the slot; the slot of
the other role is as before; `conn.Role` is `r`; the counter went up by 1;
`GetTokenStatus(T)` shows slot `r` online and a token without session shows
(false, false). -/
theorem Authenticate_success (S : Store σ) (h h' : Hub σ) (conn : ConnId) (T r : String)
    (now : Time) (s : SessId) (hkey : h.WellKeyed)
    (hok : h.Authenticate S conn (.ok { Token := T, Role := r }) now = (h', .ok s)) :
    S.TokenExists h.store T = .ok true ∧ (r = RolePhone ∨ r = RoleAgent) ∧
    h'.sessions T = some s ∧ (h'.sess s).Token = T ∧
    h'.slotOf T r = some conn ∧
    (∀ e, h.slotOf T r = some e →
      (h'.conn e).Done = true ∧ (e ≠ conn → h'.slotOf T r ≠ some e)) ∧
    (∀ r', (r' = RolePhone ∨ r' = RoleAgent) → r' ≠ r → h'.slotOf T r' = h.slotOf T r') ∧
    (h'.conn conn).Role = r ∧
    h'.connCount = h.connCount + 1 ∧
    (if r = RolePhone then (h'.GetTokenStatus T).1 = true
      else (h'.GetTokenStatus T).2 = true) ∧
    (∀ t, h'.sessions t = none → h'.GetTokenStatus t = (false, false)) := by
  unfold Hub.Authenticate at hok
  simp only at hok
  split at hok
  · simp at hok
  · simp at hok
  · rename_i hex
    split at hok
    · simp at hok
    · rename_i hrole
      split at hok
      · simp at hok
      · simp only [Prod.mk.injEq, AuthResult.ok.injEq] at hok
        obtain ⟨rfl, rfl⟩ := hok
        have hr : r = RolePhone ∨ r = RoleAgent := by
          by_contra hc
          exact hrole ⟨fun h1 => hc (Or.inl h1), fun h2 => hc (Or.inr h2)⟩
        set a : AuthPayload := { Token := T, Role := r } with ha
        have hsess := install_sessions h conn a now
        have hobj := install_sess h conn a now
        have hslot : (h.install conn a now).1.slotOf T r = some conn := by
          unfold Hub.slotOf
          rw [show T = a.Token from rfl, hsess]
          simp only [hobj]
          exact SetConn_slot _ _ _ _
        refine ⟨hex, hr, hsess, ?_, hslot, ?_, ?_, install_Role h conn a now,
          install_connCount h conn a now, ?_, ?_⟩
        · rw [hobj, SetConn_Token]; exact lookupOrInsert_Token h T hkey
        · intro e he
          refine ⟨install_Done h conn a now e he, fun hne hc => ?_⟩
          rw [hslot] at hc
          exact hne (Option.some.inj hc).symm
        · intro r' hr' hne
          unfold Hub.slotOf
          rw [show T = a.Token from rfl, hsess]
          simp only [hobj]
          rw [SetConn_slot_other _ _ _ _ _ hr hr' hne]
          exact lookupOrInsert_slot h T r'
        · unfold Hub.GetTokenStatus
          rw [show T = a.Token from rfl, hsess]
          simp only [hobj]
          unfold Session.SetConn
          rcases hr with rfl | rfl <;> simp [RolePhone, RoleAgent, ha]
        · intro t ht
          unfold Hub.GetTokenStatus
          rw [ht]


end authenticate

section authenticate_more

variable {σ : Type}

/-- Witness for C3: the first authentication of the takeover scenario. -/
theorem Authenticate_success_witness :
    (NewHub Takeover.store0).WellKeyed ∧
    (NewHub Takeover.store0).Authenticate mockStore Takeover.a1
        (.ok { Token := Takeover.token, Role := RoleAgent }) 100
      = (Takeover.authA1.1, AuthResult.ok 0) ∧
    (mockStore.TokenExists (NewHub Takeover.store0).store Takeover.token = .ok true ∧
      (RoleAgent = RolePhone ∨ RoleAgent = RoleAgent) ∧
      Takeover.authA1.1.sessions Takeover.token = some 0 ∧
      (Takeover.authA1.1.sess 0).Token = Takeover.token ∧
      Takeover.authA1.1.slotOf Takeover.token RoleAgent = some Takeover.a1 ∧
      (∀ e, (NewHub Takeover.store0).slotOf Takeover.token RoleAgent = some e →
        (Takeover.authA1.1.conn e).Done = true ∧
        (e ≠ Takeover.a1 → Takeover.authA1.1.slotOf Takeover.token RoleAgent ≠ some e)) ∧
      (∀ r', (r' = RolePhone ∨ r' = RoleAgent) → r' ≠ RoleAgent →
        Takeover.authA1.1.slotOf Takeover.token r'
          = (NewHub Takeover.store0).slotOf Takeover.token r') ∧
      (Takeover.authA1.1.conn Takeover.a1).Role = RoleAgent ∧
      Takeover.authA1.1.connCount = (NewHub Takeover.store0).connCount + 1 ∧
      (if RoleAgent = RolePhone then (Takeover.authA1.1.GetTokenStatus Takeover.token).1 = true
        else (Takeover.authA1.1.GetTokenStatus Takeover.token).2 = true) ∧
      (∀ t, Takeover.authA1.1.sessions t = none →
        Takeover.authA1.1.GetTokenStatus t = (false, false))) :=
  have hrun : (NewHub Takeover.store0).Authenticate mockStore Takeover.a1
        (.ok { Token := Takeover.token, Role := RoleAgent }) 100
      = (Takeover.authA1.1, AuthResult.ok 0) :=
    Prod.ext rfl (by decide)
  ⟨NewHub_wellKeyed _, hrun,
    Authenticate_success mockStore _ _ _ _ _ _ _ (NewHub_wellKeyed _) hrun⟩

/-! ## C4: the checks of Authenticate -/

/-- What `Authenticate` returns on a payload that parses, when the Store answers
`present` without error: the token check comes first, then the role check, then
the connection is admitted, and the call ends in a panic exactly when the token
is shorter than 16 bytes. -/
theorem Authenticate_cases (S : Store σ) (h : Hub σ) (conn : ConnId) (auth : AuthPayload)
    (now : Time) (present : Bool) (hst : S.TokenExists h.store auth.Token = .ok present) :
    (present = false →
      h.Authenticate S conn (.ok auth) now = (h, .error "invalid token")) ∧
    (present = true → auth.Role ≠ RolePhone → auth.Role ≠ RoleAgent →
      h.Authenticate S conn (.ok auth) now = (h, .error ("invalid role: " ++ auth.Role))) ∧
    (present = true → (auth.Role = RolePhone ∨ auth.Role = RoleAgent) →
      16 ≤ strLen auth.Token →
      h.Authenticate S conn (.ok auth) now
        = ((h.install conn auth now).1, .ok (h.install conn auth now).2)) ∧
    (present = true → (auth.Role = RolePhone ∨ auth.Role = RoleAgent) →
      strLen auth.Token < 16 →
      h.Authenticate S conn (.ok auth) now = ((h.install conn auth now).1, .panic)) := by
  refine ⟨?_, ?_, ?_, ?_⟩
  · rintro rfl
    simp [Hub.Authenticate, hst]
  · rintro rfl h1 h2
    simp [Hub.Authenticate, hst, h1, h2]
  · rintro rfl hr hlen
    have hr' : ¬(auth.Role ≠ RolePhone ∧ auth.Role ≠ RoleAgent) := by
      rintro ⟨h1, h2⟩; rcases hr with h | h <;> contradiction
    simp only [Hub.Authenticate, hst, if_neg hr', if_neg (Nat.not_lt.mpr hlen)]
  · rintro rfl hr hlen
    have hr' : ¬(auth.Role ≠ RolePhone ∧ auth.Role ≠ RoleAgent) := by
      rintro ⟨h1, h2⟩; rcases hr with h | h <;> contradiction
    simp only [Hub.Authenticate, hst, if_neg hr', if_pos hlen]

theorem invalid_role_ne (r : String) : "invalid role: " ++ r ≠ "invalid token" := by
  intro h
  have h2 := congrArg String.data h
  rw [String.data_append] at h2
  have h3 := congrArg (fun l => l.get? 8) h2
  simp at h3

/-- C4. On a payload that parses, with a Store that answers the token check
without error and holds only tokens of at least 16 bytes (every Store the hub
has written is one, `LongTokens_preserved`): `Authenticate` returns a session if
and only if the token is present and the role is exactly `phone` or `agent`, and
then it is the session of `install`; an absent token fails with the message
`invalid token` whatever the role, the hub unchanged; a present token with any
other role fails with `invalid role: ` and the role, which is a different
message, the hub unchanged. -/
theorem Authenticate_checks (S : Store σ) (h : Hub σ) (conn : ConnId) (auth : AuthPayload)
    (now : Time) (present : Bool) (hst : S.TokenExists h.store auth.Token = .ok present)
    (hlong : h.LongTokens S) :
    ((∃ s, (h.Authenticate S conn (.ok auth) now).2 = .ok s) ↔
      present = true ∧ (auth.Role = RolePhone ∨ auth.Role = RoleAgent)) ∧
    (present = true → (auth.Role = RolePhone ∨ auth.Role = RoleAgent) →
      h.Authenticate S conn (.ok auth) now
        = ((h.install conn auth now).1, .ok (h.install conn auth now).2)) ∧
    (present = false →
      h.Authenticate S conn (.ok auth) now = (h, .error "invalid token")) ∧
    (present = true → auth.Role ≠ RolePhone → auth.Role ≠ RoleAgent →
      h.Authenticate S conn (.ok auth) now = (h, .error ("invalid role: " ++ auth.Role)) ∧
      "invalid role: " ++ auth.Role ≠ "invalid token") := by
  obtain ⟨habsent, hrole, hok, _⟩ := Authenticate_cases S h conn auth now present hst
  have hin : present = true → (auth.Role = RolePhone ∨ auth.Role = RoleAgent) →
      h.Authenticate S conn (.ok auth) now
        = ((h.install conn auth now).1, .ok (h.install conn auth now).2) :=
    fun hp hr => hok hp hr (hlong auth.Token (by rw [hst, hp]))
  refine ⟨⟨?_, ?_⟩, hin, habsent, fun hp h1 h2 => ⟨hrole hp h1 h2, invalid_role_ne _⟩⟩
  · rintro ⟨s, hs⟩
    cases hp : present with
    | false =>
        rw [habsent hp] at hs
        cases hs
    | true =>
        refine ⟨rfl, ?_⟩
        by_cases h1 : auth.Role = RolePhone
        · exact Or.inl h1
        · by_cases h2 : auth.Role = RoleAgent
          · exact Or.inr h2
          · rw [hrole hp h1 h2] at hs
            cases hs
  · rintro ⟨hp, hr⟩
    exact ⟨_, by rw [hin hp hr]⟩

/-- Witness for C4: the Store of the takeover scenario holds one token, of 40
bytes, and agent `a1` presents it. -/
theorem Authenticate_checks_witness :
    mockStore.TokenExists (NewHub Takeover.store0).store Takeover.token = .ok true ∧
    (NewHub Takeover.store0).LongTokens mockStore ∧
    (∃ s, ((NewHub Takeover.store0).Authenticate mockStore Takeover.a1
        (.ok { Token := Takeover.token, Role := RoleAgent }) 100).2 = .ok s) := by
  have hlong : (NewHub Takeover.store0).LongTokens mockStore := by
    intro t ht
    have ht' : t = Takeover.token := by
      by_contra hne
      simp [NewHub, Takeover.store0, mockStore, newMockStore, hne] at ht
    rw [ht']
    decide
  exact ⟨rfl, hlong,
    (Authenticate_checks mockStore (NewHub Takeover.store0) Takeover.a1
      { Token := Takeover.token, Role := RoleAgent } 100 true rfl hlong).1.mpr
      ⟨rfl, Or.inr rfl⟩⟩

/-- A Store filled by hand with the five-byte token `t0k3n`, which the hub
itself never mints: the token is present and the role is `phone`, and
`Authenticate` panics in its log line, after it has put the connection into the
phone slot and counted it. -/
theorem Authenticate_short_token_panics :
    mockStore.TokenExists (NewHub ShortToken.store0).store ShortToken.token = .ok true ∧
    ShortToken.auth.2 = AuthResult.panic ∧
    (ShortToken.auth.1.sess 0).PhoneConn = some 1 ∧
    ShortToken.auth.1.connCount = 1 :=
  ⟨rfl, by decide, by decide, by decide⟩


end authenticate_more

/-! ## C5: the gates of ForwardMessage -/

section forward
variable {σ : Type}

/-- A denied `Allow` leaves the limiter as it was. -/
theorem Allow_denied (lim : Limiter) (t : Time) (hd : (lim.Allow t).1 = false) :
    (lim.Allow t).2 = lim := by
  unfold Limiter.Allow at hd ⊢
  by_cases hc : 1 ≤ lim.burst ∧
      (if lim.advance t - tokenUnit < 0 then -(lim.advance t - tokenUnit) / lim.perMinute
        else 0) ≤ 0
  · simp only [if_pos hc] at hd
    exact absurd hd (by decide)
  · simp only [if_neg hc]

@[simp] theorem limiterGate_sess (h : Hub σ) (c : ConnId) (now : Time) :
    (h.limiterGate c now).2.sess = h.sess := by
  unfold Hub.limiterGate; split <;> rfl

@[simp] theorem limiterGate_sessions (h : Hub σ) (c : ConnId) (now : Time) :
    (h.limiterGate c now).2.sessions = h.sessions := by
  unfold Hub.limiterGate; split <;> rfl

@[simp] theorem limiterGate_store (h : Hub σ) (c : ConnId) (now : Time) :
    (h.limiterGate c now).2.store = h.store := by
  unfold Hub.limiterGate; split <;> rfl

@[simp] theorem limiterGate_connCount (h : Hub σ) (c : ConnId) (now : Time) :
    (h.limiterGate c now).2.connCount = h.connCount := by
  unfold Hub.limiterGate; split <;> rfl

theorem limiterGate_conn_other (h : Hub σ) (c d : ConnId) (now : Time) (hne : d ≠ c) :
    (h.limiterGate c now).2.conn d = h.conn d := by
  unfold Hub.limiterGate; split
  · rfl
  · simp only [modifyConn_conn_other _ _ _ _ hne]

@[simp] theorem limiterGate_Role (h : Hub σ) (c d : ConnId) (now : Time) :
    ((h.limiterGate c now).2.conn d).Role = (h.conn d).Role := by
  by_cases hd : d = c
  · subst hd; unfold Hub.limiterGate; split <;> simp
  · rw [limiterGate_conn_other _ _ _ _ hd]

@[simp] theorem limiterGate_Send (h : Hub σ) (c d : ConnId) (now : Time) :
    ((h.limiterGate c now).2.conn d).Send = (h.conn d).Send := by
  by_cases hd : d = c
  · subst hd; unfold Hub.limiterGate; split <;> simp
  · rw [limiterGate_conn_other _ _ _ _ hd]

@[simp] theorem limiterGate_BytesSent (h : Hub σ) (c d : ConnId) (now : Time) :
    ((h.limiterGate c now).2.conn d).BytesSent = (h.conn d).BytesSent := by
  by_cases hd : d = c
  · subst hd; unfold Hub.limiterGate; split <;> simp
  · rw [limiterGate_conn_other _ _ _ _ hd]

@[simp] theorem limiterGate_BytesRecv (h : Hub σ) (c d : ConnId) (now : Time) :
    ((h.limiterGate c now).2.conn d).BytesRecv = (h.conn d).BytesRecv := by
  by_cases hd : d = c
  · subst hd; unfold Hub.limiterGate; split <;> simp
  · rw [limiterGate_conn_other _ _ _ _ hd]

/-- A frame the limiter turns away leaves the whole hub state as it was. -/
theorem limiterGate_denied (h : Hub σ) (c : ConnId) (now : Time)
    (hd : (h.limiterGate c now).1 = false) : (h.limiterGate c now).2 = h := by
  unfold Hub.limiterGate at hd ⊢
  split
  · rfl
  · rename_i lim hlim
    simp only [hlim] at hd
    rw [Allow_denied lim now hd]
    have hc : ({ h.conn c with Limiter := some lim } : Connection) = h.conn c := by
      rw [← hlim]
    simp only [Hub.modifyConn, hc, Function.update_eq_self]

@[simp] theorem sendError_sess (h : Hub σ) (c : ConnId) (code msg : String) (r : Int)
    (id : String) (ts : Int) : (h.sendError c code msg r id ts).sess = h.sess := rfl

@[simp] theorem sendError_sessions (h : Hub σ) (c : ConnId) (code msg : String) (r : Int)
    (id : String) (ts : Int) : (h.sendError c code msg r id ts).sessions = h.sessions := rfl

@[simp] theorem sendError_store (h : Hub σ) (c : ConnId) (code msg : String) (r : Int)
    (id : String) (ts : Int) : (h.sendError c code msg r id ts).store = h.store := rfl

@[simp] theorem sendError_connCount (h : Hub σ) (c : ConnId) (code msg : String) (r : Int)
    (id : String) (ts : Int) : (h.sendError c code msg r id ts).connCount = h.connCount := rfl

theorem sendError_conn_other (h : Hub σ) (c d : ConnId) (code msg : String) (r : Int)
    (id : String) (ts : Int) (hne : d ≠ c) :
    (h.sendError c code msg r id ts).conn d = h.conn d :=
  modifyConn_conn_other _ _ _ _ hne

theorem sendError_conn_self (h : Hub σ) (c : ConnId) (code msg : String) (r : Int)
    (id : String) (ts : Int) :
    (h.sendError c code msg r id ts).conn c = (h.conn c).trySend (errorFrame code msg r id ts) := by
  simp [Hub.sendError]

/-- The codes `Check` can return. -/
theorem Check_codes (S : Store σ) (st : σ) (token : String) :
    (QuotaChecker.Check S st token).1 = "" ∨
    (QuotaChecker.Check S st token).1 = ErrDailyQuotaExceeded ∨
    (QuotaChecker.Check S st token).1 = ErrMonthlyQuotaExceeded := by
  unfold QuotaChecker.Check
  split
  · simp
  · split
    · simp [ErrDailyQuotaExceeded]
    · split
      · simp
      · split <;> simp [ErrMonthlyQuotaExceeded]

/-- The gates of `ForwardMessage` in the order size, rate limiter, quota, peer
slot, peer queue, with the rate gate as line 140 of hub.go evaluates it
(`limiterGate`): the first gate that fails fixes the reply, whatever the later
ones would say. -/
theorem ForwardMessage_gates (S : Store σ) (h : Hub σ) (session : SessId)
    (sender : ConnId) (raw : Bytes) (now : Time) (id : String) (ts : Int) :
    (MaxMessageSize < raw.length →
      h.ForwardMessage S session sender raw now id ts
        = (h.sendError sender ErrMessageTooLarge "Message exceeds 5MB limit" 0 id ts,
            .refused ErrMessageTooLarge 0)) ∧
    (raw.length ≤ MaxMessageSize → (h.limiterGate sender now).1 = false →
      h.ForwardMessage S session sender raw now id ts
        = (h.sendError sender ErrRateLimited "Rate limit exceeded" 1000 id ts,
            .refused ErrRateLimited 1000)) ∧
    (raw.length ≤ MaxMessageSize → (h.limiterGate sender now).1 = true →
      (QuotaChecker.Check S h.store (h.sess session).Token).1 ≠ "" →
      h.ForwardMessage S session sender raw now id ts
        = ((h.limiterGate sender now).2.sendError sender
              (QuotaChecker.Check S h.store (h.sess session).Token).1
              "Bandwidth quota exceeded" 60000 id ts,
            .refused (QuotaChecker.Check S h.store (h.sess session).Token).1 60000) ∧
      ((QuotaChecker.Check S h.store (h.sess session).Token).1 = ErrDailyQuotaExceeded ∨
        (QuotaChecker.Check S h.store (h.sess session).Token).1 = ErrMonthlyQuotaExceeded)) ∧
    (raw.length ≤ MaxMessageSize → (h.limiterGate sender now).1 = true →
      (QuotaChecker.Check S h.store (h.sess session).Token).1 = "" →
      (h.sess session).PeerConn (h.conn sender).Role = none →
      h.ForwardMessage S session sender raw now id ts
        = ((h.limiterGate sender now).2.sendError sender ErrPeerOffline
              "Peer is not connected" 0 id ts,
            .refused ErrPeerOffline 0)) ∧
    (∀ peer, raw.length ≤ MaxMessageSize → (h.limiterGate sender now).1 = true →
      (QuotaChecker.Check S h.store (h.sess session).Token).1 = "" →
      (h.sess session).PeerConn (h.conn sender).Role = some peer →
      sendCap ≤ (h.conn peer).Send.length →
      h.ForwardMessage S session sender raw now id ts
        = ((h.limiterGate sender now).2.sendError sender ErrPeerOffline
              "Peer send buffer full" 1000 id ts,
            .refused ErrPeerOffline 1000)) ∧
    (raw.length = 5 * 1024 * 1024 →
      ∀ retry, (h.ForwardMessage S session sender raw now id ts).2
        ≠ .refused ErrMessageTooLarge retry) ∧
    (∀ (k : Hub σ) (code message : String) (retry : Int),
      ((k.sendError sender code message retry id ts).conn sender).Send
        = (if (k.conn sender).Send.length < 256
            then (k.conn sender).Send ++ [errorFrame code message retry id ts]
            else (k.conn sender).Send)) ∧
    (MaxMessageSize < raw.length →
      ((h.ForwardMessage S session sender raw now id ts).1.conn sender).Limiter
        = (h.conn sender).Limiter) ∧
    (raw.length ≤ MaxMessageSize → (h.limiterGate sender now).1 = false →
      ∀ S' : Store σ, h.ForwardMessage S' session sender raw now id ts
        = h.ForwardMessage S session sender raw now id ts) := by
  have hsz : ∀ {n : Nat}, n ≤ MaxMessageSize → ¬ n > MaxMessageSize := fun hle => Nat.not_lt.mpr hle
  refine ⟨?_, ?_, ?_, ?_, ?_, ?_, ?_, ?_, ?_⟩
  · intro hbig
    simp [Hub.ForwardMessage, hbig]
  · intro hle hden
    simp [Hub.ForwardMessage, hsz hle, hden, limiterGate_denied h sender now hden]
  · intro hle hok hcode
    refine ⟨?_, ?_⟩
    · simp [Hub.ForwardMessage, hsz hle, hok, hcode]
    · rcases Check_codes S h.store (h.sess session).Token with h0 | h1 | h2
      · exact absurd h0 hcode
      · exact Or.inl h1
      · exact Or.inr h2
  · intro hle hok hcode hpeer
    simp [Hub.ForwardMessage, hsz hle, hok, hcode, hpeer]
  · intro peer hle hok hcode hpeer hfull
    simp [Hub.ForwardMessage, hsz hle, hok, hcode, hpeer, Nat.not_lt.mpr hfull]
  · intro hlen retry hc
    have hle : raw.length ≤ MaxMessageSize := by rw [hlen]; exact Nat.le_refl _
    unfold Hub.ForwardMessage at hc
    rw [if_neg (hsz hle)] at hc
    simp only at hc
    rcases Check_codes S h.store (h.sess session).Token with h0 | h1 | h2
    · split at hc
      · simp [ErrRateLimited, ErrMessageTooLarge] at hc
      · simp only [limiterGate_store, limiterGate_sess, h0] at hc
        simp only [ne_eq, not_true_eq_false, if_false] at hc
        split at hc
        · simp [ErrPeerOffline, ErrMessageTooLarge] at hc
        · split at hc
          · simp at hc
          · simp [ErrPeerOffline, ErrMessageTooLarge] at hc
    · split at hc
      · simp [ErrRateLimited, ErrMessageTooLarge] at hc
      · simp [h1, ErrDailyQuotaExceeded, ErrMessageTooLarge] at hc
    · split at hc
      · simp [ErrRateLimited, ErrMessageTooLarge] at hc
      · simp [h2, ErrMonthlyQuotaExceeded, ErrMessageTooLarge] at hc
  · intro k code message retry
    rw [sendError_conn_self, trySend_Send]
    rfl
  · intro hbig
    simp [Hub.ForwardMessage, hbig, sendError_conn_self]
  · intro hle hden S'
    simp [Hub.ForwardMessage, hsz hle, hden]

/-- Line 140 of hub.go on a connection that has a limiter: `Allow` decides, and
its new state is left in the connection. -/
theorem limiterGate_some (h : Hub σ) (sender : ConnId) (now : Time) (lim : Limiter)
    (hlim : (h.conn sender).Limiter = some lim) :
    h.limiterGate sender now
      = ((lim.Allow now).1,
          h.modifyConn sender (fun c => { c with Limiter := some (lim.Allow now).2 })) := by
  simp only [Hub.limiterGate, hlim]

/-- Line 140 of hub.go on a connection without a limiter: the frame passes. -/
theorem limiterGate_none (h : Hub σ) (sender : ConnId) (now : Time)
    (hlim : (h.conn sender).Limiter = none) : h.limiterGate sender now = (true, h) := by
  simp only [Hub.limiterGate, hlim]

/-- A frame that passed the sender's limiter passed the rate gate of
`ForwardMessage`, which left the hub `g`. -/
theorem limiterGate_of_passed (h g : Hub σ) (sender : ConnId) (now : Time)
    (hp : h.PassedLimiter sender now g) : h.limiterGate sender now = (true, g) := by
  rcases hp with ⟨hn, hg⟩ | ⟨lim, hl, ha, hg⟩
  · rw [hg]
    exact limiterGate_none h sender now hn
  · rw [hg, limiterGate_some h sender now lim hl, ha]

/-- C5. `ForwardMessage` tries its gates in the order size, rate limiter, quota, peer
slot, peer queue, and the first one that fails fixes the reply, whatever the later
ones would say: more than 5 MiB gives `MESSAGE_TOO_LARGE` with retry-after 0; a
deny of the sender's limiter (`Limiter.Allow` answers false) gives `RATE_LIMITED`
with 1000 and leaves the hub as it was but for the reply; once the limiter has
let the frame pass, taking its token (`PassedLimiter`), a non-empty quota code
(daily or monthly) gives that code with 60000, an empty peer slot gives
`PEER_OFFLINE` with 0, and a full peer queue gives `PEER_OFFLINE` with 1000. A
frame of exactly 5*1024*1024 bytes is never answered `MESSAGE_TOO_LARGE`. The
reply is one `chat.error` frame offered to the sender's queue without blocking,
so it is appended when that queue holds fewer than 256 frames. An oversize frame
leaves the sender's limiter untouched, and the answer to a rate-limited frame
is the same for every Store. -/
theorem ForwardMessage_gate_order (S : Store σ) (h : Hub σ) (session : SessId)
    (sender : ConnId) (raw : Bytes) (now : Time) (id : String) (ts : Int) :
    (MaxMessageSize < raw.length →
      h.ForwardMessage S session sender raw now id ts
        = (h.sendError sender ErrMessageTooLarge "Message exceeds 5MB limit" 0 id ts,
            .refused ErrMessageTooLarge 0)) ∧
    (∀ lim, raw.length ≤ MaxMessageSize → (h.conn sender).Limiter = some lim →
      (lim.Allow now).1 = false →
      h.ForwardMessage S session sender raw now id ts
        = (h.sendError sender ErrRateLimited "Rate limit exceeded" 1000 id ts,
            .refused ErrRateLimited 1000)) ∧
    (∀ g, raw.length ≤ MaxMessageSize → h.PassedLimiter sender now g →
      (QuotaChecker.Check S h.store (h.sess session).Token).1 ≠ "" →
      h.ForwardMessage S session sender raw now id ts
        = (g.sendError sender (QuotaChecker.Check S h.store (h.sess session).Token).1
              "Bandwidth quota exceeded" 60000 id ts,
            .refused (QuotaChecker.Check S h.store (h.sess session).Token).1 60000) ∧
      ((QuotaChecker.Check S h.store (h.sess session).Token).1 = ErrDailyQuotaExceeded ∨
        (QuotaChecker.Check S h.store (h.sess session).Token).1 = ErrMonthlyQuotaExceeded)) ∧
    (∀ g, raw.length ≤ MaxMessageSize → h.PassedLimiter sender now g →
      (QuotaChecker.Check S h.store (h.sess session).Token).1 = "" →
      (h.sess session).PeerConn (h.conn sender).Role = none →
      h.ForwardMessage S session sender raw now id ts
        = (g.sendError sender ErrPeerOffline "Peer is not connected" 0 id ts,
            .refused ErrPeerOffline 0)) ∧
    (∀ g peer, raw.length ≤ MaxMessageSize → h.PassedLimiter sender now g →
      (QuotaChecker.Check S h.store (h.sess session).Token).1 = "" →
      (h.sess session).PeerConn (h.conn sender).Role = some peer →
      sendCap ≤ (h.conn peer).Send.length →
      h.ForwardMessage S session sender raw now id ts
        = (g.sendError sender ErrPeerOffline "Peer send buffer full" 1000 id ts,
            .refused ErrPeerOffline 1000)) ∧
    (raw.length = 5 * 1024 * 1024 →
      ∀ retry, (h.ForwardMessage S session sender raw now id ts).2
        ≠ .refused ErrMessageTooLarge retry) ∧
    (∀ (k : Hub σ) (code message : String) (retry : Int),
      ((k.sendError sender code message retry id ts).conn sender).Send
        = (if (k.conn sender).Send.length < 256
            then (k.conn sender).Send ++ [errorFrame code message retry id ts]
            else (k.conn sender).Send)) ∧
    (MaxMessageSize < raw.length →
      ((h.ForwardMessage S session sender raw now id ts).1.conn sender).Limiter
        = (h.conn sender).Limiter) ∧
    (∀ lim, raw.length ≤ MaxMessageSize → (h.conn sender).Limiter = some lim →
      (lim.Allow now).1 = false →
      ∀ S' : Store σ, h.ForwardMessage S' session sender raw now id ts
        = h.ForwardMessage S session sender raw now id ts) := by
  obtain ⟨hsize, hrate, hquota, hslot, hfull, hexact, hreply, hbig, hstore⟩ :=
    ForwardMessage_gates S h session sender raw now id ts
  have hdeny : ∀ lim, (h.conn sender).Limiter = some lim → (lim.Allow now).1 = false →
      (h.limiterGate sender now).1 = false := by
    intro lim hl hd
    rw [limiterGate_some h sender now lim hl]
    exact hd
  refine ⟨hsize, ?_, ?_, ?_, ?_, hexact, hreply, hbig, ?_⟩
  · intro lim hle hl hd
    exact hrate hle (hdeny lim hl hd)
  · intro g hle hp hcode
    have hg := limiterGate_of_passed h g sender now hp
    have := hquota hle (by rw [hg]) hcode
    rw [hg] at this
    exact this
  · intro g hle hp hcode hnone
    have hg := limiterGate_of_passed h g sender now hp
    have := hslot hle (by rw [hg]) hcode hnone
    rw [hg] at this
    exact this
  · intro g peer hle hp hcode hpeer hlen
    have hg := limiterGate_of_passed h g sender now hp
    have := hfull peer hle (by rw [hg]) hcode hpeer hlen
    rw [hg] at this
    exact this
  · intro lim hle hl hd S'
    exact hstore hle (hdeny lim hl hd) S'

/-- The phone of the paired session has used up its bucket: at the same clock
reading `Allow` answers false, the frame is answered `RATE_LIMITED` with
retry-after 1000, and the peer's queue is as it was. -/
theorem ForwardMessage_rate_limited_example :
    (∃ lim, (Drained.hub.conn Takeover.phone).Limiter = some lim ∧ (lim.Allow 1000).1 = false) ∧
    (Drained.hub.ForwardMessage mockStore 0 Takeover.phone Paired.raw 1000 "e" 1).2
      = .refused ErrRateLimited 1000 ∧
    ((Drained.hub.ForwardMessage mockStore 0 Takeover.phone Paired.raw 1000 "e" 1).1.conn
        Takeover.a1).Send = (Drained.hub.conn Takeover.a1).Send :=
  ⟨⟨_, rfl, by decide⟩, by decide, by decide⟩

end forward

/-! ## C6: a frame that passes every gate -/

section deliver
variable {σ : Type}

theorem deliver_peer_Send (S : Store σ) (h : Hub σ) (session : SessId) (sender peer : ConnId)
    (raw : Bytes) :
    ((h.deliver S session sender peer raw).conn peer).Send = (h.conn peer).Send ++ [raw] := by
  by_cases hp : peer = sender
  · subst hp; simp [Hub.deliver]
  · simp [Hub.deliver, modifyConn_conn_other _ _ _ _ hp]

theorem deliver_sender_BytesSent (S : Store σ) (h : Hub σ) (session : SessId)
    (sender peer : ConnId) (raw : Bytes) :
    ((h.deliver S session sender peer raw).conn sender).BytesSent
      = (h.conn sender).BytesSent + raw.length := by
  by_cases hp : sender = peer
  · subst hp; simp [Hub.deliver]
  · simp [Hub.deliver, modifyConn_conn_other _ _ _ _ hp]

theorem deliver_peer_BytesRecv (S : Store σ) (h : Hub σ) (session : SessId)
    (sender peer : ConnId) (raw : Bytes) :
    ((h.deliver S session sender peer raw).conn peer).BytesRecv
      = (h.conn peer).BytesRecv + raw.length := by
  by_cases hp : peer = sender
  · subst hp; simp [Hub.deliver]
  · simp [Hub.deliver, modifyConn_conn_other _ _ _ _ hp]

theorem deliver_store (S : Store σ) (h : Hub σ) (session : SessId) (sender peer : ConnId)
    (raw : Bytes) :
    (h.deliver S session sender peer raw).store
      = (S.RecordBytes h.store (h.sess session).Token raw.length).1 := by
  simp [Hub.deliver, QuotaChecker.Record]

theorem deliver_sender_Send (S : Store σ) (h : Hub σ) (session : SessId) (sender peer : ConnId)
    (raw : Bytes) (hne : peer ≠ sender) :
    ((h.deliver S session sender peer raw).conn sender).Send = (h.conn sender).Send := by
  simp [Hub.deliver, modifyConn_conn_other _ _ _ _ (Ne.symm hne)]

theorem deliver_conn_other (S : Store σ) (h : Hub σ) (session : SessId) (sender peer q : ConnId)
    (raw : Bytes) (h1 : q ≠ sender) (h2 : q ≠ peer) :
    (h.deliver S session sender peer raw).conn q = h.conn q := by
  simp [Hub.deliver, modifyConn_conn_other _ _ _ _ h1, modifyConn_conn_other _ _ _ _ h2]

@[simp] theorem deliver_sess (S : Store σ) (h : Hub σ) (session : SessId) (sender peer : ConnId)
    (raw : Bytes) : (h.deliver S session sender peer raw).sess = h.sess := rfl

/-- C6. When `raw` passes the size, rate and quota gates, the peer slot holds `peer`
and the queue of `peer` holds fewer than 256 frames, `ForwardMessage` takes the
delivery path: the queue of `peer` is the old queue followed by `raw` itself, the
sender's bytes-sent and the peer's bytes-received counters each grow by
`len(raw)`, the Store has received exactly one `RecordBytes(token, len(raw))`, and
the queue of a sender other than `peer` is as before. -/
theorem ForwardMessage_delivers (S : Store σ) (h : Hub σ) (session : SessId)
    (sender peer : ConnId) (raw : Bytes) (now : Time) (id : String) (ts : Int)
    (hsize : raw.length ≤ MaxMessageSize)
    (hrate : (h.limiterGate sender now).1 = true)
    (hquota : (QuotaChecker.Check S h.store (h.sess session).Token).1 = "")
    (hpeer : (h.sess session).PeerConn (h.conn sender).Role = some peer)
    (hroom : (h.conn peer).Send.length < 256) :
    (h.ForwardMessage S session sender raw now id ts).2 = .delivered peer ∧
    ((h.ForwardMessage S session sender raw now id ts).1.conn peer).Send
      = (h.conn peer).Send ++ [raw] ∧
    ((h.ForwardMessage S session sender raw now id ts).1.conn sender).BytesSent
      = (h.conn sender).BytesSent + raw.length ∧
    ((h.ForwardMessage S session sender raw now id ts).1.conn peer).BytesRecv
      = (h.conn peer).BytesRecv + raw.length ∧
    (h.ForwardMessage S session sender raw now id ts).1.store
      = (S.RecordBytes h.store (h.sess session).Token raw.length).1 ∧
    (peer ≠ sender →
      ((h.ForwardMessage S session sender raw now id ts).1.conn sender).Send
        = (h.conn sender).Send) := by
  have hfm : h.ForwardMessage S session sender raw now id ts
      = ((h.limiterGate sender now).2.deliver S session sender peer raw, .delivered peer) := by
    have hroom' : (h.conn peer).Send.length < sendCap := hroom
    simp [Hub.ForwardMessage, Nat.not_lt.mpr hsize, hrate, hquota, hpeer, hroom']
  rw [hfm]
  refine ⟨rfl, ?_, ?_, ?_, ?_, ?_⟩
  · simp [deliver_peer_Send]
  · simp [deliver_sender_BytesSent]
  · simp [deliver_peer_BytesRecv]
  · simp [deliver_store]
  · intro hne
    simp [deliver_sender_Send _ _ _ _ _ _ hne]

/-- Witness for C6: phone and agent `a1` are paired and the phone sends five bytes. -/
theorem ForwardMessage_delivers_witness :
    Paired.raw.length ≤ MaxMessageSize ∧
    (Takeover.authPhone.1.limiterGate Takeover.phone 1000).1 = true ∧
    (QuotaChecker.Check mockStore Takeover.authPhone.1.store
      (Takeover.authPhone.1.sess 0).Token).1 = "" ∧
    (Takeover.authPhone.1.sess 0).PeerConn (Takeover.authPhone.1.conn Takeover.phone).Role
      = some Takeover.a1 ∧
    (Takeover.authPhone.1.conn Takeover.a1).Send.length < 256 ∧
    ((Takeover.authPhone.1.ForwardMessage mockStore 0 Takeover.phone Paired.raw 1000 "e" 1).2
        = .delivered Takeover.a1 ∧
      ((Takeover.authPhone.1.ForwardMessage mockStore 0 Takeover.phone Paired.raw 1000
          "e" 1).1.conn Takeover.a1).Send
        = (Takeover.authPhone.1.conn Takeover.a1).Send ++ [Paired.raw] ∧
      ((Takeover.authPhone.1.ForwardMessage mockStore 0 Takeover.phone Paired.raw 1000
          "e" 1).1.conn Takeover.phone).BytesSent
        = (Takeover.authPhone.1.conn Takeover.phone).BytesSent + Paired.raw.length ∧
      ((Takeover.authPhone.1.ForwardMessage mockStore 0 Takeover.phone Paired.raw 1000
          "e" 1).1.conn Takeover.a1).BytesRecv
        = (Takeover.authPhone.1.conn Takeover.a1).BytesRecv + Paired.raw.length ∧
      (Takeover.authPhone.1.ForwardMessage mockStore 0 Takeover.phone Paired.raw 1000
          "e" 1).1.store
        = (mockStore.RecordBytes Takeover.authPhone.1.store
            (Takeover.authPhone.1.sess 0).Token Paired.raw.length).1 ∧
      (Takeover.a1 ≠ Takeover.phone →
        ((Takeover.authPhone.1.ForwardMessage mockStore 0 Takeover.phone Paired.raw 1000
            "e" 1).1.conn Takeover.phone).Send
          = (Takeover.authPhone.1.conn Takeover.phone).Send)) :=
  ⟨by decide, by decide, by decide, by decide, by decide,
    ForwardMessage_delivers mockStore Takeover.authPhone.1 0 Takeover.phone Takeover.a1
      Paired.raw 1000 "e" 1 (by decide) (by decide) (by decide) (by decide) (by decide)⟩

end deliver

/-! ## C7: a frame that is turned away -/

section refused

variable {σ : Type}

theorem SameTraffic_refl (h : Hub σ) (sender : ConnId) : h.SameTraffic h sender :=
  ⟨rfl, rfl, fun _ => ⟨rfl, rfl⟩, fun _ _ => rfl⟩

theorem SameTraffic_limiterGate (h : Hub σ) (sender : ConnId) (now : Time) :
    (h.limiterGate sender now).2.SameTraffic h sender :=
  ⟨by simp, by simp, fun _ => ⟨by simp, by simp⟩, fun _ _ => by simp⟩

/-- An error reply changes no byte counter, and no queue other than the sender's. -/
theorem SameTraffic_sendError (k h : Hub σ) (sender : ConnId) (code msg : String)
    (r : Int) (id : String) (ts : Int) (hk : k.SameTraffic h sender) :
    (k.sendError sender code msg r id ts).SameTraffic h sender := by
  obtain ⟨h1, h2, h3, h4⟩ := hk
  refine ⟨by simpa using h1, by simpa using h2, ?_, ?_⟩
  · intro q
    by_cases hq : q = sender
    · subst hq; simpa [sendError_conn_self] using h3 q
    · simpa [sendError_conn_other _ _ _ _ _ _ _ _ hq] using h3 q
  · intro q hq
    simpa [sendError_conn_other _ _ _ _ _ _ _ _ hq] using h4 q hq

/-- The two shapes of a `ForwardMessage` result: a delivery to the peer found in the
slot, whose queue had room, or one error reply to the sender. -/
theorem ForwardMessage_shape (S : Store σ) (h : Hub σ) (session : SessId)
    (sender : ConnId) (raw : Bytes) (now : Time) (id : String) (ts : Int) :
    (∃ peer, (h.conn peer).Send.length < sendCap ∧
      h.ForwardMessage S session sender raw now id ts
        = ((h.limiterGate sender now).2.deliver S session sender peer raw, .delivered peer)) ∨
    (∃ code msg r,
      h.ForwardMessage S session sender raw now id ts
        = (h.sendError sender code msg r id ts, .refused code r) ∨
      h.ForwardMessage S session sender raw now id ts
        = ((h.limiterGate sender now).2.sendError sender code msg r id ts, .refused code r)) := by
  unfold Hub.ForwardMessage
  split
  · exact Or.inr ⟨_, _, _, Or.inl rfl⟩
  · simp only
    split
    · exact Or.inr ⟨_, _, _, Or.inr rfl⟩
    · split
      · exact Or.inr ⟨_, _, _, Or.inr rfl⟩
      · split
        · exact Or.inr ⟨_, _, _, Or.inr rfl⟩
        · split
          · rename_i peer _ hroom
            exact Or.inl ⟨peer, by simpa using hroom, rfl⟩
          · exact Or.inr ⟨_, _, _, Or.inr rfl⟩

/-- C7. When `ForwardMessage` answers the sender with an error reply, the Store
(and with it the ledger) and the sessions are as before, no connection's
bytes-sent or bytes-received counter has moved, and the queue of every connection
other than the sender, the peer's among them, holds the same frames in the same
order. -/
theorem ForwardMessage_refused_unchanged (S : Store σ) (h : Hub σ) (session : SessId)
    (sender : ConnId) (raw : Bytes) (now : Time) (id : String) (ts : Int)
    (code : String) (retry : Int)
    (href : (h.ForwardMessage S session sender raw now id ts).2 = .refused code retry) :
    (h.ForwardMessage S session sender raw now id ts).1.store = h.store ∧
    (h.ForwardMessage S session sender raw now id ts).1.sess = h.sess ∧
    (∀ q, ((h.ForwardMessage S session sender raw now id ts).1.conn q).BytesSent
        = (h.conn q).BytesSent ∧
      ((h.ForwardMessage S session sender raw now id ts).1.conn q).BytesRecv
        = (h.conn q).BytesRecv) ∧
    (∀ q, q ≠ sender →
      ((h.ForwardMessage S session sender raw now id ts).1.conn q).Send = (h.conn q).Send) := by
  change (h.ForwardMessage S session sender raw now id ts).1.SameTraffic h sender
  rcases ForwardMessage_shape S h session sender raw now id ts with
    ⟨peer, _, hfm⟩ | ⟨c, m, r, hfm | hfm⟩
  · rw [hfm] at href
    exact absurd href (by simp)
  · rw [hfm]
    exact SameTraffic_sendError _ _ _ _ _ _ _ _ (SameTraffic_refl h sender)
  · rw [hfm]
    exact SameTraffic_sendError _ _ _ _ _ _ _ _ (SameTraffic_limiterGate h sender now)

/-- Witness for C7: only agent `a1` is connected and sends a frame; the phone slot
is empty, so the reply is `PEER_OFFLINE` with retry-after 0. -/
theorem ForwardMessage_refused_unchanged_witness :
    (Takeover.authA1.1.ForwardMessage mockStore 0 Takeover.a1 Paired.raw 1000 "e" 1).2
      = .refused ErrPeerOffline 0 ∧
    ((Takeover.authA1.1.ForwardMessage mockStore 0 Takeover.a1 Paired.raw 1000 "e" 1).1.store
        = Takeover.authA1.1.store ∧
      (Takeover.authA1.1.ForwardMessage mockStore 0 Takeover.a1 Paired.raw 1000 "e" 1).1.sess
        = Takeover.authA1.1.sess ∧
      (∀ q, ((Takeover.authA1.1.ForwardMessage mockStore 0 Takeover.a1 Paired.raw 1000
            "e" 1).1.conn q).BytesSent = (Takeover.authA1.1.conn q).BytesSent ∧
        ((Takeover.authA1.1.ForwardMessage mockStore 0 Takeover.a1 Paired.raw 1000
            "e" 1).1.conn q).BytesRecv = (Takeover.authA1.1.conn q).BytesRecv) ∧
      (∀ q, q ≠ Takeover.a1 →
        ((Takeover.authA1.1.ForwardMessage mockStore 0 Takeover.a1 Paired.raw 1000
            "e" 1).1.conn q).Send = (Takeover.authA1.1.conn q).Send)) :=
  ⟨by decide,
    ForwardMessage_refused_unchanged mockStore Takeover.authA1.1 0 Takeover.a1 Paired.raw 1000
      "e" 1 ErrPeerOffline 0 (by decide)⟩

end refused

/-! ## C8: per-direction order -/

section order

variable {σ : Type}

theorem deliver_Send (S : Store σ) (h : Hub σ) (session : SessId) (sender peer q : ConnId)
    (raw : Bytes) :
    ((h.deliver S session sender peer raw).conn q).Send
      = if q = peer then (h.conn q).Send ++ [raw] else (h.conn q).Send := by
  by_cases hq : q = peer
  · subst hq; simp [deliver_peer_Send]
  · rw [if_neg hq]
    by_cases hs : q = sender
    · subst hs; exact deliver_sender_Send _ _ _ _ _ _ (Ne.symm hq)
    · rw [deliver_conn_other _ _ _ _ _ _ _ hs hq]

theorem sendError_Send_suffix (h : Hub σ) (c q : ConnId) (code msg : String) (r : Int)
    (id : String) (ts : Int) :
    ∃ extra, ((h.sendError c code msg r id ts).conn q).Send = (h.conn q).Send ++ extra := by
  by_cases hq : q = c
  · subst hq
    rw [sendError_conn_self, trySend_Send]
    split
    · exact ⟨_, rfl⟩
    · exact ⟨[], by simp⟩
  · rw [sendError_conn_other _ _ _ _ _ _ _ _ hq]
    exact ⟨[], by simp⟩

theorem Ordered_start (h : Hub σ) (p : ConnId) :
    (Run.start h).Ordered (fun c => (h.conn c).Send) p :=
  ⟨[], by simp [Run.start], by simp [Run.start]⟩

theorem Ordered_append (q0 : ConnId → List Bytes) (r r' : Run σ) (p : ConnId) (extra : List Bytes)
    (hw : r'.wire p = r.wire p) (ha : r'.accepted p = r.accepted p)
    (hs : (r'.hub.conn p).Send = (r.hub.conn p).Send ++ extra)
    (ho : r.Ordered q0 p) : r'.Ordered q0 p := by
  obtain ⟨rest, h1, h2⟩ := ho
  refine ⟨rest ++ extra, ?_, ?_⟩
  · rw [hw, hs, ← List.append_assoc, h1, List.append_assoc]
  · rw [ha]
    exact h2.trans (List.sublist_append_left _ _)

theorem Ordered_step (S : Store σ) (session : SessId) (sender : ConnId)
    (q0 : ConnId → List Bytes) (r : Run σ) (e : Event) (p : ConnId)
    (ho : r.Ordered q0 p) : (r.step S session sender e).Ordered q0 p := by
  cases e with
  | forward raw now id ts =>
    rcases ForwardMessage_shape S r.hub session sender raw now id ts with
      ⟨peer, _, hfm⟩ | ⟨c, m, rr, hfm | hfm⟩
    · simp only [Run.step, hfm]
      by_cases hp : p = peer
      · subst hp
        obtain ⟨rest, h1, h2⟩ := ho
        refine ⟨rest ++ [raw], ?_, ?_⟩
        · simp only [deliver_Send, if_true, limiterGate_Send]
          rw [← List.append_assoc, h1, List.append_assoc]
        · simp only [Function.update_same]
          exact List.Sublist.append h2 (List.Sublist.refl _)
      · refine Ordered_append q0 r _ p [] rfl ?_ ?_ ho
        · simp [Function.update_noteq hp]
        · simp [deliver_Send, hp]
    · simp only [Run.step, hfm]
      obtain ⟨extra, hx⟩ := sendError_Send_suffix r.hub sender p c m rr id ts
      exact Ordered_append q0 r _ p extra rfl rfl hx ho
    · simp only [Run.step, hfm]
      obtain ⟨extra, hx⟩ :=
        sendError_Send_suffix (r.hub.limiterGate sender now).2 sender p c m rr id ts
      refine Ordered_append q0 r _ p extra rfl rfl ?_ ho
      simpa using hx
  | dequeue c =>
    simp only [Run.step, Hub.writePumpRecv]
    cases hq : (r.hub.conn c).Send with
    | nil => simpa using ho
    | cons msg tl =>
      simp only
      by_cases hp : p = c
      · subst hp
        obtain ⟨rest, h1, h2⟩ := ho
        refine ⟨rest, ?_, h2⟩
        simp only [Function.update_same, modifyConn_conn_self]
        rw [← h1, hq]; simp
      · refine Ordered_append q0 r _ p [] ?_ rfl ?_ ho
        · simp [Function.update_noteq hp]
        · simp [modifyConn_conn_other _ _ _ _ hp]
  | notify c data =>
    simp only [Run.step]
    by_cases hp : p = c
    · subst hp
      by_cases hroom : (r.hub.conn p).Send.length < sendCap
      · exact Ordered_append q0 r _ p [data] rfl rfl (by simp [trySend_Send, hroom]) ho
      · exact Ordered_append q0 r _ p [] rfl rfl (by simp [trySend_Send, hroom]) ho
    · exact Ordered_append q0 r _ p [] rfl rfl (by simp [modifyConn_conn_other _ _ _ _ hp]) ho

theorem Ordered_exec (S : Store σ) (session : SessId) (sender : ConnId)
    (q0 : ConnId → List Bytes) (events : List Event) (p : ConnId) :
    ∀ r : Run σ, r.Ordered q0 p → (r.exec S session sender events).Ordered q0 p := by
  induction events with
  | nil => intro r ho; exact ho
  | cons e es ih =>
    intro r ho
    exact ih _ (Ordered_step S session sender q0 r e p ho)

/-- C8. Take any hub state, one session and one sender, and any sequence of events:
calls of `ForwardMessage` by the sender, receives by the writer of any
connection, and envelopes offered to any connection. For every connection `p`,
the frames its writer has taken followed by the frames still queued are the
initial queue followed by a tail `rest`, and the frames `ForwardMessage`
delivered to `p`, in the order of their submission, form a subsequence of
`rest`: they leave the queue in the order in which they were submitted. -/
theorem ForwardMessage_preserves_order (S : Store σ) (h : Hub σ) (session : SessId)
    (sender : ConnId) (events : List Event) (p : ConnId) :
    ∃ rest,
      ((Run.start h).exec S session sender events).wire p
          ++ (((Run.start h).exec S session sender events).hub.conn p).Send
        = (h.conn p).Send ++ rest ∧
      List.Sublist (((Run.start h).exec S session sender events).accepted p) rest :=
  Ordered_exec S session sender (fun c => (h.conn c).Send) events p _ (Ordered_start h p)

/-- Two frames forwarded by the phone, with a status envelope offered in between,
reach the writer of the agent in the order of submission. -/
theorem order_example :
    (((Run.start Takeover.authPhone.1).exec mockStore 0 Takeover.phone
        [.forward [1] 1000 "e" 1, .notify Takeover.a1 [9], .forward [2] 1001 "e" 2,
          .dequeue Takeover.a1, .dequeue Takeover.a1, .dequeue Takeover.a1]).wire Takeover.a1
      = [[1], [9], [2]]) ∧
    (((Run.start Takeover.authPhone.1).exec mockStore 0 Takeover.phone
        [.forward [1] 1000 "e" 1, .notify Takeover.a1 [9], .forward [2] 1001 "e" 2,
          .dequeue Takeover.a1, .dequeue Takeover.a1, .dequeue Takeover.a1]).accepted Takeover.a1
      = [[1], [2]]) := by
  decide

end order

/-! ## C9: Disconnect called twice -/

section disconnect

variable {σ : Type}

@[simp] theorem ClearConn_PeerConn (s : Session) (role : String) :
    (s.ClearConn role).PeerConn role = s.PeerConn role := by
  unfold Session.ClearConn Session.PeerConn
  by_cases hr : role = "phone" <;> simp [hr]

theorem Disconnect_connCount (h : Hub σ) (s : SessId) (c : ConnId) (id : String) (ts : Int) :
    (h.Disconnect (some s) (some c) id ts).connCount = h.connCount - 1 := by
  simp only [Hub.Disconnect]
  split <;> simp <;> rfl

theorem Disconnect_sess (h : Hub σ) (s : SessId) (c : ConnId) (id : String) (ts : Int) :
    (h.Disconnect (some s) (some c) id ts).sess
      = Function.update h.sess s ((h.sess s).ClearConn (h.conn c).Role) := by
  simp only [Hub.Disconnect]
  split <;> simp [Hub.modifySess]

theorem Disconnect_sessions (h : Hub σ) (s : SessId) (c : ConnId) (id : String) (ts : Int) :
    (h.Disconnect (some s) (some c) id ts).sessions = h.sessions := by
  simp only [Hub.Disconnect]
  split <;> simp

theorem Disconnect_Role (h : Hub σ) (s : SessId) (c d : ConnId) (id : String) (ts : Int) :
    ((h.Disconnect (some s) (some c) id ts).conn d).Role = (h.conn d).Role := by
  simp only [Hub.Disconnect]
  split
  · rename_i peer _
    by_cases hd : d = peer
    · subst hd; simp
    · simp [modifyConn_conn_other _ _ _ _ hd]
  · simp

/-- C9, as amended. A second `Disconnect(session, conn)` leaves every session slot
and the session table as the first call left them, but each call lowers the
live-connection counter by one: one call gives the old value minus 1, two calls
give the old value minus 2. After a successful `Authenticate`, one `Disconnect`
with the returned session brings the counter back to its value before the
`Authenticate`. -/
theorem Disconnect_twice (h : Hub σ) (s : SessId) (c : ConnId) (id id' : String)
    (ts ts' : Int) :
    ((h.Disconnect (some s) (some c) id ts).Disconnect (some s) (some c) id' ts').sess
      = (h.Disconnect (some s) (some c) id ts).sess ∧
    ((h.Disconnect (some s) (some c) id ts).Disconnect (some s) (some c) id' ts').sessions
      = (h.Disconnect (some s) (some c) id ts).sessions ∧
    (h.Disconnect (some s) (some c) id ts).connCount = h.connCount - 1 ∧
    ((h.Disconnect (some s) (some c) id ts).Disconnect (some s) (some c) id' ts').connCount
      = h.connCount - 2 ∧
    (∀ (S : Store σ) (parsed : Except String AuthPayload) (now : Time) (h' : Hub σ)
        (session : SessId),
      h.Authenticate S c parsed now = (h', .ok session) →
      (h'.Disconnect (some session) (some c) id ts).connCount = h.connCount) := by
  refine ⟨?_, ?_, Disconnect_connCount h s c id ts, ?_, ?_⟩
  · rw [Disconnect_sess (h.Disconnect (some s) (some c) id ts), Disconnect_Role,
      Disconnect_sess h]
    simp [ClearConn_idem]
  · rw [Disconnect_sessions]
  · rw [Disconnect_connCount, Disconnect_connCount]; ring
  · intro S parsed now h' session hauth
    rw [Disconnect_connCount]
    cases parsed with
    | error e => simp [Hub.Authenticate] at hauth
    | ok auth =>
      unfold Hub.Authenticate at hauth
      simp only at hauth
      split at hauth
      · simp at hauth
      · simp at hauth
      · split at hauth
        · simp at hauth
        · split at hauth
          · simp at hauth
          · simp only [Prod.mk.injEq, AuthResult.ok.injEq] at hauth
            rw [← hauth.1, install_connCount]; ring

/-- C9, counterexample. With agent `a1` authenticated the counter is 1; one
`Disconnect` brings it to 0 and a second one to -1, so two calls do not leave the
counter as one call leaves it. -/
theorem Disconnect_twice_decrements_twice :
    Takeover.authA1.1.connCount = 1 ∧
    (Takeover.authA1.1.Disconnect (some 0) (some Takeover.a1) "d" 400).connCount = 0 ∧
    ((Takeover.authA1.1.Disconnect (some 0) (some Takeover.a1) "d" 400).Disconnect
        (some 0) (some Takeover.a1) "d" 401).connCount = -1 := by
  decide

end disconnect

/-! ## C10: the quota thresholds -/

section quota

variable {σ : Type}

/-- What `Check` returns when both Store reads succeed: the comparisons are
`>=`, the daily one first. -/
theorem Check_of_usage (S : Store σ) (st : σ) (token : String) (daily monthly : Int)
    (hd : S.GetDailyUsage st token = .ok daily)
    (hm : S.GetMonthlyUsage st token = .ok monthly) :
    (daily < 500 * 1024 * 1024 → monthly < 10 * 1024 * 1024 * 1024 →
      QuotaChecker.Check S st token = ("", none)) ∧
    (500 * 1024 * 1024 ≤ daily →
      QuotaChecker.Check S st token = ("DAILY_QUOTA_EXCEEDED", none)) ∧
    (daily < 500 * 1024 * 1024 → 10 * 1024 * 1024 * 1024 ≤ monthly →
      QuotaChecker.Check S st token = ("MONTHLY_QUOTA_EXCEEDED", none)) := by
  refine ⟨?_, ?_, ?_⟩
  · intro h1 h2
    have h1' : ¬ daily ≥ DailyQuotaBytes := by unfold DailyQuotaBytes; omega
    have h2' : ¬ monthly ≥ MonthlyQuotaBytes := by unfold MonthlyQuotaBytes; omega
    simp [QuotaChecker.Check, hd, hm, h1', h2']
  · intro h1
    have h1' : daily ≥ DailyQuotaBytes := by unfold DailyQuotaBytes; omega
    simp [QuotaChecker.Check, hd, h1']
  · intro h1 h2
    have h1' : ¬ daily ≥ DailyQuotaBytes := by unfold DailyQuotaBytes; omega
    have h2' : monthly ≥ MonthlyQuotaBytes := by unfold MonthlyQuotaBytes; omega
    simp [QuotaChecker.Check, hd, hm, h1', h2']

/-- C10. With a daily usage of exactly 500 MiB (and a monthly usage of 500 MiB, far
below 10 GiB) `Check` returns `DAILY_QUOTA_EXCEEDED`, not the empty code: usage
at the limit is treated as over the limit. -/
theorem Check_at_daily_limit :
    mockStore.GetDailyUsage AtLimit.store0 AtLimit.token = .ok (500 * 1024 * 1024) ∧
    mockStore.GetMonthlyUsage AtLimit.store0 AtLimit.token = .ok (500 * 1024 * 1024) ∧
    QuotaChecker.Check mockStore AtLimit.store0 AtLimit.token
      = ("DAILY_QUOTA_EXCEEDED", none) :=
  ⟨rfl, rfl, by decide⟩

end quota

/-! ## The table invariant assumed in C3 -/

section wellkeyed

variable {σ : Type}

@[simp] theorem modifyConn_nextSess (h : Hub σ) (c : ConnId) (f : Connection → Connection) :
    (h.modifyConn c f).nextSess = h.nextSess := rfl

@[simp] theorem modifySess_nextSess (h : Hub σ) (s : SessId) (f : Session → Session) :
    (h.modifySess s f).nextSess = h.nextSess := rfl

/-- A state that differs only in its connections, Store and counter is well keyed
when the original is. -/
theorem WellKeyed_of_eq (h k : Hub σ) (h1 : k.sessions = h.sessions) (h2 : k.sess = h.sess)
    (h3 : k.nextSess = h.nextSess) (hk : h.WellKeyed) : k.WellKeyed := by
  intro t s hs
  rw [h1] at hs
  rw [h2, h3]
  exact hk t s hs

/-- Rewriting one session object without touching its `Token` keeps the table well
keyed. -/
theorem WellKeyed_modifySess (h : Hub σ) (s : SessId) (f : Session → Session)
    (hf : ∀ x, (f x).Token = x.Token) (hk : h.WellKeyed) : (h.modifySess s f).WellKeyed := by
  intro t u hu
  have := hk t u hu
  refine ⟨?_, this.2⟩
  by_cases hus : u = s
  · subst hus; simp [hf, this.1]
  · rw [modifySess_sess_other _ _ _ _ hus]; exact this.1

theorem lookupOrInsert_wellKeyed (h : Hub σ) (t : String) (hk : h.WellKeyed) :
    (h.lookupOrInsert t).1.WellKeyed := by
  unfold Hub.lookupOrInsert
  split
  · exact hk
  · intro t' s' hs'
    simp only at hs' ⊢
    by_cases ht : t' = t
    · subst ht
      simp only [Function.update_same, Option.some.injEq] at hs'
      subst hs'
      simp
    · rw [Function.update_noteq ht] at hs'
      have := hk t' s' hs'
      have hne : s' ≠ h.nextSess := Nat.ne_of_lt this.2
      rw [Function.update_noteq hne]
      exact ⟨this.1, Nat.lt_succ_of_lt this.2⟩

theorem WellKeyed_modifyConn (h : Hub σ) (c : ConnId) (f : Connection → Connection)
    (hk : h.WellKeyed) : (h.modifyConn c f).WellKeyed :=
  WellKeyed_of_eq h _ rfl rfl rfl hk

theorem WellKeyed_connCount (h : Hub σ) (n : Int) (hk : h.WellKeyed) :
    ({ h with connCount := n } : Hub σ).WellKeyed :=
  WellKeyed_of_eq h _ rfl rfl rfl hk

theorem closeExisting_wellKeyed (h : Hub σ) (s : SessId) (role : String) (hk : h.WellKeyed) :
    (h.closeExisting s role).WellKeyed :=
  WellKeyed_of_eq h _ (closeExisting_sessions _ _ _) (closeExisting_sess _ _ _)
    (closeExisting_nextSess _ _ _) hk

theorem install_wellKeyed (h : Hub σ) (conn : ConnId) (auth : AuthPayload) (now : Time)
    (hk : h.WellKeyed) : (h.install conn auth now).1.WellKeyed := by
  unfold Hub.install
  simp only
  apply WellKeyed_connCount
  apply WellKeyed_modifySess _ _ _ (fun x => SetConn_Token x _ _ _)
  apply closeExisting_wellKeyed
  apply lookupOrInsert_wellKeyed
  exact WellKeyed_modifyConn _ _ _ hk

theorem limiterGate_wellKeyed (h : Hub σ) (c : ConnId) (now : Time) (hk : h.WellKeyed) :
    (h.limiterGate c now).2.WellKeyed := by
  unfold Hub.limiterGate
  split
  · exact hk
  · exact WellKeyed_modifyConn _ _ _ hk

/-- Every operation of the hub keeps the session table well keyed, and `NewHub`
starts well keyed (`NewHub_wellKeyed`). -/
theorem WellKeyed_preserved (S : Store σ) (h : Hub σ) (hk : h.WellKeyed) :
    (∀ conn parsed now, (h.Authenticate S conn parsed now).1.WellKeyed) ∧
    (∀ session conn id ts, (h.Disconnect session conn id ts).WellKeyed) ∧
    (∀ session sender raw now id ts,
      (h.ForwardMessage S session sender raw now id ts).1.WellKeyed) := by
  refine ⟨?_, ?_, ?_⟩
  · intro conn parsed now
    unfold Hub.Authenticate
    split
    · exact hk
    · split
      · exact hk
      · exact hk
      · split
        · exact hk
        · split <;> exact install_wellKeyed h conn _ now hk
  · intro session conn id ts
    cases session with
    | none => exact hk
    | some s =>
      cases conn with
      | none => exact hk
      | some c =>
        have hc : (h.modifySess s (fun x => x.ClearConn (h.conn c).Role)).WellKeyed :=
          WellKeyed_modifySess h _ _
            (fun x => by unfold Session.ClearConn; split <;> rfl) hk
        simp only [Hub.Disconnect]
        split
        · exact WellKeyed_modifyConn _ _ _ (WellKeyed_connCount _ _ hc)
        · exact WellKeyed_connCount _ _ hc
  · intro session sender raw now id ts
    have hg := limiterGate_wellKeyed h sender now hk
    rcases ForwardMessage_shape S h session sender raw now id ts with
      ⟨peer, _, hfm⟩ | ⟨c, m, r, hfm | hfm⟩
    · rw [hfm]
      unfold Hub.deliver
      simp only
      apply WellKeyed_modifyConn
      apply WellKeyed_modifyConn
      refine WellKeyed_of_eq ((h.limiterGate sender now).2.modifyConn peer
        (fun p => { p with Send := p.Send ++ [raw] })) _ rfl rfl rfl ?_
      exact WellKeyed_modifyConn _ _ _ hg
    · rw [hfm]
      exact WellKeyed_modifyConn _ _ _ hk
    · rw [hfm]
      exact WellKeyed_modifyConn _ _ _ hg

end wellkeyed

/-! ## C11: Store failures do not block a forward -/

section failopen

variable {σ : Type}

theorem Check_of_read_failure (S : Store σ) (st : σ) (token : String)
    (hf : QuotaReadFails S st token) : (QuotaChecker.Check S st token).1 = "" := by
  rcases hf with ⟨e, he⟩ | ⟨d, e, hd, hlt, hm⟩
  · simp [QuotaChecker.Check, he]
  · have : ¬ d ≥ DailyQuotaBytes := by omega
    simp [QuotaChecker.Check, hd, hm, this]

theorem Check_within (S : Store σ) (st : σ) (token : String)
    (hw : WithinQuota S st token) : (QuotaChecker.Check S st token).1 = "" := by
  obtain ⟨d, m, hd, hlt, hm, hlt'⟩ := hw
  have h1 : ¬ d ≥ DailyQuotaBytes := by omega
  have h2 : ¬ m ≥ MonthlyQuotaBytes := by omega
  simp [QuotaChecker.Check, hd, hm, h1, h2]

/-- With the other gates passed, an empty quota code sends the frame down the
delivery path. -/
theorem ForwardMessage_of_code_empty (S : Store σ) (h : Hub σ) (session : SessId)
    (sender peer : ConnId) (raw : Bytes) (now : Time) (id : String) (ts : Int)
    (hsize : raw.length ≤ MaxMessageSize)
    (hrate : (h.limiterGate sender now).1 = true)
    (hquota : (QuotaChecker.Check S h.store (h.sess session).Token).1 = "")
    (hpeer : (h.sess session).PeerConn (h.conn sender).Role = some peer)
    (hroom : (h.conn peer).Send.length < 256) :
    h.ForwardMessage S session sender raw now id ts
      = ((h.limiterGate sender now).2.deliver S session sender peer raw, .delivered peer) := by
  have hroom' : (h.conn peer).Send.length < sendCap := hroom
  simp [Hub.ForwardMessage, Nat.not_lt.mpr hsize, hrate, hquota, hpeer, hroom']

/-- C11. Let a frame pass the size and rate gates with the peer slot occupied and
room in the peer's queue. If a read of the quota gate fails (`GetDailyUsage`, or
`GetMonthlyUsage` after a daily read below the quota), `Check` returns the empty
code and `ForwardMessage` takes the delivery path, whose Go result is nil: the
frame is appended to the peer's queue and both byte counters grow by `len(raw)`,
and the whole result equals the result with a Store that records the same way
and reports usage within quota. A failing `RecordBytes` changes none of this:
the frame stays queued and both counters still advance. -/
theorem ForwardMessage_store_failure (S : Store σ) (h : Hub σ) (session : SessId)
    (sender peer : ConnId) (raw : Bytes) (now : Time) (id : String) (ts : Int)
    (hsize : raw.length ≤ MaxMessageSize)
    (hrate : (h.limiterGate sender now).1 = true)
    (hread : QuotaReadFails S h.store (h.sess session).Token)
    (hpeer : (h.sess session).PeerConn (h.conn sender).Role = some peer)
    (hroom : (h.conn peer).Send.length < 256) :
    (QuotaChecker.Check S h.store (h.sess session).Token).1 = "" ∧
    (h.ForwardMessage S session sender raw now id ts).2 = .delivered peer ∧
    ((h.ForwardMessage S session sender raw now id ts).1.conn peer).Send
      = (h.conn peer).Send ++ [raw] ∧
    ((h.ForwardMessage S session sender raw now id ts).1.conn sender).BytesSent
      = (h.conn sender).BytesSent + raw.length ∧
    ((h.ForwardMessage S session sender raw now id ts).1.conn peer).BytesRecv
      = (h.conn peer).BytesRecv + raw.length ∧
    (∀ S' : Store σ, S'.RecordBytes = S.RecordBytes →
      WithinQuota S' h.store (h.sess session).Token →
      h.ForwardMessage S' session sender raw now id ts
        = h.ForwardMessage S session sender raw now id ts) ∧
    (∀ S' : Store σ, (∃ e, (S'.RecordBytes h.store (h.sess session).Token raw.length).2 = some e) →
      (QuotaChecker.Check S' h.store (h.sess session).Token).1 = "" →
      (h.ForwardMessage S' session sender raw now id ts).2 = .delivered peer ∧
      ((h.ForwardMessage S' session sender raw now id ts).1.conn peer).Send
        = (h.conn peer).Send ++ [raw] ∧
      ((h.ForwardMessage S' session sender raw now id ts).1.conn sender).BytesSent
        = (h.conn sender).BytesSent + raw.length ∧
      ((h.ForwardMessage S' session sender raw now id ts).1.conn peer).BytesRecv
        = (h.conn peer).BytesRecv + raw.length) := by
  have hq := Check_of_read_failure S h.store _ hread
  have key : ∀ S' : Store σ, (QuotaChecker.Check S' h.store (h.sess session).Token).1 = "" →
      (h.ForwardMessage S' session sender raw now id ts).2 = .delivered peer ∧
      ((h.ForwardMessage S' session sender raw now id ts).1.conn peer).Send
        = (h.conn peer).Send ++ [raw] ∧
      ((h.ForwardMessage S' session sender raw now id ts).1.conn sender).BytesSent
        = (h.conn sender).BytesSent + raw.length ∧
      ((h.ForwardMessage S' session sender raw now id ts).1.conn peer).BytesRecv
        = (h.conn peer).BytesRecv + raw.length := by
    intro S' hq'
    rw [ForwardMessage_of_code_empty S' h session sender peer raw now id ts hsize hrate hq'
      hpeer hroom]
    exact ⟨rfl, by simp [deliver_peer_Send], by simp [deliver_sender_BytesSent],
      by simp [deliver_peer_BytesRecv]⟩
  refine ⟨hq, (key S hq).1, (key S hq).2.1, (key S hq).2.2.1, (key S hq).2.2.2, ?_, ?_⟩
  · intro S' hrec hw
    rw [ForwardMessage_of_code_empty S h session sender peer raw now id ts hsize hrate hq
        hpeer hroom,
      ForwardMessage_of_code_empty S' h session sender peer raw now id ts hsize hrate
        (Check_within S' _ _ hw) hpeer hroom]
    simp [Hub.deliver, QuotaChecker.Record, hrec]
  · intro S' _ hq'
    exact key S' hq'

/-- Witness for C11: phone and agent are paired and the database is down. -/
theorem ForwardMessage_store_failure_witness :
    Paired.raw.length ≤ MaxMessageSize ∧
    (Takeover.authPhone.1.limiterGate Takeover.phone 1000).1 = true ∧
    QuotaReadFails downStore Takeover.authPhone.1.store (Takeover.authPhone.1.sess 0).Token ∧
    (Takeover.authPhone.1.sess 0).PeerConn (Takeover.authPhone.1.conn Takeover.phone).Role
      = some Takeover.a1 ∧
    (Takeover.authPhone.1.conn Takeover.a1).Send.length < 256 ∧
    (Takeover.authPhone.1.ForwardMessage downStore 0 Takeover.phone Paired.raw 1000 "e" 1).2
      = .delivered Takeover.a1 ∧
    ((Takeover.authPhone.1.ForwardMessage downStore 0 Takeover.phone Paired.raw 1000
        "e" 1).1.conn Takeover.a1).Send
      = (Takeover.authPhone.1.conn Takeover.a1).Send ++ [Paired.raw] :=
  have hread : QuotaReadFails downStore Takeover.authPhone.1.store
      (Takeover.authPhone.1.sess 0).Token := Or.inl ⟨_, rfl⟩
  have hall := ForwardMessage_store_failure downStore Takeover.authPhone.1 0 Takeover.phone
    Takeover.a1 Paired.raw 1000 "e" 1 (by decide) (by decide) hread (by decide) (by decide)
  ⟨by decide, by decide, hread, by decide, by decide, hall.2.1, hall.2.2.1⟩

end failopen

/-! ## C12: what a delivery presupposes -/

section paired

variable {σ : Type}

/-- What a delivery does presuppose in the code: when `ForwardMessage` puts the
frame on the queue of `peer`, then at the time of the call the slot opposite to
the sender's role held `peer` and that queue held fewer than 256 frames. The
sender's own slot is not looked at; when it is occupied as well, the session is
paired. -/
theorem ForwardMessage_delivered_peer (S : Store σ) (h : Hub σ) (session : SessId)
    (sender peer : ConnId) (raw : Bytes) (now : Time) (id : String) (ts : Int)
    (hdel : (h.ForwardMessage S session sender raw now id ts).2 = .delivered peer) :
    (h.sess session).PeerConn (h.conn sender).Role = some peer ∧
    (h.conn peer).Send.length < 256 ∧
    (((h.sess session).slot (h.conn sender).Role).isSome = true →
      (h.sess session).IsPaired = true) := by
  have hpeer : (h.sess session).PeerConn (h.conn sender).Role = some peer ∧
      (h.conn peer).Send.length < 256 := by
    unfold Hub.ForwardMessage at hdel
    split at hdel
    · simp at hdel
    · simp only at hdel
      split at hdel
      · simp at hdel
      · split at hdel
        · simp at hdel
        · split at hdel
          · simp at hdel
          · rename_i p hp
            split at hdel
            · rename_i hroom
              simp only [Outcome.delivered.injEq] at hdel
              subst hdel
              exact ⟨by simpa using hp, by simpa [sendCap] using hroom⟩
            · simp at hdel
  refine ⟨hpeer.1, hpeer.2, ?_⟩
  intro hown
  have hp := hpeer.1
  unfold Session.PeerConn at hp
  unfold Session.slot Session.SameRoleConn at hown
  unfold Session.IsPaired
  by_cases hr : (h.conn sender).Role = "phone"
  · simp only [hr, if_true] at hp hown
    simp [hp, hown]
  · simp only [hr, if_false] at hp hown
    simp [hp, hown]

/-- An instance: the phone forwards to agent `a1` in the paired session. -/
theorem ForwardMessage_delivered_peer_witness :
    (Takeover.authPhone.1.ForwardMessage mockStore 0 Takeover.phone Paired.raw 1000 "e" 1).2
      = .delivered Takeover.a1 ∧
    (Takeover.authPhone.1.sess 0).PeerConn (Takeover.authPhone.1.conn Takeover.phone).Role
      = some Takeover.a1 ∧
    (Takeover.authPhone.1.conn Takeover.a1).Send.length < 256 ∧
    (((Takeover.authPhone.1.sess 0).slot (Takeover.authPhone.1.conn Takeover.phone).Role).isSome
        = true →
      (Takeover.authPhone.1.sess 0).IsPaired = true) :=
  ⟨by decide,
    ForwardMessage_delivered_peer mockStore Takeover.authPhone.1 0 Takeover.phone Takeover.a1
      Paired.raw 1000 "e" 1 (by decide)⟩

/-- C12. Agent `a1`, the phone and agent `a2` authenticate for one token, so `a2`
takes the agent slot over from `a1`, whose done channel is closed while its
reader goes on. The newcomer `a2` then disconnects, which empties the agent
slot. The deposed `a1` sends a frame, and `ForwardMessage` puts it on the
phone's queue although the agent slot is empty and the session is not paired. -/
theorem deposed_sender_forwards_unpaired :
    (Deposed.afterA2Leaves.sess 0).PhoneConn = some Takeover.phone ∧
    (Deposed.afterA2Leaves.sess 0).AgentConn = none ∧
    (Deposed.afterA2Leaves.sess 0).IsPaired = false ∧
    (Deposed.afterA2Leaves.ForwardMessage mockStore 0 Takeover.a1 Paired.raw 1000 "e" 1).2
      = .delivered Takeover.phone ∧
    ((Deposed.afterA2Leaves.ForwardMessage mockStore 0 Takeover.a1 Paired.raw 1000
        "e" 1).1.conn Takeover.phone).Send
      = (Deposed.afterA2Leaves.conn Takeover.phone).Send ++ [Paired.raw] := by
  decide

end paired

/-! ## C13: the idle reaper -/

section idle

variable {σ : Type}

/-- C13. `cleanIdleSessions` deletes the table entry of a token exactly when the
session it points at has both slots empty and a last-active time that is missing
or lies more than 30 minutes before the clock reading; an entry that is kept is
unchanged and no entry appears; a session with an occupied slot is kept however
old it is; a session whose last-active is 30 minutes old or newer is kept; the
Store, the session objects, the connections and the counter are untouched. -/
theorem cleanIdleSessions_exact (h : Hub σ) (clock : String → Time) (token : String) :
    (∀ s, h.sessions token = some s →
      ((h.cleanIdleSessions clock).sessions token = none ↔
        (h.sess s).PhoneConn = none ∧ (h.sess s).AgentConn = none ∧
        ((h.sess s).LastActive = none ∨
          ∃ lastActive, (h.sess s).LastActive = some lastActive ∧
            clock token - lastActive > 30 * 60 * 1000000000))) ∧
    (∀ s, h.sessions token = some s →
      (h.cleanIdleSessions clock).sessions token = none ∨
      (h.cleanIdleSessions clock).sessions token = some s) ∧
    (h.sessions token = none → (h.cleanIdleSessions clock).sessions token = none) ∧
    (∀ s, h.sessions token = some s →
      ((h.sess s).PhoneConn ≠ none ∨ (h.sess s).AgentConn ≠ none) →
      (h.cleanIdleSessions clock).sessions token = some s) ∧
    (∀ s lastActive, h.sessions token = some s → (h.sess s).LastActive = some lastActive →
      clock token - lastActive ≤ 30 * 60 * 1000000000 →
      (h.cleanIdleSessions clock).sessions token = some s) ∧
    (h.cleanIdleSessions clock).store = h.store ∧
    (h.cleanIdleSessions clock).sess = h.sess ∧
    (h.cleanIdleSessions clock).conn = h.conn ∧
    (h.cleanIdleSessions clock).connCount = h.connCount := by
  have hidle : ∀ x : Session, x.IsIdle IdleSessionTimeout (clock token) = true ↔
      x.PhoneConn = none ∧ x.AgentConn = none ∧
      (x.LastActive = none ∨ ∃ la, x.LastActive = some la ∧
        clock token - la > 30 * 60 * 1000000000) := by
    intro x
    unfold Session.IsIdle IdleSessionTimeout
    cases hp : x.PhoneConn <;> cases ha : x.AgentConn <;> cases hl : x.LastActive <;> simp
  refine ⟨?_, ?_, ?_, ?_, ?_, rfl, rfl, rfl, rfl⟩
  · intro s hs
    simp only [Hub.cleanIdleSessions, hs]
    rw [← hidle]
    by_cases hi : (h.sess s).IsIdle IdleSessionTimeout (clock token) = true <;> simp [hi]
  · intro s hs
    simp only [Hub.cleanIdleSessions, hs]
    by_cases hi : (h.sess s).IsIdle IdleSessionTimeout (clock token) = true <;> simp [hi]
  · intro hn
    simp [Hub.cleanIdleSessions, hn]
  · intro s hs hocc
    have hi : ¬ (h.sess s).IsIdle IdleSessionTimeout (clock token) = true := by
      rw [hidle]; rintro ⟨h1, h2, _⟩; rcases hocc with h | h <;> contradiction
    simp [Hub.cleanIdleSessions, hs, hi]
  · intro s la hs hla hle
    have hi : ¬ (h.sess s).IsIdle IdleSessionTimeout (clock token) = true := by
      rw [hidle]; rintro ⟨_, _, h3⟩
      rcases h3 with h3 | ⟨la', h3, h4⟩
      · rw [hla] at h3; exact absurd h3 (by simp)
      · rw [hla] at h3
        have hEq := Option.some.inj h3
        subst hEq
        exact absurd hle (not_le.mpr h4)
    simp [Hub.cleanIdleSessions, hs, hi]

/-- The reaper on a sample table: the idle session goes, the one with a phone
stays however old, the one that is exactly 30 minutes old stays. -/
theorem cleanIdleSessions_example :
    ((Idle.hub.cleanIdleSessions (fun _ => Idle.now)).sessions "gone" = none) ∧
    ((Idle.hub.cleanIdleSessions (fun _ => Idle.now)).sessions "busy" = some 1) ∧
    ((Idle.hub.cleanIdleSessions (fun _ => Idle.now)).sessions "fresh" = some 2) := by
  decide

end idle

/-! ## C14: creating and deleting a token -/

section tokens

variable {σ : Type}

theorem mockStore_tokenLaws : mockStore.TokenLaws where
  create_exists st t _ := by simp [mockStore]
  delete_exists st t _ := by simp [mockStore]
  delete_other st t u hne _ := by simp [mockStore, hne]
  delete_absent st t hex _ := by
    have hf : st.tokens t = false := by simpa [mockStore] using hex
    cases st with
    | mk tokens bandwidth =>
      simp only [mockStore, MockState.mk.injEq, and_true]
      funext u
      by_cases hu : u = t
      · subst hu; simpa using hf.symm
      · simp [hu]

@[simp] theorem evict_sess (h : Hub σ) (t : String) : (h.evict t).sess = h.sess := by
  unfold Hub.evict
  split
  · simp only
    split <;> split <;> rfl
  · rfl

@[simp] theorem evict_store (h : Hub σ) (t : String) : (h.evict t).store = h.store := by
  unfold Hub.evict
  split
  · simp only
    split <;> split <;> rfl
  · rfl

theorem evict_sessions (h : Hub σ) (t u : String) :
    (h.evict t).sessions u = if u = t then none else h.sessions u := by
  unfold Hub.evict
  split
  · simp only
    by_cases hu : u = t
    · subst hu; split <;> split <;> simp
    · split <;> split <;> simp [Function.update_noteq hu, hu]
  · rename_i hn
    by_cases hu : u = t
    · subst hu; simp [hn]
    · simp [hu]

theorem evict_Done (h : Hub σ) (t : String) (s : SessId) (c : ConnId)
    (hs : h.sessions t = some s)
    (hc : (h.sess s).PhoneConn = some c ∨ (h.sess s).AgentConn = some c) :
    ((h.evict t).conn c).Done = true := by
  unfold Hub.evict
  simp only [hs]
  cases hp : (h.sess s).PhoneConn with
  | none =>
    cases ha : (h.sess s).AgentConn with
    | none => rw [hp, ha] at hc; simp at hc
    | some a =>
      rw [hp, ha] at hc
      simp only [false_or, Option.some.injEq, reduceCtorEq] at hc
      subst hc
      simp [Connection.CloseDone]
  | some p =>
    cases ha : (h.sess s).AgentConn with
    | none =>
      rw [hp, ha] at hc
      simp only [or_false, Option.some.injEq, reduceCtorEq] at hc
      subst hc
      simp [Connection.CloseDone]
    | some a =>
      rw [hp, ha] at hc
      simp only [Option.some.injEq] at hc
      by_cases hca : c = a
      · subst hca; simp [Connection.CloseDone]
      · have hcp : p = c := by rcases hc with h1 | h1; exact h1; exact absurd h1.symm hca
        subst hcp
        simp [modifyConn_conn_other _ _ _ _ hca, Connection.CloseDone]

/-- C14. With a Store that keeps the token contract and does not fail, after
`DeleteToken(t)`: `TokenExists(t)` is false; the table has no entry for `t`; every
connection that was in a slot of the session of `t` has its done signal closed;
for every other token the table entry, `TokenExists` and both usages are as
before, and no session object changed; if `t` was in neither the table nor the
Store, the whole hub state is as before. And a token that `CreateToken` returned
is present in the Store. -/
theorem DeleteToken_effect (S : Store σ) (hlaws : S.TokenLaws) (h : Hub σ) (t : String)
    (hok : (h.DeleteToken S t).2 = none) :
    S.TokenExists (h.DeleteToken S t).1.store t = .ok false ∧
    (h.DeleteToken S t).1.sessions t = none ∧
    (∀ s c, h.sessions t = some s →
      ((h.sess s).PhoneConn = some c ∨ (h.sess s).AgentConn = some c) →
      ((h.DeleteToken S t).1.conn c).Done = true) ∧
    (∀ u, u ≠ t →
      (h.DeleteToken S t).1.sessions u = h.sessions u ∧
      S.TokenExists (h.DeleteToken S t).1.store u = S.TokenExists h.store u ∧
      S.GetDailyUsage (h.DeleteToken S t).1.store u = S.GetDailyUsage h.store u ∧
      S.GetMonthlyUsage (h.DeleteToken S t).1.store u = S.GetMonthlyUsage h.store u) ∧
    (h.DeleteToken S t).1.sess = h.sess ∧
    (h.sessions t = none → S.TokenExists h.store t = .ok false → (h.DeleteToken S t).1 = h) ∧
    (∀ rand nanos h' token, h.CreateToken S rand nanos = (h', .ok token) →
      S.TokenExists h'.store token = .ok true) := by
  have hok' : (S.DeleteToken h.store t).2 = none := by
    simpa [Hub.DeleteToken] using hok
  refine ⟨?_, ?_, ?_, ?_, ?_, ?_, ?_⟩
  · simpa [Hub.DeleteToken] using hlaws.delete_exists h.store t hok'
  · simp [Hub.DeleteToken, evict_sessions]
  · intro s c hs hc
    simpa [Hub.DeleteToken] using evict_Done h t s c hs hc
  · intro u hu
    refine ⟨by simp [Hub.DeleteToken, evict_sessions, hu], ?_⟩
    simpa [Hub.DeleteToken] using hlaws.delete_other h.store t u hu hok'
  · simp [Hub.DeleteToken]
  · intro hn hex
    have he : h.evict t = h := by simp [Hub.evict, hn]
    simp only [Hub.DeleteToken, he, hlaws.delete_absent h.store t hex hok']
  · intro rand nanos h' token hc
    unfold Hub.CreateToken at hc
    simp only at hc
    split at hc
    · simp at hc
    · rename_i st hst
      split at hc
      · simp at hc
      · simp only [Prod.mk.injEq, CreateResult.ok.injEq] at hc
        obtain ⟨rfl, rfl⟩ := hc
        have hn : (S.CreateToken h.store (GenerateToken rand nanos)).2 = none := by rw [hst]
        have := hlaws.create_exists h.store (GenerateToken rand nanos) hn
        rw [hst] at this
        exact this

/-- Witness for C14: the token of the takeover scenario is revoked while the
phone and `a2` are connected. -/
theorem DeleteToken_effect_witness :
    mockStore.TokenLaws ∧
    (Takeover.authA2.1.DeleteToken mockStore Takeover.token).2 = none ∧
    mockStore.TokenExists (Takeover.authA2.1.DeleteToken mockStore Takeover.token).1.store
      Takeover.token = .ok false ∧
    (Takeover.authA2.1.DeleteToken mockStore Takeover.token).1.sessions Takeover.token = none ∧
    ((Takeover.authA2.1.DeleteToken mockStore Takeover.token).1.conn Takeover.phone).Done = true ∧
    ((Takeover.authA2.1.DeleteToken mockStore Takeover.token).1.conn Takeover.a2).Done = true :=
  have hall := DeleteToken_effect mockStore mockStore_tokenLaws Takeover.authA2.1 Takeover.token
    (by decide)
  ⟨mockStore_tokenLaws, by decide, hall.1, hall.2.1,
    hall.2.2.1 0 Takeover.phone (by decide) (Or.inl (by decide)),
    hall.2.2.1 0 Takeover.a2 (by decide) (Or.inr (by decide))⟩

/-- Minting with the bytes of `Revoke.rand` on a fresh hub with an empty mock store
returns the token of the takeover scenario and leaves it in the Store. -/
theorem CreateToken_example :
    ((NewHub newMockStore).CreateToken mockStore (some Revoke.rand) 0).2
      = CreateResult.ok Takeover.token ∧
    ((NewHub newMockStore).CreateToken mockStore (some Revoke.rand) 0).1.store.tokens
      Takeover.token = true := by
  decide

end tokens

/-! ## C15: which frames readPump forwards -/

section dispatch

variable {σ : Type}

/-- C15, as amended. For a frame whose envelope decodes with type `ty`, `readPump`
hands the frame to `ForwardMessage` if and only if `ty` is one of the sixteen
listed types (`agent.list`, `agent.list.result`, `agent.create`, `agent.update`,
`agent.delete` and `agent.result` are the agent types among them) and the sender
is not a phone sending `chat.stream` or `chat.done`; the step is then exactly the
call of `ForwardMessage`. A phone sending `chat.stream` or `chat.done` gets an
`INVALID_MESSAGE` error written to its socket and the hub state is untouched.
Every type outside the list other than `ping` leaves the hub state untouched with
no reply; `ping` is answered with a pong offered to the sender's own queue. -/
theorem readPumpStep_dispatch (S : Store σ) (h : Hub σ) (session : SessId) (conn : ConnId)
    (raw : Bytes) (ty : String) (now : Time) (id : String) (ts : Int) :
    ((∃ o, (h.readPumpStep S session conn raw (some ty) now id ts).2 = .forwarded o) ↔
      ty ∈ ["chat.send", "chat.stream", "chat.done", "chat.error", "key_exchange",
        "agent.list", "agent.list.result", "agent.create", "agent.update", "agent.delete",
        "agent.result", "chat.history", "chat.history.result", "chat.tool_status",
        "memory.search", "memory.search.result"] ∧
      ¬ ((h.conn conn).Role = "phone" ∧ (ty = "chat.stream" ∨ ty = "chat.done"))) ∧
    ((∃ o, (h.readPumpStep S session conn raw (some ty) now id ts).2 = .forwarded o) →
      h.readPumpStep S session conn raw (some ty) now id ts
        = ((h.ForwardMessage S session conn raw now id ts).1,
            .forwarded (h.ForwardMessage S session conn raw now id ts).2)) ∧
    ((h.conn conn).Role = "phone" → (ty = "chat.stream" ∨ ty = "chat.done") →
      h.readPumpStep S session conn raw (some ty) now id ts
        = (h, .wsError "INVALID_MESSAGE" "Phone cannot send stream messages")) ∧
    (ty ∉ ["chat.send", "chat.stream", "chat.done", "chat.error", "key_exchange",
        "agent.list", "agent.list.result", "agent.create", "agent.update", "agent.delete",
        "agent.result", "chat.history", "chat.history.result", "chat.tool_status",
        "memory.search", "memory.search.result"] → ty ≠ "ping" →
      h.readPumpStep S session conn raw (some ty) now id ts = (h, .ignored)) ∧
    (ty = "ping" →
      h.readPumpStep S session conn raw (some ty) now id ts
        = (h.modifyConn conn (fun c => c.trySend (pongFrame id ts)), .pong)) := by
  have hlist : forwardedTypes = ["chat.send", "chat.stream", "chat.done", "chat.error",
      "key_exchange", "agent.list", "agent.list.result", "agent.create", "agent.update",
      "agent.delete", "agent.result", "chat.history", "chat.history.result",
      "chat.tool_status", "memory.search", "memory.search.result"] := rfl
  have hping : "ping" ∉ forwardedTypes := by decide
  by_cases hrej : (h.conn conn).Role = RolePhone ∧ (ty = TypeChatStream ∨ ty = TypeChatDone)
  · have hstep : h.readPumpStep S session conn raw (some ty) now id ts
        = (h, .wsError "INVALID_MESSAGE" "Phone cannot send stream messages") := by
      simp only [Hub.readPumpStep, if_pos hrej]; rfl
    have hne : ty ≠ "ping" := by
      rcases hrej.2 with h1 | h1 <;> rw [h1] <;> decide
    have hin : ty ∈ forwardedTypes := by
      rcases hrej.2 with h1 | h1 <;> rw [h1] <;> decide
    refine ⟨?_, ?_, ?_, ?_, ?_⟩
    · rw [hstep]
      constructor
      · rintro ⟨o, ho⟩; simp at ho
      · rintro ⟨_, hno⟩; exact absurd hrej hno
    · rw [hstep]; rintro ⟨o, ho⟩; simp at ho
    · intro _ _; exact hstep
    · intro hnot _; rw [← hlist] at hnot; exact absurd hin hnot
    · intro hp; exact absurd hp hne
  · by_cases hp : ty = TypePing
    · have hstep : h.readPumpStep S session conn raw (some ty) now id ts
          = (h.modifyConn conn (fun c => c.trySend (pongFrame id ts)), .pong) := by
        simp only [Hub.readPumpStep, if_neg hrej, if_pos hp]
      have hnin : ty ∉ forwardedTypes := by rw [hp]; exact hping
      refine ⟨?_, ?_, ?_, ?_, ?_⟩
      · rw [hstep]
        constructor
        · rintro ⟨o, ho⟩; simp at ho
        · rintro ⟨hin, _⟩; rw [← hlist] at hin; exact absurd hin hnin
      · rw [hstep]; rintro ⟨o, ho⟩; simp at ho
      · intro h1 h2; exact absurd ⟨h1, h2⟩ hrej
      · intro _ hne; exact absurd hp hne
      · intro _; exact hstep
    · by_cases hin : ty ∈ forwardedTypes
      · have hstep : h.readPumpStep S session conn raw (some ty) now id ts
            = ((h.ForwardMessage S session conn raw now id ts).1,
                .forwarded (h.ForwardMessage S session conn raw now id ts).2) := by
          simp only [Hub.readPumpStep, if_neg hrej, if_neg hp, if_pos hin]
        refine ⟨?_, ?_, ?_, ?_, ?_⟩
        · rw [hstep]
          constructor
          · intro _; rw [← hlist]; exact ⟨hin, hrej⟩
          · intro _; exact ⟨_, rfl⟩
        · intro _; exact hstep
        · intro h1 h2; exact absurd ⟨h1, h2⟩ hrej
        · intro hnot _; rw [← hlist] at hnot; exact absurd hin hnot
        · intro hp'; exact absurd hp' hp
      · have hstep : h.readPumpStep S session conn raw (some ty) now id ts = (h, .ignored) := by
          simp only [Hub.readPumpStep, if_neg hrej, if_neg hp, if_neg hin]
        refine ⟨?_, ?_, ?_, ?_, ?_⟩
        · rw [hstep]
          constructor
          · rintro ⟨o, ho⟩; simp at ho
          · rintro ⟨hin', _⟩; rw [← hlist] at hin'; exact absurd hin' hin
        · rw [hstep]; rintro ⟨o, ho⟩; simp at ho
        · intro h1 h2; exact absurd ⟨h1, h2⟩ hrej
        · intro _ _; exact hstep
        · intro hp'; exact absurd hp' hp

/-- C15, counterexample. The type `agent.restart` begins with `agent.`, the sender
is an agent, and `readPump` ignores the frame: nothing reaches the phone. -/
theorem readPumpStep_ignores_unlisted_agent_type :
    beginsWith "agent." "agent.restart" = true ∧
    (Takeover.authPhone.1.conn Takeover.a1).Role = "agent" ∧
    (Takeover.authPhone.1.readPumpStep mockStore 0 Takeover.a1 Paired.raw
        (some "agent.restart") 1000 "e" 1).2 = .ignored ∧
    ((Takeover.authPhone.1.readPumpStep mockStore 0 Takeover.a1 Paired.raw
        (some "agent.restart") 1000 "e" 1).1.conn Takeover.phone).Send
      = (Takeover.authPhone.1.conn Takeover.phone).Send := by
  decide

end dispatch

/-! ## C16: the burst of a fresh limiter -/

section burst

/-- An allowed call leaves `advance t` minus one token in the bucket. -/
theorem Allow_consumes_one (lim : Limiter) (t : Time) (ha : (lim.Allow t).1 = true) :
    (lim.Allow t).2.tokens = lim.advance t - tokenUnit ∧ (lim.Allow t).2.last = t := by
  unfold Limiter.Allow at ha ⊢
  by_cases hc : 1 ≤ lim.burst ∧
      (if lim.advance t - tokenUnit < 0 then -(lim.advance t - tokenUnit) / lim.perMinute
        else 0) ≤ 0
  · rw [if_pos hc]
    exact ⟨rfl, rfl⟩
  · simp only [if_neg hc] at ha
    exact absurd ha (by decide)

theorem Limiter.run_cons (lim : Limiter) (t : Time) (ts : List Time) :
    lim.run (t :: ts)
      = ((lim.Allow t).1 :: ((lim.Allow t).2.run ts).1, ((lim.Allow t).2.run ts).2) := rfl

theorem Limiter.run_nil (lim : Limiter) : lim.run [] = ([], lim) := rfl

/-- One call on a phone limiter that has answered `k` calls since `t1`. -/
theorem phone_Allow_step (k : Nat) (t1 tk t : Int) (hk1 : 1 ≤ k) (hk : k ≤ 30)
    (h1 : t1 ≤ tk) (h2 : tk ≤ t) (h3 : t ≤ t1 + 1000000000) :
    Limiter.Allow ⟨30, 30, (30 - (k : Int)) * 60000000000 + 30 * (tk - t1), tk⟩ t
      = if k < 30 then
          (true, ⟨30, 30, (30 - ((k + 1 : Nat) : Int)) * 60000000000 + 30 * (t - t1), t⟩)
        else
          (false, ⟨30, 30, (30 - (k : Int)) * 60000000000 + 30 * (tk - t1), tk⟩) := by
  have hlast : ¬ t < tk := by omega
  unfold Limiter.Allow Limiter.advance tokenUnit
  simp only [hlast, if_false]
  have hcap : ¬ ((30 - (k : Int)) * 60000000000 + 30 * (tk - t1) + (t - tk) * 30
      > 30 * (60 * 1000000000)) := by omega
  simp only [hcap, if_false]
  by_cases hlt : k < 30
  · have hnn : ¬ ((30 - (k : Int)) * 60000000000 + 30 * (tk - t1) + (t - tk) * 30
        - 60 * 1000000000 < 0) := by omega
    simp only [hnn, if_false, hlt, if_true]
    have hcond : (1 : Int) ≤ 30 ∧ (0 : Int) ≤ 0 := ⟨by omega, le_refl _⟩
    rw [if_pos hcond]
    congr 2
    push_cast
    ring
  · have hk30 : k = 30 := by omega
    subst hk30
    have hneg : (30 - ((30 : Nat) : Int)) * 60000000000 + 30 * (tk - t1) + (t - tk) * 30
        - 60 * 1000000000 < 0 := by omega
    simp only [hneg, if_true, hlt, if_false]
    have hwait : ¬ ((1 : Int) ≤ 30 ∧
        -((30 - ((30 : Nat) : Int)) * 60000000000 + 30 * (tk - t1) + (t - tk) * 30
          - 60 * 1000000000) / 30 ≤ 0) := by
      rintro ⟨_, hw⟩
      omega
    rw [if_neg hwait]

/-- The first call on a fresh phone limiter. -/
theorem phone_Allow_first (t : Int) :
    NewPhoneLimiter.Allow t = (true, ⟨30, 30, (30 - ((1 : Nat) : Int)) * 60000000000 + 30 * (t - t), t⟩) := by
  unfold NewPhoneLimiter NewLimiter PhoneMessagesPerMinute Limiter.Allow Limiter.advance tokenUnit
  simp only
  by_cases hneg : t < 0
  · simp only [hneg, if_true, sub_self, zero_mul, add_zero, gt_iff_lt, lt_self_iff_false,
      if_false]
    norm_num
  · simp only [hneg, if_false, sub_zero]
    by_cases hcap : 30 * (60 * 1000000000) + t * 30 > 30 * (60 * 1000000000)
    · simp only [hcap, if_true]; norm_num
    · have ht : t = 0 := by omega
      subst ht
      norm_num

theorem phone_run (ts : List Time) :
    ∀ (k : Nat) (t1 tk : Int), 1 ≤ k → k ≤ 30 → ts.length = 31 - k →
      List.Chain (· ≤ ·) tk ts → (∀ t ∈ ts, t ≤ t1 + 1000000000) → t1 ≤ tk →
      (Limiter.run ⟨30, 30, (30 - (k : Int)) * 60000000000 + 30 * (tk - t1), tk⟩ ts).1
        = List.replicate (30 - k) true ++ [false] := by
  induction ts with
  | nil => intro k t1 tk _ hk hlen; simp at hlen; omega
  | cons t rest ih =>
    intro k t1 tk hk1 hk hlen hch hspan h1
    have h2 : tk ≤ t := (List.chain_cons.mp hch).1
    have hch' : List.Chain (· ≤ ·) t rest := (List.chain_cons.mp hch).2
    have h3 : t ≤ t1 + 1000000000 := hspan t (List.mem_cons_self _ _)
    have hstep := phone_Allow_step k t1 tk t hk1 hk h1 h2 h3
    simp only [Limiter.run, hstep]
    by_cases hlt : k < 30
    · simp only [hlt, if_true]
      have hlen' : rest.length = 31 - (k + 1) := by simp at hlen; omega
      rw [ih (k + 1) t1 t (by omega) (by omega) hlen' hch'
        (fun u hu => hspan u (List.mem_cons_of_mem _ hu)) (by omega)]
      have : 30 - k = (30 - (k + 1)) + 1 := by omega
      rw [this, List.replicate_succ]
      rfl
    · have hk30 : k = 30 := by omega
      subst hk30
      have hnil : rest = [] := by
        apply List.eq_nil_of_length_eq_zero
        simp only [List.length_cons] at hlen
        omega
      subst hnil
      simp [Limiter.run]

/-- One call on an agent limiter that has answered `k` calls at the instant `t`. -/
theorem agent_Allow_step (k : Nat) (t : Int) (hk : k ≤ 120) :
    Limiter.Allow ⟨120, 120, (120 - (k : Int)) * 60000000000, t⟩ t
      = if k < 120 then (true, ⟨120, 120, (120 - ((k + 1 : Nat) : Int)) * 60000000000, t⟩)
        else (false, ⟨120, 120, (120 - (k : Int)) * 60000000000, t⟩) := by
  have hlast : ¬ t < t := lt_irrefl t
  unfold Limiter.Allow Limiter.advance tokenUnit
  simp only [hlast, if_false]
  have hcap : ¬ ((120 - (k : Int)) * 60000000000 + (t - t) * 120
      > 120 * (60 * 1000000000)) := by omega
  simp only [hcap, if_false]
  by_cases hlt : k < 120
  · have hnn : ¬ ((120 - (k : Int)) * 60000000000 + (t - t) * 120
        - 60 * 1000000000 < 0) := by omega
    simp only [hnn, if_false, hlt, if_true]
    have hcond : (1 : Int) ≤ 120 ∧ (0 : Int) ≤ 0 := ⟨by omega, le_refl _⟩
    rw [if_pos hcond]
    have htok : (120 - (k : Int)) * 60000000000 + (t - t) * 120 - 60 * 1000000000
        = (120 - ((k + 1 : Nat) : Int)) * 60000000000 := by push_cast; ring
    rw [htok]
  · have hk' : k = 120 := by omega
    subst hk'
    have hneg : (120 - ((120 : Nat) : Int)) * 60000000000 + (t - t) * 120
        - 60 * 1000000000 < 0 := by omega
    simp only [hneg, if_true, hlt, if_false]
    have hwait : ¬ ((1 : Int) ≤ 120 ∧
        -((120 - ((120 : Nat) : Int)) * 60000000000 + (t - t) * 120
          - 60 * 1000000000) / 120 ≤ 0) := by
      rintro ⟨_, hw⟩
      omega
    rw [if_neg hwait]

/-- The first call on a fresh agent limiter. -/
theorem agent_Allow_first (t : Int) :
    NewAgentLimiter.Allow t = (true, ⟨120, 120, (120 - ((1 : Nat) : Int)) * 60000000000, t⟩) := by
  unfold NewAgentLimiter NewLimiter AgentMessagesPerMinute Limiter.Allow Limiter.advance tokenUnit
  simp only
  by_cases hneg : t < 0
  · simp only [hneg, if_true, sub_self, zero_mul, add_zero, gt_iff_lt, lt_self_iff_false,
      if_false]
    norm_num
  · simp only [hneg, if_false, sub_zero]
    by_cases hcap : 120 * (60 * 1000000000) + t * 120 > 120 * (60 * 1000000000)
    · simp only [hcap, if_true]; norm_num
    · have ht : t = 0 := by omega
      subst ht
      norm_num

theorem agent_run (t : Int) :
    ∀ (n k : Nat), k ≤ 120 → n = 121 - k →
      (Limiter.run ⟨120, 120, (120 - (k : Int)) * 60000000000, t⟩ (List.replicate n t)).1
        = List.replicate (120 - k) true ++ [false] := by
  intro n
  induction n with
  | zero => intro k hk hn; omega
  | succ n ih =>
    intro k hk hn
    rw [List.replicate_succ, Limiter.run_cons, agent_Allow_step k t hk]
    by_cases hlt : k < 120
    · simp only [hlt, if_true]
      rw [ih (k + 1) (by omega) (by omega)]
      have : 120 - k = (120 - (k + 1)) + 1 := by omega
      rw [this, List.replicate_succ]
      rfl
    · have hk' : k = 120 := by omega
      subst hk'
      have hn0 : n = 0 := by omega
      subst hn0
      simp [Limiter.run_nil]

/-- C16. On a fresh phone limiter, 31 calls at non-decreasing clock readings that
lie within one second of each other are answered: the first 30 allowed, the 31st
denied. On a fresh agent limiter, 121 calls at one instant are answered: the
first 120 allowed, the 121st denied. Every allowed call leaves the bucket with
exactly one token less than it held at the time of the call. -/
theorem limiter_burst :
    (∀ ts : List Time, ts.length = 31 → ts.Chain' (· ≤ ·) →
      (∀ t ∈ ts, ∀ u ∈ ts, t - u ≤ 1000000000) →
      (NewPhoneLimiter.run ts).1 = List.replicate 30 true ++ [false]) ∧
    (∀ t : Time,
      (NewAgentLimiter.run (List.replicate 121 t)).1 = List.replicate 120 true ++ [false]) ∧
    (∀ (lim : Limiter) (t : Time), (lim.Allow t).1 = true →
      (lim.Allow t).2.tokens = lim.advance t - tokenUnit) := by
  refine ⟨?_, ?_, fun lim t ha => (Allow_consumes_one lim t ha).1⟩
  · intro ts hlen hch hspan
    cases ts with
    | nil => simp at hlen
    | cons t1 rest =>
      simp only [Limiter.run, phone_Allow_first]
      have hlen' : rest.length = 31 - 1 := by simp at hlen; omega
      have hch' : List.Chain (· ≤ ·) t1 rest := hch
      have hspan' : ∀ t ∈ rest, t ≤ t1 + 1000000000 := by
        intro t ht
        have := hspan t (List.mem_cons_of_mem _ ht) t1 (List.mem_cons_self _ _)
        linarith
      have := phone_run rest 1 t1 t1 (le_refl _) (by omega) hlen' hch' hspan' (le_refl _)
      rw [this]
      rfl
  · intro t
    have hrep : List.replicate 121 t = t :: List.replicate 120 t := rfl
    rw [hrep, Limiter.run_cons, agent_Allow_first]
    simp only
    rw [agent_run t 120 1 (by omega) (by omega)]
    rfl

end burst

/-! ## C19: the shape of an identifier -/

section ident

theorem hexDigit_mem (n : Nat) : hexDigit n ∈ "0123456789abcdef".toList := by
  unfold hexDigit
  by_cases h : n < 16
  · interval_cases n <;> decide
  · have : "0123456789abcdef".toList.length ≤ n := by
      have : "0123456789abcdef".toList.length = 16 := by decide
      omega
    rw [List.getD_eq_default _ _ this]
    decide

theorem hexDigit_ne_dash (n : Nat) : hexDigit n ≠ '-' := by
  intro h
  have := hexDigit_mem n
  rw [h] at this
  exact absurd this (by decide)

theorem hexDigit_inj (m n : Nat) (hm : m < 16) (hn : n < 16) (h : hexDigit m = hexDigit n) :
    m = n := by
  unfold hexDigit at h
  interval_cases m <;> interval_cases n <;> first | rfl | (exact absurd h (by decide))

theorem hexByte_inj (a b : UInt8) (h : hexByte a = hexByte b) : a = b := by
  unfold hexByte at h
  simp only [List.cons.injEq, and_true] at h
  have ha : a.toNat < 256 := by have := a.toNat_lt; omega
  have hb : b.toNat < 256 := by have := b.toNat_lt; omega
  have h1 := hexDigit_inj _ _ (by omega) (by omega) h.1
  have h2 := hexDigit_inj _ _ (Nat.mod_lt _ (by decide)) (Nat.mod_lt _ (by decide)) h.2
  have : a.toNat = b.toNat := by omega
  exact UInt8.ext this

theorem filter_hexByte (b : UInt8) (rest : List Char) :
    (hexByte b ++ rest).filter (fun c => c ≠ '-')
      = hexByte b ++ rest.filter (fun c => c ≠ '-') := by
  simp [hexByte, List.filter_cons, hexDigit_ne_dash]

theorem filter_dash (rest : List Char) :
    (['-'] ++ rest).filter (fun c => c ≠ '-') = rest.filter (fun c => c ≠ '-') := by
  simp [List.filter_cons]

theorem hexByte_append_inj (a b : UInt8) (r r' : List Char)
    (h : hexByte a ++ r = hexByte b ++ r') : a = b ∧ r = r' := by
  simp only [hexByte, List.cons_append, List.nil_append, List.cons.injEq] at h
  exact ⟨hexByte_inj a b (by simp [hexByte, h.1, h.2.1]), h.2.2⟩

theorem dash_append_inj (r r' : List Char) (h : ['-'] ++ r = ['-'] ++ r') : r = r' := by
  simpa using h

/-- The identifier of 16 bytes, spelled out. -/
theorem generateID_chars (b0 b1 b2 b3 b4 b5 b6 b7 b8 b9 b10 b11 b12 b13 b14 b15 : UInt8)
    (nanos : Int) :
    (generateID (some [b0, b1, b2, b3, b4, b5, b6, b7, b8, b9, b10, b11, b12, b13, b14, b15])
        nanos).toList
      = hexByte b0 ++ hexByte b1 ++ hexByte b2 ++ hexByte b3 ++ ['-']
        ++ hexByte b4 ++ hexByte b5 ++ ['-'] ++ hexByte b6 ++ hexByte b7 ++ ['-']
        ++ hexByte b8 ++ hexByte b9 ++ ['-']
        ++ hexByte b10 ++ hexByte b11 ++ hexByte b12 ++ hexByte b13 ++ hexByte b14
        ++ hexByte b15 := by
  simp [generateID, hexBytes, String.toList]

theorem bytes16 (b : Bytes) (hlen : b.length = 16) :
    ∃ b0 b1 b2 b3 b4 b5 b6 b7 b8 b9 b10 b11 b12 b13 b14 b15,
      b = [b0, b1, b2, b3, b4, b5, b6, b7, b8, b9, b10, b11, b12, b13, b14, b15] := by
  match b, hlen with
  | [b0, b1, b2, b3, b4, b5, b6, b7, b8, b9, b10, b11, b12, b13, b14, b15], _ =>
    exact ⟨_, _, _, _, _, _, _, _, _, _, _, _, _, _, _, _, rfl⟩

/-- C19. For every 16 random bytes `generateID` returns a string of 36 characters
with a hyphen exactly at the positions 8, 13, 18 and 23 and a lowercase
hexadecimal digit at every other position; without the hyphens it is the
hexadecimal encoding of the 16 bytes in order, two digits a byte; and two byte
strings with the same identifier are equal. -/
theorem generateID_shape (b : Bytes) (nanos : Int) (hlen : b.length = 16) :
    (generateID (some b) nanos).length = 36 ∧
    (∀ i, i < 36 →
      ((generateID (some b) nanos).toList[i]? = some '-' ↔ i ∈ [8, 13, 18, 23]) ∧
      (i ∉ [8, 13, 18, 23] →
        ∃ c ∈ "0123456789abcdef".toList, (generateID (some b) nanos).toList[i]? = some c)) ∧
    (generateID (some b) nanos).toList.filter (fun c => c ≠ '-') = b.flatMap hexByte ∧
    (∀ (b' : Bytes) (nanos' : Int), b'.length = 16 →
      generateID (some b) nanos = generateID (some b') nanos' → b = b') := by
  obtain ⟨b0, b1, b2, b3, b4, b5, b6, b7, b8, b9, b10, b11, b12, b13, b14, b15, rfl⟩ :=
    bytes16 b hlen
  have hchars := generateID_chars b0 b1 b2 b3 b4 b5 b6 b7 b8 b9 b10 b11 b12 b13 b14 b15 nanos
  refine ⟨?_, ?_, ?_, ?_⟩
  · rw [String.length, ← String.toList, hchars]
    simp [hexByte]
  · intro i hi
    rw [hchars]
    simp only [hexByte, List.cons_append, List.nil_append, List.singleton_append]
    have hm : ∀ n, hexDigit n ∈ ['0', '1', '2', '3', '4', '5', '6', '7', '8', '9', 'a', 'b',
        'c', 'd', 'e', 'f'] := hexDigit_mem
    simp only [List.mem_cons, List.mem_singleton, List.not_mem_nil, or_false] at hm
    have hd := hexDigit_ne_dash
    interval_cases i <;> simp [hm, hd]
  · rw [hchars]
    simp only [List.append_assoc, filter_hexByte, filter_dash, List.flatMap_cons,
      List.flatMap_nil, List.append_nil]
    have hlast : (hexByte b15).filter (fun c => c ≠ '-') = hexByte b15 := by
      simpa using filter_hexByte b15 []
    rw [hlast]
  · intro b' nanos' hlen' heq
    obtain ⟨c0, c1, c2, c3, c4, c5, c6, c7, c8, c9, c10, c11, c12, c13, c14, c15, rfl⟩ :=
      bytes16 b' hlen'
    have h1 := congrArg String.toList heq
    rw [hchars, generateID_chars] at h1
    simp only [List.append_assoc] at h1
    clear heq hchars
    obtain ⟨e1, h2⟩ := hexByte_append_inj _ _ _ _ h1
    obtain ⟨e2, h3⟩ := hexByte_append_inj _ _ _ _ h2
    obtain ⟨e3, h4⟩ := hexByte_append_inj _ _ _ _ h3
    obtain ⟨e4, h5⟩ := hexByte_append_inj _ _ _ _ h4
    have h6 := dash_append_inj _ _ h5
    obtain ⟨e6, h7⟩ := hexByte_append_inj _ _ _ _ h6
    obtain ⟨e7, h8⟩ := hexByte_append_inj _ _ _ _ h7
    have h9 := dash_append_inj _ _ h8
    obtain ⟨e9, h10⟩ := hexByte_append_inj _ _ _ _ h9
    obtain ⟨e10, h11⟩ := hexByte_append_inj _ _ _ _ h10
    have h12 := dash_append_inj _ _ h11
    obtain ⟨e12, h13⟩ := hexByte_append_inj _ _ _ _ h12
    obtain ⟨e13, h14⟩ := hexByte_append_inj _ _ _ _ h13
    have h15 := dash_append_inj _ _ h14
    obtain ⟨e15, h16⟩ := hexByte_append_inj _ _ _ _ h15
    obtain ⟨e16, h17⟩ := hexByte_append_inj _ _ _ _ h16
    obtain ⟨e17, h18⟩ := hexByte_append_inj _ _ _ _ h17
    obtain ⟨e18, h19⟩ := hexByte_append_inj _ _ _ _ h18
    obtain ⟨e19, h20⟩ := hexByte_append_inj _ _ _ _ h19
    have hl : hexByte b15 ++ [] = hexByte c15 ++ [] := by simpa using h20
    obtain ⟨el, _⟩ := hexByte_append_inj _ _ _ _ hl
    simp only [*]

/-- Witness for C19: the identifier of sixteen sample bytes. -/
theorem generateID_shape_witness :
    Revoke.rand.length = 16 ∧
    generateID (some Revoke.rand) 0 = "3f9a1c0e-5b7d-2a44-86c0-d1e2f3a4b5c6" ∧
    (generateID (some Revoke.rand) 0).length = 36 :=
  ⟨by decide, by decide, (generateID_shape Revoke.rand 0 (by decide)).1⟩

end ident

/-! ## C20: five registrations per hour and address -/

section reglimit

theorem filter_cut (A : List Time) (c d : Int) (hcd : c ≤ d) :
    (A.filter (fun t => t > c)).filter (fun t => t > d) = A.filter (fun t => t > d) := by
  rw [List.filter_filter]
  apply List.filter_congr
  intro t _
  by_cases h : t > d
  · have : t > c := lt_of_le_of_lt hcd h
    simp [h, this]
  · simp [h]

/-- Under the invariant, the entries that survive the pruning of a call at `now`
are the accepted times of the preceding window. -/
theorem Inv_valid (r : RegRun) (limit : Nat) (window : Int) (T now : Time)
    (hinv : r.Inv limit window T) (hT : T ≤ now) (ip : String) :
    (r.limiter.entries ip).filter (fun t => t > now - r.limiter.window)
      = (r.accepted ip).filter (fun t => t > now - window) := by
  obtain ⟨_, hw, hent, _, _⟩ := hinv
  obtain ⟨c, hc, he⟩ := hent ip
  rw [he, hw]
  exact filter_cut _ _ _ (by linarith)

@[simp] theorem ipAllow_limit (l : ipRateLimiter) (ip : String) (now : Time) :
    (l.Allow ip now).2.limit = l.limit := by
  unfold ipRateLimiter.Allow; simp only; split <;> rfl

@[simp] theorem ipAllow_window (l : ipRateLimiter) (ip : String) (now : Time) :
    (l.Allow ip now).2.window = l.window := by
  unfold ipRateLimiter.Allow; simp only; split <;> rfl

theorem ipAllow_fst (l : ipRateLimiter) (ip : String) (now : Time) :
    (l.Allow ip now).1 = true ↔
      ((l.entries ip).filter (fun t => t > now - l.window)).length < l.limit := by
  unfold ipRateLimiter.Allow; simp only; split
  · rename_i h
    exact ⟨fun hc => Bool.noConfusion hc, fun hlt => absurd h (Nat.not_le.mpr hlt)⟩
  · rename_i h
    exact ⟨fun _ => Nat.lt_of_not_ge h, fun _ => rfl⟩

theorem ipAllow_entries_other (l : ipRateLimiter) (ip ip' : String) (now : Time)
    (hne : ip' ≠ ip) : (l.Allow ip now).2.entries ip' = l.entries ip' := by
  unfold ipRateLimiter.Allow; simp only; split <;> simp [Function.update_noteq hne]

theorem ipAllow_entries_self (l : ipRateLimiter) (ip : String) (now : Time) :
    (l.Allow ip now).2.entries ip
      = if (l.Allow ip now).1 = true then
          (l.entries ip).filter (fun t => t > now - l.window) ++ [now]
        else (l.entries ip).filter (fun t => t > now - l.window) := by
  unfold ipRateLimiter.Allow; simp only; split <;> simp

theorem Inv_step (r : RegRun) (limit : Nat) (window : Int) (T : Time) (call : String × Time)
    (hpos : 0 < window) (hinv : r.Inv limit window T) (hT : T ≤ call.2) :
    (r.step call).Inv limit window call.2 := by
  obtain ⟨ip, now⟩ := call
  have hvalid := Inv_valid r limit window T now hinv hT ip
  obtain ⟨hl, hw, hent, hle, hcnt⟩ := hinv
  simp only at hT hvalid ⊢
  have hnow : now > now - window := by linarith
  have hother : ∀ ip', ip' ≠ ip → ∃ c : Int, c ≤ now - window ∧
      (r.step (ip, now)).limiter.entries ip'
        = ((r.step (ip, now)).accepted ip').filter (fun t => t > c) := by
    intro ip' hip
    obtain ⟨c, hc, he⟩ := hent ip'
    refine ⟨c, by linarith, ?_⟩
    simp only [RegRun.step, ipAllow_entries_other _ _ _ _ hip, he]
    split
    · rw [Function.update_noteq hip]
    · rfl
  by_cases hok : (r.limiter.Allow ip now).1 = true
  · -- recorded
    have hlt : ((r.accepted ip).filter (fun t => t > now - window)).length < limit := by
      rw [← hvalid, ← hl]; exact (ipAllow_fst _ _ _).mp hok
    refine ⟨by simp [RegRun.step, hl], by simp [RegRun.step, hw], ?_, ?_, ?_⟩
    · intro ip'
      by_cases hip : ip' = ip
      · subst hip
        refine ⟨now - window, le_refl _, ?_⟩
        simp [RegRun.step, ipAllow_entries_self, hok, hvalid, List.filter_append, hnow]
      · exact hother ip' hip
    · intro ip' t ht
      simp only [RegRun.step, hok, if_true] at ht
      by_cases hip : ip' = ip
      · subst hip
        simp only [Function.update_same, List.mem_append, List.mem_singleton] at ht
        rcases ht with ht | ht
        · exact le_trans (hle _ t ht) hT
        · rw [ht]
      · rw [Function.update_noteq hip] at ht
        exact le_trans (hle ip' t ht) hT
    · intro ip' s
      simp only [RegRun.step, hok, if_true]
      by_cases hip : ip' = ip
      · subst hip
        simp only [Function.update_same, List.filter_append]
        by_cases hin : s ≤ now ∧ now < s + window
        · have hsub : ((r.accepted ip').filter (fun t => s ≤ t ∧ t < s + window)).length
              ≤ ((r.accepted ip').filter (fun t => t > now - window)).length := by
            apply List.Sublist.length_le
            apply List.monotone_filter_right
            intro t ht
            simp only [decide_eq_true_eq] at ht ⊢
            linarith [ht.1, hin.2]
          simp only [List.filter_cons, hin, decide_True, if_true, List.filter_nil,
            List.length_append, List.length_singleton, and_self]
          omega
        · have := hcnt ip' s
          simp only [List.filter_cons, hin, decide_False, List.filter_nil,
            List.length_append, List.length_nil, add_zero]
          simpa using this
      · rw [Function.update_noteq hip]
        exact hcnt ip' s
  · -- refused
    refine ⟨by simp [RegRun.step, hl], by simp [RegRun.step, hw], ?_, ?_, ?_⟩
    · intro ip'
      by_cases hip : ip' = ip
      · subst hip
        refine ⟨now - window, le_refl _, ?_⟩
        simp [RegRun.step, ipAllow_entries_self, hok, hvalid]
      · exact hother ip' hip
    · intro ip' t ht
      simp only [RegRun.step, hok] at ht
      exact le_trans (hle ip' t (by simpa using ht)) hT
    · intro ip' s
      simpa [RegRun.step, hok] using hcnt ip' s

theorem Inv_start (limit : Nat) (window : Int) (T : Time) :
    (RegRun.start (newIPRateLimiter limit window)).Inv limit window T :=
  ⟨rfl, rfl,
    fun _ => ⟨T - window, le_refl _, by simp [RegRun.start, newIPRateLimiter]⟩,
    fun _ t ht => by simp [RegRun.start] at ht,
    fun _ _ => by simp [RegRun.start]⟩

theorem Inv_exec (limit : Nat) (window : Int) (hpos : 0 < window)
    (calls : List (String × Time)) :
    ∀ (r : RegRun) (T : Time), r.Inv limit window T →
      List.Chain (· ≤ ·) T (calls.map Prod.snd) →
      ∃ T', (r.exec calls).Inv limit window T' ∧
        (T' = T ∨ T' ∈ calls.map Prod.snd) := by
  induction calls with
  | nil => intro r T hinv _; exact ⟨T, hinv, Or.inl rfl⟩
  | cons c cs ih =>
    intro r T hinv hch
    simp only [List.map_cons, List.chain_cons] at hch
    have hstep := Inv_step r limit window T c hpos hinv hch.1
    obtain ⟨T', hT', hmem⟩ := ih (r.step c) c.2 hstep hch.2
    refine ⟨T', hT', Or.inr ?_⟩
    rcases hmem with h | h
    · rw [h]; simp
    · simp [h]

/-- The registration limiter after any calls at non-decreasing times satisfies the
invariant at a time that is no later than any bound of the call times. -/
theorem registrations_Inv (calls : List (String × Time))
    (hmono : (calls.map Prod.snd).Chain' (· ≤ ·)) (now : Time)
    (hnow : ∀ t ∈ calls.map Prod.snd, t ≤ now) :
    ∃ T, T ≤ now ∧ (registrations calls).Inv 5 hour T := by
  have hpos : (0 : Int) < hour := by unfold hour; norm_num
  cases calls with
  | nil => exact ⟨now, le_refl _, Inv_start 5 hour now⟩
  | cons c cs =>
    have hch : List.Chain (· ≤ ·) c.2 ((c :: cs).map Prod.snd) := by
      simp only [List.map_cons, List.chain_cons]
      exact ⟨le_refl _, hmono⟩
    obtain ⟨T', hT', hmem⟩ := Inv_exec 5 hour hpos (c :: cs) (RegRun.start regLimiter) c.2
      (Inv_start 5 hour c.2) hch
    refine ⟨T', ?_, hT'⟩
    rcases hmem with h | h
    · rw [h]; exact hnow _ (by simp)
    · exact hnow _ h

theorem exists_time_bound (ts : List Time) : ∃ now : Time, ∀ t ∈ ts, t ≤ now := by
  induction ts with
  | nil => exact ⟨0, by simp⟩
  | cons a rest ih =>
    obtain ⟨m, hm⟩ := ih
    refine ⟨max a m, ?_⟩
    intro t ht
    rcases List.mem_cons.mp ht with h | h
    · rw [h]; exact le_max_left _ _
    · exact le_trans (hm t h) (le_max_right _ _)

/-- C20. Start the registration limiter (limit 5, window one hour) fresh and make
any calls of `Allow` at non-decreasing clock readings. For every address, no
window of one hour `[s, s + 1h)` holds more than 5 accepted calls; a further call
at a reading not before the others returns true exactly when fewer than 5
accepted calls of that address lie in the preceding hour `(now - 1h, now]`; the
limiter records accepted calls only, and a refused call merely drops expired
entries; a call for one address changes neither the entries nor the next answer
of another address. -/
theorem registration_limit (calls : List (String × Time))
    (hmono : (calls.map Prod.snd).Chain' (· ≤ ·)) :
    (∀ (ip : String) (s : Int),
      (((registrations calls).accepted ip).filter
        (fun t => s ≤ t ∧ t < s + 3600 * 1000000000)).length ≤ 5) ∧
    (∀ (ip : String) (now : Time), (∀ t ∈ calls.map Prod.snd, t ≤ now) →
      (((registrations calls).limiter.Allow ip now).1 = true ↔
        (((registrations calls).accepted ip).filter
          (fun t => t > now - 3600 * 1000000000)).length < 5)) ∧
    (∀ (ip : String), ∀ t ∈ (registrations calls).limiter.entries ip,
      t ∈ (registrations calls).accepted ip) ∧
    (∀ (l : ipRateLimiter) (ip : String) (now : Time), (l.Allow ip now).1 = false →
      (l.Allow ip now).2.entries ip = (l.entries ip).filter (fun t => t > now - l.window)) ∧
    (∀ (l : ipRateLimiter) (ip ip' : String) (now t : Time), ip' ≠ ip →
      (l.Allow ip now).2.entries ip' = l.entries ip' ∧
      ((l.Allow ip now).2.Allow ip' t).1 = (l.Allow ip' t).1) := by
  have hbound : ∃ now : Time, ∀ t ∈ calls.map Prod.snd, t ≤ now :=
    exists_time_bound _
  refine ⟨?_, ?_, ?_, ?_, ?_⟩
  · intro ip s
    obtain ⟨now, hnow⟩ := hbound
    obtain ⟨T, _, hinv⟩ := registrations_Inv calls hmono now hnow
    exact hinv.2.2.2.2 ip s
  · intro ip now hnow
    obtain ⟨T, hT, hinv⟩ := registrations_Inv calls hmono now hnow
    rw [ipAllow_fst, Inv_valid _ 5 hour T now hinv hT ip, hinv.1]
    rfl
  · intro ip t ht
    obtain ⟨now, hnow⟩ := hbound
    obtain ⟨T, _, hinv⟩ := registrations_Inv calls hmono now hnow
    obtain ⟨c, _, he⟩ := hinv.2.2.1 ip
    rw [he] at ht
    exact (List.mem_filter.mp ht).1
  · intro l ip now hden
    rw [ipAllow_entries_self]
    simp [hden]
  · intro l ip ip' now t hne
    refine ⟨ipAllow_entries_other l ip ip' now hne, ?_⟩
    have h1 := ipAllow_fst (l.Allow ip now).2 ip' t
    have h2 := ipAllow_fst l ip' t
    rw [ipAllow_entries_other l ip ip' now hne, ipAllow_window, ipAllow_limit] at h1
    cases hb : (l.Allow ip' t).1 <;> cases hb' : ((l.Allow ip now).2.Allow ip' t).1
    · rfl
    · rw [hb'] at h1; rw [hb] at h2
      exact absurd (h2.mpr (h1.mp rfl)) (by decide)
    · rw [hb'] at h1; rw [hb] at h2
      exact absurd (h1.mpr (h2.mp rfl)) (by decide)
    · rfl

/-- Witness for C20: the sixth call of the first address is refused, the other
address is served, and the first address is served again an hour after its first
call. -/
theorem registration_limit_witness :
    (Burst.calls.map Prod.snd).Chain' (· ≤ ·) ∧
    (registrations Burst.calls).accepted "10.0.0.1" = [0, 1, 2, 3, 4, 3600 * 1000000000] ∧
    (registrations Burst.calls).accepted "10.0.0.2" = [6] ∧
    (∀ (ip : String) (s : Int),
      (((registrations Burst.calls).accepted ip).filter
        (fun t => s ≤ t ∧ t < s + 3600 * 1000000000)).length ≤ 5) :=
  have hmono : (Burst.calls.map Prod.snd).Chain' (· ≤ ·) := by
    simp [Burst.calls]
  ⟨hmono, by decide, by decide, (registration_limit Burst.calls hmono).1⟩

end reglimit

/-! ## encoding/json: what the scanner and the decoder read of written text -/

theorem strBytes_append (a b : String) : strBytes (a ++ b) = strBytes a ++ strBytes b := by
  simp [strBytes, String.toList]

theorem strBytes_mk (l : List Char) : strBytes (String.mk l) = l.flatMap String.utf8EncodeChar := by
  simp [strBytes, String.toList]

theorem u8_eq {a b : UInt8} : a = b ↔ a.toNat = b.toNat := ⟨fun h => h ▸ rfl, UInt8.ext⟩

theorem shr6 (v : UInt32) : (v >>> 6).toNat = v.toNat / 64 := by
  show (v.toBitVec >>> (UInt32.mod 6 32).toBitVec).toNat = _
  have : (UInt32.mod 6 32).toBitVec = 6#32 := by decide
  rw [this]
  simp [Nat.shiftRight_eq_div_pow, UInt32.toNat]

theorem shr12 (v : UInt32) : (v >>> 12).toNat = v.toNat / 4096 := by
  show (v.toBitVec >>> (UInt32.mod 12 32).toBitVec).toNat = _
  have : (UInt32.mod 12 32).toBitVec = 12#32 := by decide
  rw [this]
  simp [Nat.shiftRight_eq_div_pow, UInt32.toNat]

theorem shr18 (v : UInt32) : (v >>> 18).toNat = v.toNat / 262144 := by
  show (v.toBitVec >>> (UInt32.mod 18 32).toBitVec).toNat = _
  have : (UInt32.mod 18 32).toBitVec = 18#32 := by decide
  rw [this]
  simp [Nat.shiftRight_eq_div_pow, UInt32.toNat]

theorem mask_cont (x : UInt8) : (x &&& 0x3f ||| 0x80).toNat = 128 + x.toNat % 64 := by
  rcases x with ⟨n⟩
  revert n
  decide

theorem mask_lead2 (x : UInt8) : (x &&& 0x1f ||| 0xc0).toNat = 192 + x.toNat % 32 := by
  rcases x with ⟨n⟩
  revert n
  decide

theorem mask_lead3 (x : UInt8) : (x &&& 0x0f ||| 0xe0).toNat = 224 + x.toNat % 16 := by
  rcases x with ⟨n⟩
  revert n
  decide

theorem mask_lead4 (x : UInt8) : (x &&& 0x07 ||| 0xf0).toNat = 240 + x.toNat % 8 := by
  rcases x with ⟨n⟩
  revert n
  decide

theorem u32_le_lit (v : UInt32) (n : Nat) (h : n < 4294967296) :
    v ≤ UInt32.ofNat n ↔ v.toNat ≤ n := by
  show v.toNat ≤ (UInt32.ofNat n).toNat ↔ _
  rw [UInt32.toNat_ofNat_of_lt h]

/-- The UTF-8 encoding of a character, by the number of its bytes. -/
theorem utf8_cases (c : Char) :
    (c.toNat < 128 ∧ ∃ b0 : UInt8, String.utf8EncodeChar c = [b0] ∧ b0.toNat = c.toNat) ∨
    (128 ≤ c.toNat ∧ c.toNat < 2048 ∧ ∃ b0 b1 : UInt8, String.utf8EncodeChar c = [b0, b1] ∧
        b0.toNat = 192 + c.toNat / 64 % 32 ∧ b1.toNat = 128 + c.toNat % 64) ∨
    (2048 ≤ c.toNat ∧ c.toNat < 65536 ∧ ∃ b0 b1 b2 : UInt8,
        String.utf8EncodeChar c = [b0, b1, b2] ∧
        b0.toNat = 224 + c.toNat / 4096 % 16 ∧ b1.toNat = 128 + c.toNat / 64 % 64 ∧
        b2.toNat = 128 + c.toNat % 64) ∨
    (65536 ≤ c.toNat ∧ ∃ b0 b1 b2 b3 : UInt8,
        String.utf8EncodeChar c = [b0, b1, b2, b3] ∧
        b0.toNat = 240 + c.toNat / 262144 % 8 ∧ b1.toNat = 128 + c.toNat / 4096 % 64 ∧
        b2.toNat = 128 + c.toNat / 64 % 64 ∧ b3.toNat = 128 + c.toNat % 64) := by
  have h7f : c.val ≤ 0x7f ↔ c.toNat ≤ 127 := u32_le_lit c.val 127 (by decide)
  have h7ff : c.val ≤ 0x7ff ↔ c.toNat ≤ 2047 := u32_le_lit c.val 2047 (by decide)
  have hffff : c.val ≤ 0xffff ↔ c.toNat ≤ 65535 := u32_le_lit c.val 65535 (by decide)
  have e0 : c.val.toUInt8.toNat = c.toNat % 256 := rfl
  have e6 : (c.val >>> 6).toUInt8.toNat = c.toNat / 64 % 256 := by
    rw [UInt32.toUInt8_toNat, shr6]; rfl
  have e12 : (c.val >>> 12).toUInt8.toNat = c.toNat / 4096 % 256 := by
    rw [UInt32.toUInt8_toNat, shr12]; rfl
  have e18 : (c.val >>> 18).toUInt8.toNat = c.toNat / 262144 % 256 := by
    rw [UInt32.toUInt8_toNat, shr18]; rfl
  by_cases h1 : c.toNat ≤ 127
  · left
    have henc : String.utf8EncodeChar c = [c.val.toUInt8] := by
      simp only [String.utf8EncodeChar, h7f.mpr h1, if_true]
    exact ⟨by omega, _, henc, by rw [e0]; omega⟩
  · right
    by_cases h2 : c.toNat ≤ 2047
    · left
      have henc : String.utf8EncodeChar c
          = [(c.val >>> 6).toUInt8 &&& 0x1f ||| 0xc0, c.val.toUInt8 &&& 0x3f ||| 0x80] := by
        simp only [String.utf8EncodeChar, mt h7f.mp h1, h7ff.mpr h2, if_true, if_false]
      exact ⟨by omega, by omega, _, _, henc, by rw [mask_lead2, e6]; omega,
        by rw [mask_cont, e0]; omega⟩
    · right
      by_cases h3 : c.toNat ≤ 65535
      · left
        have henc : String.utf8EncodeChar c
            = [(c.val >>> 12).toUInt8 &&& 0x0f ||| 0xe0, (c.val >>> 6).toUInt8 &&& 0x3f ||| 0x80,
                c.val.toUInt8 &&& 0x3f ||| 0x80] := by
          simp only [String.utf8EncodeChar, mt h7f.mp h1, mt h7ff.mp h2, hffff.mpr h3, if_true,
            if_false]
        exact ⟨by omega, by omega, _, _, _, henc, by rw [mask_lead3, e12]; omega,
          by rw [mask_cont, e6]; omega, by rw [mask_cont, e0]; omega⟩
      · right
        have henc : String.utf8EncodeChar c
            = [(c.val >>> 18).toUInt8 &&& 0x07 ||| 0xf0, (c.val >>> 12).toUInt8 &&& 0x3f ||| 0x80,
                (c.val >>> 6).toUInt8 &&& 0x3f ||| 0x80, c.val.toUInt8 &&& 0x3f ||| 0x80] := by
          simp only [String.utf8EncodeChar, mt h7f.mp h1, mt h7ff.mp h2, mt hffff.mp h3, if_false]
        exact ⟨by omega, _, _, _, _, henc, by rw [mask_lead4, e18]; omega,
          by rw [mask_cont, e12]; omega, by rw [mask_cont, e6]; omega,
          by rw [mask_cont, e0]; omega⟩

theorem char_range (c : Char) : c.toNat < 55296 ∨ (57343 < c.toNat ∧ c.toNat < 1114112) :=
  c.valid

theorem char_eq_of_toNat {c d : Char} (h : c.toNat = d.toNat) : c = d :=
  Char.ext (UInt32.toNat.inj h)

theorem scanString_plain (b : UInt8) (bs : Bytes) (h : plainByte b) :
    scanString 0 (b :: bs) = scanString 0 bs := by
  obtain ⟨h1, h2, h3⟩ := h
  have e1 : ¬ b = 34 := fun e => h2 (by rw [e]; rfl)
  have e2 : ¬ b = 92 := fun e => h3 (by rw [e]; rfl)
  have e3 : ¬ b < 32 := by
    intro e
    have : b.toNat < 32 := e
    omega
  simp only [scanString, e1, e2, e3, if_false]

theorem plainByte_of_ge (b : UInt8) (h : 128 ≤ b.toNat) : plainByte b :=
  ⟨by omega, by omega, by omega⟩

/-- The encoding of a character that needs no escape consists of plain bytes. -/
theorem utf8_plain (c : Char) (h1 : 32 ≤ c.toNat) (h2 : c.toNat ≠ 34) (h3 : c.toNat ≠ 92) :
    ∀ b ∈ String.utf8EncodeChar c, plainByte b := by
  rcases utf8_cases c with ⟨_, b0, he, e0⟩ | ⟨_, _, b0, b1, he, e0, e1⟩ |
      ⟨_, _, b0, b1, b2, he, e0, e1, e2⟩ | ⟨_, b0, b1, b2, b3, he, e0, e1, e2, e3⟩
  · rw [he]
    intro b hb
    simp only [List.mem_singleton] at hb
    subst hb
    exact ⟨by omega, by omega, by omega⟩
  · rw [he]
    intro b hb
    simp only [List.mem_cons, List.mem_singleton, List.not_mem_nil, or_false] at hb
    rcases hb with rfl | rfl <;> exact plainByte_of_ge _ (by omega)
  · rw [he]
    intro b hb
    simp only [List.mem_cons, List.mem_singleton, List.not_mem_nil, or_false] at hb
    rcases hb with rfl | rfl | rfl <;> exact plainByte_of_ge _ (by omega)
  · rw [he]
    intro b hb
    simp only [List.mem_cons, List.mem_singleton, List.not_mem_nil, or_false] at hb
    rcases hb with rfl | rfl | rfl | rfl <;> exact plainByte_of_ge _ (by omega)

theorem scanString_plain_run (w tail : Bytes) (h : ∀ b ∈ w, plainByte b) :
    scanString 0 (w ++ tail) = scanString 0 tail := by
  induction w with
  | nil => rfl
  | cons b bs ih =>
      rw [List.cons_append, scanString_plain b _ (h b (List.mem_cons_self _ _))]
      exact ih (fun x hx => h x (List.mem_cons_of_mem _ hx))

theorem hexDigit_bytes (j : Nat) (h : j < 16) :
    String.utf8EncodeChar (hexDigit j) = [hexNibble j] := by
  interval_cases j <;> rfl

theorem hexNibble_isHex (j : Nat) (h : j < 16) : isHexDigit (hexNibble j) = true := by
  interval_cases j <;> rfl

theorem hexNibble_val (j : Nat) (h : j < 16) : hexVal (hexNibble j) = j := by
  interval_cases j <;> rfl

/-- The shapes `jsonEscapeChar` gives to a character, in bytes: a one-letter
escape, a `\u` escape of a code point below U+10000, or the character itself. -/
theorem escape_cases (c : Char) :
    (∃ e x : UInt8, (jsonEscapeChar c).flatMap String.utf8EncodeChar = [92, e] ∧
        simpleEscape e = some x ∧ String.utf8EncodeChar c = [x]) ∨
    (∃ a b h l : UInt8, (jsonEscapeChar c).flatMap String.utf8EncodeChar = [92, 117, a, b, h, l] ∧
        isHexDigit a = true ∧ isHexDigit b = true ∧ isHexDigit h = true ∧ isHexDigit l = true ∧
        ((hexVal a * 16 + hexVal b) * 16 + hexVal h) * 16 + hexVal l = c.toNat ∧
        (c.toNat < 128 ∨ c.toNat = 8232 ∨ c.toNat = 8233)) ∨
    ((jsonEscapeChar c).flatMap String.utf8EncodeChar = String.utf8EncodeChar c ∧
        32 ≤ c.toNat ∧ c.toNat ≠ 34 ∧ c.toNat ≠ 92 ∧
        c.toNat ≠ 60 ∧ c.toNat ≠ 62 ∧ c.toNat ≠ 38 ∧ c.toNat ≠ 8232 ∧ c.toNat ≠ 8233) := by
  unfold jsonEscapeChar
  by_cases h1 : c = quoteChar ∨ c = backslashChar
  · left
    rw [if_pos h1]
    rcases h1 with rfl | rfl
    · exact ⟨34, 34, rfl, rfl, rfl⟩
    · exact ⟨92, 92, rfl, rfl, rfl⟩
  rw [if_neg h1]
  have hq : c.toNat ≠ 34 := fun h => h1 (Or.inl (char_eq_of_toNat h))
  have hb : c.toNat ≠ 92 := fun h => h1 (Or.inr (char_eq_of_toNat h))
  by_cases h2 : c.toNat = 8
  · left
    rw [if_pos h2]
    have : c = Char.ofNat 8 := char_eq_of_toNat h2
    subst this
    exact ⟨98, 8, rfl, rfl, rfl⟩
  rw [if_neg h2]
  by_cases h3 : c.toNat = 12
  · left
    rw [if_pos h3]
    have : c = Char.ofNat 12 := char_eq_of_toNat h3
    subst this
    exact ⟨102, 12, rfl, rfl, rfl⟩
  rw [if_neg h3]
  by_cases h4 : c.toNat = 10
  · left
    rw [if_pos h4]
    have : c = Char.ofNat 10 := char_eq_of_toNat h4
    subst this
    exact ⟨110, 10, rfl, rfl, rfl⟩
  rw [if_neg h4]
  by_cases h5 : c.toNat = 13
  · left
    rw [if_pos h5]
    have : c = Char.ofNat 13 := char_eq_of_toNat h5
    subst this
    exact ⟨114, 13, rfl, rfl, rfl⟩
  rw [if_neg h5]
  by_cases h6 : c.toNat = 9
  · left
    rw [if_pos h6]
    have : c = Char.ofNat 9 := char_eq_of_toNat h6
    subst this
    exact ⟨116, 9, rfl, rfl, rfl⟩
  rw [if_neg h6]
  by_cases h7 : c.toNat < 32 ∨ c = '<' ∨ c = '>' ∨ c = '&'
  · right; left
    rw [if_pos h7]
    have hlt : c.toNat < 128 := by
      rcases h7 with h | rfl | rfl | rfl
      · omega
      · decide
      · decide
      · decide
    have hhi : c.toNat / 16 < 16 := by omega
    have hlo : c.toNat % 16 < 16 := by omega
    refine ⟨48, 48, hexNibble (c.toNat / 16), hexNibble (c.toNat % 16), ?_, rfl, rfl,
      hexNibble_isHex _ hhi, hexNibble_isHex _ hlo, ?_, Or.inl hlt⟩
    · simp only [List.flatMap_cons, List.flatMap_nil, hexDigit_bytes _ hhi, hexDigit_bytes _ hlo]
      rfl
    · rw [hexNibble_val _ hhi, hexNibble_val _ hlo]
      have : hexVal 48 = 0 := rfl
      rw [this]
      omega
  rw [if_neg h7]
  by_cases h8 : c.toNat = 0x2028 ∨ c.toNat = 0x2029
  · right; left
    rw [if_pos h8]
    rcases h8 with h | h
    · have : c = Char.ofNat 0x2028 := char_eq_of_toNat h
      subst this
      exact ⟨50, 48, 50, 56, rfl, rfl, rfl, rfl, rfl, rfl, Or.inr (Or.inl rfl)⟩
    · have : c = Char.ofNat 0x2029 := char_eq_of_toNat h
      subst this
      exact ⟨50, 48, 50, 57, rfl, rfl, rfl, rfl, rfl, rfl, Or.inr (Or.inr rfl)⟩
  rw [if_neg h8]
  right; right
  refine ⟨by simp, ?_, hq, hb, ?_, ?_, ?_, ?_, ?_⟩
  · by_contra hlt
    exact h7 (Or.inl (by omega))
  · exact fun h => h7 (Or.inr (Or.inl (char_eq_of_toNat h)))
  · exact fun h => h7 (Or.inr (Or.inr (Or.inl (char_eq_of_toNat h))))
  · exact fun h => h7 (Or.inr (Or.inr (Or.inr (char_eq_of_toNat h))))
  · exact fun h => h8 (Or.inl h)
  · exact fun h => h8 (Or.inr h)

theorem simpleEscape_scan (e x : UInt8) (bs : Bytes) (h : simpleEscape e = some x) :
    scanString 1 (e :: bs) = scanString 0 bs := by
  have hs : e = 98 ∨ e = 102 ∨ e = 110 ∨ e = 114 ∨ e = 116 ∨ e = 92 ∨ e = 47 ∨ e = 34 := by
    unfold simpleEscape at h
    by_cases h1 : e = 34 ∨ e = 92 ∨ e = 47
    · rcases h1 with h1 | h1 | h1 <;> simp [h1]
    rw [if_neg h1] at h
    by_cases h2 : e = 98
    · simp [h2]
    rw [if_neg h2] at h
    by_cases h3 : e = 102
    · simp [h3]
    rw [if_neg h3] at h
    by_cases h4 : e = 110
    · simp [h4]
    rw [if_neg h4] at h
    by_cases h5 : e = 114
    · simp [h5]
    rw [if_neg h5] at h
    by_cases h6 : e = 116
    · simp [h6]
    rw [if_neg h6] at h
    exact absurd h (by simp)
  simp only [scanString, if_pos hs]

/-- The scanner passes over the escaped form of one character of a string. -/
theorem scanString_escape (c : Char) (tail : Bytes) :
    scanString 0 ((jsonEscapeChar c).flatMap String.utf8EncodeChar ++ tail)
      = scanString 0 tail := by
  rcases escape_cases c with ⟨e, x, he, hs, _⟩ | ⟨a, b, h, l, he, ha, hb, hh, hl, _, _⟩ |
      ⟨he, h1, h2, h3, _⟩
  · rw [he]
    show scanString 0 (92 :: e :: tail) = _
    have : scanString 0 (92 :: e :: tail) = scanString 1 (e :: tail) := rfl
    rw [this, simpleEscape_scan e x tail hs]
  · rw [he]
    show scanString 0 (92 :: 117 :: a :: b :: h :: l :: tail) = _
    have s1 : scanString 0 (92 :: 117 :: a :: b :: h :: l :: tail)
        = scanString 5 (a :: b :: h :: l :: tail) := rfl
    rw [s1]
    simp only [scanString, ha, hb, hh, hl, if_true]
  · rw [he]
    exact scanString_plain_run _ _ (utf8_plain c h1 h2 h3)

theorem runeLen_two (b0 b1 : UInt8) (rest : Bytes) (h0 : 194 ≤ b0.toNat) (h0' : b0.toNat ≤ 223)
    (h1 : 128 ≤ b1.toNat) (h1' : b1.toNat ≤ 191) : runeLen (b0 :: b1 :: rest) = some 2 := by
  have a1 : ¬ b0 < 194 := fun h => by have : b0.toNat < 194 := h; omega
  have a2 : b0 ≤ 223 := h0'
  have c1 : isCont b1 = true := by
    have x : (128 : UInt8) ≤ b1 := h1
    have y : b1 ≤ (191 : UInt8) := h1'
    simp [isCont, x, y]
  simp only [runeLen, a1, a2, c1, if_true, if_false]

theorem isCont_of (b : UInt8) (h : 128 ≤ b.toNat) (h2 : b.toNat ≤ 191) : isCont b = true := by
  have x : (128 : UInt8) ≤ b := h
  have y : b ≤ (191 : UInt8) := h2
  simp [isCont, x, y]

theorem runeLen_three (b0 b1 b2 : UInt8) (rest : Bytes) (h0 : 224 ≤ b0.toNat)
    (h0' : b0.toNat ≤ 239) (h1 : 128 ≤ b1.toNat) (h1' : b1.toNat ≤ 191)
    (hE0 : b0.toNat = 224 → 160 ≤ b1.toNat) (hED : b0.toNat = 237 → b1.toNat ≤ 159)
    (h2 : 128 ≤ b2.toNat) (h2' : b2.toNat ≤ 191) :
    runeLen (b0 :: b1 :: b2 :: rest) = some 3 := by
  have a1 : ¬ b0 < 194 := fun h => by have : b0.toNat < 194 := h; omega
  have a2 : ¬ b0 ≤ 223 := fun h => by have : b0.toNat ≤ 223 := h; omega
  have a3 : b0 ≤ 239 := h0'
  have c2 := isCont_of b2 h2 h2'
  have c1 := isCont_of b1 h1 h1'
  simp only [runeLen, a1, a2, a3, c2, if_true, if_false, Bool.and_true]
  by_cases e0 : b0 = 224
  · have : (160 : UInt8) ≤ b1 := hE0 (by rw [e0]; rfl)
    have y : b1 ≤ (191 : UInt8) := h1'
    simp [e0, this, y]
  · by_cases e1 : b0 = 237
    · have x : (128 : UInt8) ≤ b1 := h1
      have y : b1 ≤ (159 : UInt8) := hED (by rw [e1]; rfl)
      simp [e1, x, y]
    · simp [e0, e1, c1]

theorem runeLen_four (b0 b1 b2 b3 : UInt8) (rest : Bytes) (h0 : 240 ≤ b0.toNat)
    (h0' : b0.toNat ≤ 244) (h1 : 128 ≤ b1.toNat) (h1' : b1.toNat ≤ 191)
    (hF0 : b0.toNat = 240 → 144 ≤ b1.toNat) (hF4 : b0.toNat = 244 → b1.toNat ≤ 143)
    (h2 : 128 ≤ b2.toNat) (h2' : b2.toNat ≤ 191) (h3 : 128 ≤ b3.toNat) (h3' : b3.toNat ≤ 191) :
    runeLen (b0 :: b1 :: b2 :: b3 :: rest) = some 4 := by
  have a1 : ¬ b0 < 194 := fun h => by have : b0.toNat < 194 := h; omega
  have a2 : ¬ b0 ≤ 223 := fun h => by have : b0.toNat ≤ 223 := h; omega
  have a3 : ¬ b0 ≤ 239 := fun h => by have : b0.toNat ≤ 239 := h; omega
  have a4 : b0 ≤ 244 := h0'
  have c3 := isCont_of b3 h3 h3'
  have c2 := isCont_of b2 h2 h2'
  have c1 := isCont_of b1 h1 h1'
  simp only [runeLen, a1, a2, a3, a4, c2, c3, if_true, if_false, Bool.and_true]
  by_cases e0 : b0 = 240
  · have : (144 : UInt8) ≤ b1 := hF0 (by rw [e0]; rfl)
    have y : b1 ≤ (191 : UInt8) := h1'
    simp [e0, this, y]
  · by_cases e1 : b0 = 244
    · have x : (128 : UInt8) ≤ b1 := h1
      have y : b1 ≤ (143 : UInt8) := hF4 (by rw [e1]; rfl)
      simp [e1, x, y]
    · simp [e0, e1, c1]

theorem unquote_high (n : Nat) (b : UInt8) (bs : Bytes) (k : Nat) (h : 128 ≤ b.toNat)
    (hk : runeLen (b :: bs) = some k) :
    unquote (n + 1) (b :: bs)
      = (unquote n ((b :: bs).drop k)).map ((b :: bs).take k ++ ·) := by
  have e1 : ¬ b = 92 := fun e => by rw [e] at h; exact absurd h (by decide)
  have e2 : ¬ (b = 34 ∨ b < 32) := by
    rintro (e | e)
    · rw [e] at h; exact absurd h (by decide)
    · have : b.toNat < 32 := e
      omega
  have e3 : ¬ b < 128 := fun e => by have : b.toNat < 128 := e; omega
  simp only [unquote, e1, e2, e3, if_false, hk]

/-- The decoder copies the encoding of a character that was written without an
escape. -/
theorem unquote_plain (c : Char) (n : Nat) (tail : Bytes) (h1 : 32 ≤ c.toNat)
    (h2 : c.toNat ≠ 34) (h3 : c.toNat ≠ 92) :
    unquote (n + 1) (String.utf8EncodeChar c ++ tail)
      = (unquote n tail).map (String.utf8EncodeChar c ++ ·) := by
  have hr := char_range c
  rcases utf8_cases c with ⟨hc, b0, he, e0⟩ | ⟨hc, hc', b0, b1, he, e0, e1⟩ |
      ⟨hc, hc', b0, b1, b2, he, e0, e1, e2⟩ | ⟨hc, b0, b1, b2, b3, he, e0, e1, e2, e3⟩
  · rw [he]
    have a1 : ¬ b0 = 92 := fun e => h3 (by rw [← e0, e]; rfl)
    have a2 : ¬ (b0 = 34 ∨ b0 < 32) := by
      rintro (e | e)
      · exact h2 (by rw [← e0, e]; rfl)
      · have : b0.toNat < 32 := e
        omega
    have a3 : b0 < 128 := by
      show b0.toNat < 128
      omega
    simp only [List.singleton_append, unquote, a1, a2, a3, if_true, if_false]
    rfl
  · rw [he]
    have hk := runeLen_two b0 b1 tail (by omega) (by omega) (by omega) (by omega)
    have := unquote_high n b0 (b1 :: tail) 2 (by omega) hk
    simpa using this
  · rw [he]
    have hk := runeLen_three b0 b1 b2 tail (by omega) (by omega) (by omega) (by omega)
      (by omega) (by omega) (by omega) (by omega)
    have := unquote_high n b0 (b1 :: b2 :: tail) 3 (by omega) hk
    simpa using this
  · rw [he]
    have hk := runeLen_four b0 b1 b2 b3 tail (by omega) (by omega) (by omega) (by omega)
      (by omega) (by omega) (by omega) (by omega) (by omega) (by omega)
    have := unquote_high n b0 (b1 :: b2 :: b3 :: tail) 4 (by omega) hk
    simpa using this

theorem char_ofNat_toNat (c : Char) : Char.ofNat c.toNat = c := by
  apply char_eq_of_toNat
  have h : c.toNat.isValidChar := c.valid
  unfold Char.ofNat
  rw [dif_pos h]
  rfl

/-- The decoder reads the escaped form of one character back as its encoding. -/
theorem unquote_escape (c : Char) (n : Nat) (tail : Bytes) :
    unquote (n + 1) ((jsonEscapeChar c).flatMap String.utf8EncodeChar ++ tail)
      = (unquote n tail).map (String.utf8EncodeChar c ++ ·) := by
  rcases escape_cases c with ⟨e, x, he, hs, hx⟩ | ⟨a, b, h, l, he, ha, hb, hh, hl, hv, hc⟩ |
      ⟨he, h1, h2, h3, _⟩
  · rw [he, hx]
    have hne : ¬ e = 117 := by
      intro h
      rw [h] at hs
      have hn : simpleEscape 117 = none := rfl
      rw [hn] at hs
      cases hs
    show unquote (n + 1) (92 :: e :: tail) = _
    simp only [unquote, if_true, hne, if_false, hs]
    rfl
  · rw [he]
    show unquote (n + 1) (92 :: 117 :: a :: b :: h :: l :: tail) = _
    have hg : getu4 (a :: b :: h :: l :: tail) = some c.toNat := by
      simp only [getu4, ha, hb, hh, hl, and_self, if_true, hv]
    have hns : ¬ (0xD800 ≤ c.toNat ∧ c.toNat < 0xE000) := by omega
    simp only [unquote, if_true, hg, hns, if_false]
    rw [runeBytes, char_ofNat_toNat]
    rfl
  · rw [he]
    exact unquote_plain c n tail h1 h2 h3

theorem escBytes_cons (c : Char) (cs : List Char) :
    escBytes (c :: cs) = (jsonEscapeChar c).flatMap String.utf8EncodeChar ++ escBytes cs := by
  simp [escBytes]

theorem strBytes_jsonString (s : String) :
    strBytes (jsonString s) = 34 :: (escBytes s.toList ++ [34]) := by
  rw [jsonString, strBytes_mk]
  simp only [List.flatMap_append, List.flatMap_cons, List.flatMap_nil, List.append_nil]
  rfl

/-- The scanner reads a written string up to its closing quote. -/
theorem scanString_escBytes (cs : List Char) (rest : Bytes) :
    scanString 0 (escBytes cs ++ 34 :: rest) = some rest := by
  induction cs with
  | nil => rfl
  | cons c cs ih =>
      rw [escBytes_cons, List.append_assoc, scanString_escape, ih]

theorem utf8_length_pos (c : Char) : 0 < (String.utf8EncodeChar c).length := by
  rw [String.length_utf8EncodeChar]
  exact Char.utf8Size_pos c

theorem escape_length_pos (c : Char) :
    0 < ((jsonEscapeChar c).flatMap String.utf8EncodeChar).length := by
  rcases escape_cases c with ⟨e, x, he, _, _⟩ | ⟨a, b, h, l, he, _⟩ | ⟨he, _⟩
  · rw [he]; exact Nat.succ_pos _
  · rw [he]; exact Nat.succ_pos _
  · rw [he]; exact utf8_length_pos c

theorem escBytes_length (cs : List Char) : cs.length ≤ (escBytes cs).length := by
  induction cs with
  | nil => exact Nat.zero_le _
  | cons c cs ih =>
      rw [escBytes_cons, List.length_append, List.length_cons]
      have := escape_length_pos c
      omega

/-- The decoder reads a written string back as the bytes of the string. -/
theorem unquote_escBytes (cs : List Char) (n : Nat) (h : cs.length ≤ n) :
    unquote n (escBytes cs) = some (cs.flatMap String.utf8EncodeChar) := by
  induction cs generalizing n with
  | nil => cases n <;> rfl
  | cons c cs ih =>
      cases n with
      | zero => exact absurd h (by simp)
      | succ n =>
          rw [escBytes_cons, unquote_escape, ih n (by simpa using h)]
          rfl

theorem before_append (w rest : Bytes) (k : Nat) (x : Bytes) (hx : x.length = k) :
    before (w ++ x ++ rest) rest k = w := by
  unfold before
  have : (w ++ x ++ rest).length - rest.length - k = w.length := by
    simp only [List.length_append]
    omega
  rw [this, List.append_assoc, List.take_left]

theorem before_append0 (w rest : Bytes) : before (w ++ rest) rest 0 = w := by
  have := before_append w rest 0 [] rfl
  simpa using this

theorem digitChar_bytes (k : Nat) (h : k < 10) :
    String.utf8EncodeChar (Nat.digitChar k) = [UInt8.ofNat (48 + k)] := by
  interval_cases k <;> rfl

theorem digit_isDigit (k : Nat) (h : k < 10) : isDigit (UInt8.ofNat (48 + k)) = true := by
  interval_cases k <;> rfl

theorem digit_val (k : Nat) (h : k < 10) : (UInt8.ofNat (48 + k)).toNat - 48 = k := by
  interval_cases k <;> rfl

theorem digitsVal_append (x y : Bytes) (a : Nat) :
    digitsVal (x ++ y) a = (digitsVal x a).bind (digitsVal y) := by
  induction x generalizing a with
  | nil => rfl
  | cons b bs ih =>
      simp only [List.cons_append, digitsVal]
      by_cases h : isDigit b = true
      · simp only [h, if_true]; exact ih _
      · simp only [h, if_false]; rfl

theorem toDigitsCore_good (fuel : Nat) : ∀ (n : Nat) (acc : List Char), n < fuel →
    ∃ ds : Bytes, (Nat.toDigitsCore 10 fuel n acc).flatMap String.utf8EncodeChar
        = ds ++ acc.flatMap String.utf8EncodeChar ∧ GoodDigits n ds ∧
        (n ≠ 0 → ds.head? ≠ some 48) := by
  induction fuel with
  | zero => intro n acc h; exact absurd h (Nat.not_lt_zero _)
  | succ fuel ih =>
      intro n acc h
      have hd : n % 10 < 10 := Nat.mod_lt _ (by decide)
      by_cases h0 : n / 10 = 0
      · have hn : n < 10 := by omega
        have hm : n % 10 = n := Nat.mod_eq_of_lt hn
        refine ⟨[UInt8.ofNat (48 + n)], ?_, ⟨by simp, ?_, ?_, ?_⟩, ?_⟩
        · simp only [Nat.toDigitsCore, h0, if_true, List.flatMap_cons, hm, digitChar_bytes n hn]
        · intro b hb
          simp only [List.mem_singleton] at hb
          rw [hb]; exact digit_isDigit n hn
        · simp only [digitsVal, digit_isDigit n hn, if_true, digit_val n hn]
          simp
        · intro hh
          simp only [List.head?_cons, Option.some.injEq] at hh
          rw [hh]
        · intro hne
          interval_cases n
          · exact absurd rfl hne
          all_goals decide
      · have hlt : n / 10 < fuel := by omega
        obtain ⟨ds, he, ⟨hne, hall, hval, hz⟩, hnz⟩ := ih (n / 10) (Nat.digitChar (n % 10) :: acc) hlt
        refine ⟨ds ++ [UInt8.ofNat (48 + n % 10)], ?_, ⟨by simp, ?_, ?_, ?_⟩, ?_⟩
        · simp only [Nat.toDigitsCore, h0, if_false]
          rw [he, List.flatMap_cons, digitChar_bytes _ hd]
          simp
        · intro b hb
          rcases List.mem_append.mp hb with hb | hb
          · exact hall b hb
          · simp only [List.mem_singleton] at hb
            rw [hb]; exact digit_isDigit _ hd
        · rw [digitsVal_append, hval]
          simp only [Option.some_bind, digitsVal, digit_isDigit _ hd, if_true, digit_val _ hd]
          congr 1
          omega
        · intro hh
          exfalso
          apply hnz h0
          cases ds with
          | nil => exact absurd rfl hne
          | cons d t => simpa using hh
        · intro _ hh
          apply hnz h0
          cases ds with
          | nil => exact absurd rfl hne
          | cons d t => simpa using hh

theorem natBytes_good (n : Nat) : GoodDigits n (strBytes (toString n)) := by
  obtain ⟨ds, he, hg, _⟩ := toDigitsCore_good (n + 1) n [] (Nat.lt_succ_self n)
  have : strBytes (toString n) = ds := by
    show strBytes (Nat.repr n) = ds
    rw [Nat.repr, Nat.toDigits]
    show ((Nat.toDigitsCore 10 (n + 1) n []).asString).toList.flatMap String.utf8EncodeChar = ds
    have ha : (Nat.toDigitsCore 10 (n + 1) n []).asString.toList
        = Nat.toDigitsCore 10 (n + 1) n [] := rfl
    rw [ha, he]
    simp
  rw [this]
  exact hg

theorem skipDigits_run (t : Bytes) (c : UInt8) (rest : Bytes) (ht : ∀ b ∈ t, isDigit b = true)
    (hc : isDigit c = false) : skipDigits (t ++ c :: rest) = c :: rest := by
  induction t with
  | nil => simp [skipDigits, hc]
  | cons b bs ih =>
      have hb := ht b (List.mem_cons_self _ _)
      simp only [List.cons_append, skipDigits, hb, if_true]
      exact ih (fun x hx => ht x (List.mem_cons_of_mem _ hx))

theorem scanFrac_end (c : UInt8) (rest : Bytes) (hc : endsNumber c) :
    scanFrac (c :: rest) = some (c :: rest) := by
  obtain ⟨_, h1, h2, h3⟩ := hc
  have h4 : ¬ (c = 101 ∨ c = 69) := fun h => h.elim h2 h3
  simp only [scanFrac, h1, if_false, scanExp, h4]

theorem scanInt_digits (n : Nat) (ds : Bytes) (c : UInt8) (rest : Bytes) (hg : GoodDigits n ds)
    (hc : endsNumber c) : scanInt (ds ++ c :: rest) = some (c :: rest) := by
  obtain ⟨hne, hall, _, hz⟩ := hg
  cases ds with
  | nil => exact absurd rfl hne
  | cons d t =>
      by_cases h0 : d = 48
      · have ht : t = [] := by
          have := hz (by simp [h0])
          simp only [List.cons.injEq] at this
          exact this.2
        subst ht
        simp only [List.cons_append, List.nil_append, scanInt, h0, if_true]
        exact scanFrac_end c rest hc
      · have hd := hall d (List.mem_cons_self _ _)
        simp only [List.cons_append, scanInt, h0, if_false, hd, if_true]
        rw [skipDigits_run t c rest (fun x hx => hall x (List.mem_cons_of_mem _ hx)) hc.1]
        exact scanFrac_end c rest hc

theorem strBytes_int_nonneg (m : Nat) :
    strBytes (toString (Int.ofNat m)) = strBytes (toString m) := rfl

theorem strBytes_int_neg (m : Nat) :
    strBytes (toString (Int.negSucc m)) = 45 :: strBytes (toString (m + 1)) := by
  have : toString (Int.negSucc m) = "-" ++ toString (m + 1) := rfl
  rw [this, strBytes_append]
  rfl

/-- The decimal text of an integer: an optional minus sign and good digits. -/
theorem intBytes_cases (v : Int) :
    (0 ≤ v ∧ GoodDigits v.toNat (strBytes (toString v))) ∨
    (v < 0 ∧ ∃ ds, strBytes (toString v) = 45 :: ds ∧ GoodDigits (-v).toNat ds) := by
  cases v with
  | ofNat m =>
      left
      exact ⟨Int.ofNat_nonneg m, by rw [strBytes_int_nonneg]; exact natBytes_good m⟩
  | negSucc m =>
      right
      refine ⟨Int.negSucc_lt_zero m, _, strBytes_int_neg m, ?_⟩
      have : (-(Int.negSucc m)).toNat = m + 1 := by
        simp [Int.neg_negSucc]
      rw [this]
      exact natBytes_good (m + 1)

theorem isDigit_iff (d : UInt8) : isDigit d = true ↔ 48 ≤ d.toNat ∧ d.toNat ≤ 57 := by
  unfold isDigit
  rw [Bool.and_eq_true, decide_eq_true_iff, decide_eq_true_iff]
  exact Iff.rfl

theorem scanNumber_int (v : Int) (c : UInt8) (rest : Bytes) (hc : endsNumber c) :
    scanNumber (strBytes (toString v) ++ c :: rest) = some (c :: rest) := by
  rcases intBytes_cases v with ⟨_, hg⟩ | ⟨_, ds, he, hg⟩
  · have hs := scanInt_digits _ _ c rest hg hc
    obtain ⟨hne, hall, _, _⟩ := hg
    cases hds : strBytes (toString v) with
    | nil => exact absurd hds hne
    | cons d t =>
        rw [hds] at hs hall
        have hd := (isDigit_iff d).mp (hall d (List.mem_cons_self _ _))
        have h45 : ¬ d = 45 := fun e => by rw [e] at hd; exact absurd hd (by decide)
        simp only [List.cons_append, scanNumber, h45, if_false]
        exact hs
  · rw [he]
    simp only [List.cons_append, scanNumber, if_true]
    exact scanInt_digits _ _ c rest hg hc

/-- The scanner reads a written integer as one value. -/
theorem scan_int (k dp : Nat) (v : Int) (c : UInt8) (rest : Bytes) (hc : endsNumber c) :
    scan (k + 1) dp .value (strBytes (toString v) ++ c :: rest) = some (c :: rest) := by
  have hs := scanNumber_int v c rest hc
  have hfirst : ∃ d t, strBytes (toString v) = d :: t ∧ (d = 45 ∨ isDigit d = true) := by
    rcases intBytes_cases v with ⟨_, hne, hall, _, _⟩ | ⟨_, ds, he, _⟩
    · cases hds : strBytes (toString v) with
      | nil => exact absurd hds hne
      | cons d t =>
          rw [hds] at hall
          exact ⟨d, t, rfl, Or.inr (hall d (List.mem_cons_self _ _))⟩
    · exact ⟨45, ds, he, Or.inl rfl⟩
  obtain ⟨d, t, he, hd⟩ := hfirst
  rw [he] at hs ⊢
  have hd' : d.toNat = 45 ∨ (48 ≤ d.toNat ∧ d.toNat ≤ 57) := by
    rcases hd with h | h
    · left; rw [h]; rfl
    · right; exact (isDigit_iff d).mp h
  have n1 : ¬ d = 34 := fun e => by rw [e] at hd'; revert hd'; decide
  have n2 : ¬ d = 123 := fun e => by rw [e] at hd'; revert hd'; decide
  have n3 : ¬ d = 91 := fun e => by rw [e] at hd'; revert hd'; decide
  have n4 : ¬ d = 116 := fun e => by rw [e] at hd'; revert hd'; decide
  have n5 : ¬ d = 102 := fun e => by rw [e] at hd'; revert hd'; decide
  have n6 : ¬ d = 110 := fun e => by rw [e] at hd'; revert hd'; decide
  simp only [List.cons_append, scan, n1, n2, n3, n4, n5, n6, if_false]
  exact hs

theorem parseInt_int (v : Int) (h1 : -(2 : Int) ^ 63 ≤ v) (h2 : v < (2 : Int) ^ 63) :
    parseInt (strBytes (toString v)) = some v := by
  rcases intBytes_cases v with ⟨h0, hg⟩ | ⟨h0, ds, he, hg⟩
  · obtain ⟨hne, hall, hval, _⟩ := hg
    cases hds : strBytes (toString v) with
    | nil => exact absurd hds hne
    | cons d t =>
        rw [hds] at hall hval
        have hd := (isDigit_iff d).mp (hall d (List.mem_cons_self _ _))
        have h45 : ¬ d = 45 := fun e => by rw [e] at hd; exact absurd hd (by decide)
        have hv : Int.ofNat v.toNat = v := Int.toNat_of_nonneg h0
        simp only [parseInt, h45, if_false, hval, Option.map_some', Option.some_bind, hv, h1, h2,
          and_self, if_true]
  · obtain ⟨hne, hall, hval, _⟩ := hg
    rw [he]
    have hv : -(Int.ofNat (-v).toNat) = v := by
      have : Int.ofNat (-v).toNat = -v := Int.toNat_of_nonneg (by omega)
      rw [this]
      omega
    simp only [parseInt, if_true, hne, if_false, hval, Option.map_some', Option.some_bind, hv,
      h1, h2, and_self]

theorem decodeInt_int (old v : Int) (h1 : -(2 : Int) ^ 63 ≤ v) (h2 : v < (2 : Int) ^ 63) :
    decodeInt old (strBytes (toString v)) = some v := by
  have hp := parseInt_int v h1 h2
  have hfirst : ∃ d t, strBytes (toString v) = d :: t ∧ (d = 45 ∨ isDigit d = true) := by
    rcases intBytes_cases v with ⟨_, hne, hall, _, _⟩ | ⟨_, ds, he, _⟩
    · cases hds : strBytes (toString v) with
      | nil => exact absurd hds hne
      | cons d t =>
          rw [hds] at hall
          exact ⟨d, t, rfl, Or.inr (hall d (List.mem_cons_self _ _))⟩
    · exact ⟨45, ds, he, Or.inl rfl⟩
  obtain ⟨d, t, he, hd⟩ := hfirst
  rw [he] at hp ⊢
  have hnull : ¬ (d :: t = nullLit) := by
    intro e
    have e1 : d = 110 := by
      have := congrArg List.head? e
      simpa [nullLit] using this
    rcases hd with h | h
    · rw [e1] at h; exact absurd h (by decide)
    · rw [e1] at h; exact absurd h (by decide)
  simp only [decodeInt, hnull, if_false, hd, if_true]
  exact hp

theorem scanString_append (s : Bytes) : ∀ (inp : Bytes) (st : Nat) (r : Bytes),
    scanString st inp = some r → scanString st (inp ++ s) = some (r ++ s) := by
  intro inp
  induction inp with
  | nil => intro st r h; cases st <;> simp [scanString] at h
  | cons b bs ih =>
      intro st r h
      match st with
      | 0 =>
          simp only [scanString, List.cons_append] at h ⊢
          by_cases h1 : b = 34
          · simp only [h1, if_true] at h ⊢
            rw [Option.some.injEq] at h
            rw [h]
            rfl
          · simp only [h1, if_false] at h ⊢
            by_cases h2 : b = 92
            · simp only [h2, if_true] at h ⊢
              exact ih 1 r h
            · simp only [h2, if_false] at h ⊢
              by_cases h3 : b < 32
              · simp only [h3, if_true] at h
                cases h
              · simp only [h3, if_false] at h ⊢
                exact ih 0 r h
      | 1 =>
          simp only [scanString, List.cons_append] at h ⊢
          by_cases h1 : b = 98 ∨ b = 102 ∨ b = 110 ∨ b = 114 ∨ b = 116 ∨ b = 92 ∨ b = 47 ∨ b = 34
          · rw [if_pos h1] at h ⊢
            exact ih 0 r h
          · rw [if_neg h1] at h ⊢
            by_cases h2 : b = 117
            · rw [if_pos h2] at h ⊢
              exact ih 5 r h
            · rw [if_neg h2] at h
              cases h
      | k + 2 =>
          simp only [scanString, List.cons_append] at h ⊢
          by_cases h1 : isHexDigit b = true
          · rw [if_pos h1] at h ⊢
            exact ih _ r h
          · rw [if_neg h1] at h
            cases h

theorem scanLit_append (s : Bytes) : ∀ (lit inp r : Bytes),
    scanLit lit inp = some r → scanLit lit (inp ++ s) = some (r ++ s) := by
  intro lit
  induction lit with
  | nil =>
      intro inp r h
      simp only [scanLit, Option.some.injEq] at h ⊢
      rw [h]
  | cons l ls ih =>
      intro inp r h
      cases inp with
      | nil => simp [scanLit] at h
      | cons b bs =>
          simp only [scanLit, List.cons_append] at h ⊢
          by_cases h1 : b = l
          · rw [if_pos h1] at h ⊢
            exact ih bs r h
          · rw [if_neg h1] at h
            cases h

theorem skipDigits_append (c : UInt8) (t : Bytes) (hc : isDigit c = false) :
    ∀ inp : Bytes, skipDigits (inp ++ c :: t) = skipDigits inp ++ c :: t := by
  intro inp
  induction inp with
  | nil => simp [skipDigits, hc]
  | cons b bs ih =>
      simp only [List.cons_append, skipDigits]
      by_cases h : isDigit b = true
      · rw [if_pos h, if_pos h]; exact ih
      · rw [if_neg h, if_neg h]; rfl

theorem scanExp_append (c : UInt8) (t : Bytes) (hc : endsNumber c) (inp r : Bytes)
    (h : scanExp inp = some r) : scanExp (inp ++ c :: t) = some (r ++ c :: t) := by
  obtain ⟨hd, h46, h101, h69⟩ := hc
  have hE : ¬ (c = 101 ∨ c = 69) := fun h => h.elim h101 h69
  cases inp with
  | nil =>
      simp only [scanExp, Option.some.injEq] at h
      subst h
      simp only [List.nil_append, scanExp, hE, if_false]
  | cons e r1 =>
      simp only [List.cons_append, scanExp] at h ⊢
      by_cases h1 : e = 101 ∨ e = 69
      · rw [if_pos h1] at h ⊢
        cases r1 with
        | nil => simp at h
        | cons s u =>
            simp only [List.cons_append] at h ⊢
            by_cases h2 : s = 43 ∨ s = 45
            · rw [if_pos h2] at h ⊢
              cases u with
              | nil => simp at h
              | cons d w =>
                  simp only [List.cons_append] at h ⊢
                  by_cases h3 : isDigit d = true
                  · rw [if_pos h3] at h ⊢
                    rw [Option.some.injEq] at h
                    rw [skipDigits_append c t hd, h]
                  · rw [if_neg h3] at h
                    cases h
            · rw [if_neg h2] at h ⊢
              by_cases h3 : isDigit s = true
              · rw [if_pos h3] at h ⊢
                rw [Option.some.injEq] at h
                rw [skipDigits_append c t hd, h]
              · rw [if_neg h3] at h
                cases h
      · rw [if_neg h1] at h ⊢
        rw [Option.some.injEq] at h
        rw [← h]
        rfl

theorem scanFrac_append (c : UInt8) (t : Bytes) (hc : endsNumber c) (inp r : Bytes)
    (h : scanFrac inp = some r) : scanFrac (inp ++ c :: t) = some (r ++ c :: t) := by
  have hc' := hc
  obtain ⟨hd, h46, h101, h69⟩ := hc
  cases inp with
  | nil =>
      simp only [scanFrac, Option.some.injEq] at h
      subst h
      exact scanFrac_end c t hc'
  | cons p r1 =>
      simp only [List.cons_append, scanFrac] at h ⊢
      by_cases h1 : p = 46
      · rw [if_pos h1] at h ⊢
        cases r1 with
        | nil => simp at h
        | cons d u =>
            simp only [List.cons_append] at h ⊢
            by_cases h3 : isDigit d = true
            · rw [if_pos h3] at h ⊢
              rw [skipDigits_append c t hd]
              exact scanExp_append c t hc' _ r h
            · rw [if_neg h3] at h
              cases h
      · rw [if_neg h1] at h ⊢
        exact scanExp_append c t hc' (p :: r1) r h

theorem scanInt_append (c : UInt8) (t : Bytes) (hc : endsNumber c) (inp r : Bytes)
    (h : scanInt inp = some r) : scanInt (inp ++ c :: t) = some (r ++ c :: t) := by
  cases inp with
  | nil => simp [scanInt] at h
  | cons d r1 =>
      simp only [List.cons_append, scanInt] at h ⊢
      by_cases h1 : d = 48
      · rw [if_pos h1] at h ⊢
        exact scanFrac_append c t hc r1 r h
      · rw [if_neg h1] at h ⊢
        by_cases h2 : isDigit d = true
        · rw [if_pos h2] at h ⊢
          rw [skipDigits_append c t hc.1]
          exact scanFrac_append c t hc _ r h
        · rw [if_neg h2] at h
          cases h

theorem scanNumber_append (c : UInt8) (t : Bytes) (hc : endsNumber c) (inp r : Bytes)
    (h : scanNumber inp = some r) : scanNumber (inp ++ c :: t) = some (r ++ c :: t) := by
  cases inp with
  | nil => simp [scanNumber] at h
  | cons b bs =>
      simp only [List.cons_append, scanNumber] at h ⊢
      by_cases h1 : b = 45
      · rw [if_pos h1] at h ⊢
        exact scanInt_append c t hc bs r h
      · rw [if_neg h1] at h ⊢
        exact scanInt_append c t hc (b :: bs) r h

theorem skipSpace_append (c : UInt8) (t : Bytes) (hc : isSpace c = false) :
    ∀ inp : Bytes, skipSpace (inp ++ c :: t) = skipSpace inp ++ c :: t := by
  intro inp
  induction inp with
  | nil => simp [skipSpace, hc]
  | cons b bs ih =>
      simp only [List.cons_append, skipSpace]
      by_cases h : isSpace b = true
      · rw [if_pos h, if_pos h]; exact ih
      · rw [if_neg h, if_neg h]; rfl

theorem scan_nil (n dp : Nat) (m : ScanMode) : scan n dp m [] = none := by
  cases n <;> cases m <;> rfl

theorem scan_value_cons (n dp : Nat) (b : UInt8) (bs : Bytes) :
    scan (n + 1) dp .value (b :: bs) =
      if b = 34 then scanString 0 bs
      else if b = 123 then
        if maxNestingDepth ≤ dp then none
        else
          match skipSpace bs with
          | [] => none
          | c :: cs => if c = 125 then some cs else scan n (dp + 1) .members (c :: cs)
      else if b = 91 then
        if maxNestingDepth ≤ dp then none
        else
          match skipSpace bs with
          | [] => none
          | c :: cs => if c = 93 then some cs else scan n (dp + 1) .elems (c :: cs)
      else if b = 116 then scanLit [114, 117, 101] bs
      else if b = 102 then scanLit [97, 108, 115, 101] bs
      else if b = 110 then scanLit [117, 108, 108] bs
      else scanNumber (b :: bs) := rfl

theorem scan_elems_cons (n dp : Nat) (b : UInt8) (bs : Bytes) :
    scan (n + 1) dp .elems (b :: bs) =
      (scan n dp .value (b :: bs)).bind fun r =>
        match skipSpace r with
        | [] => none
        | c :: cs =>
            if c = 44 then scan n dp .elems (skipSpace cs)
            else if c = 93 then some cs
            else none := rfl

theorem scan_members_cons (n dp : Nat) (b : UInt8) (bs : Bytes) :
    scan (n + 1) dp .members (b :: bs) =
      if b = 34 then
        (scanString 0 bs).bind fun r1 =>
          match skipSpace r1 with
          | [] => none
          | c :: cs =>
              if c = 58 then
                (scan n dp .value (skipSpace cs)).bind fun r2 =>
                  match skipSpace r2 with
                  | [] => none
                  | d :: ds =>
                      if d = 44 then scan n dp .members (skipSpace ds)
                      else if d = 125 then some ds
                      else none
              else none
      else none := rfl

/-- Scanning a value is not disturbed by what follows it, as long as that
begins with a byte that ends a value. -/
theorem scan_append (c : UInt8) (t : Bytes) (hc : endsValue c) :
    ∀ (n dp : Nat) (m : ScanMode) (inp r : Bytes),
      scan n dp m inp = some r → scan n dp m (inp ++ c :: t) = some (r ++ c :: t) := by
  obtain ⟨hnum, hsp⟩ := hc
  intro n
  induction n with
  | zero => intro dp m inp r h; simp [scan] at h
  | succ n ih =>
      intro dp m inp r h
      cases inp with
      | nil => rw [scan_nil] at h; cases h
      | cons b bs =>
          cases m with
          | value =>
              show scan (n + 1) dp .value (b :: (bs ++ c :: t)) = some (r ++ c :: t)
              rw [scan_value_cons] at h ⊢
              by_cases h1 : b = 34
              · rw [if_pos h1] at h ⊢
                exact scanString_append _ bs 0 r h
              rw [if_neg h1] at h ⊢
              by_cases h2 : b = 123
              · rw [if_pos h2] at h ⊢
                by_cases hdp : maxNestingDepth ≤ dp
                · rw [if_pos hdp] at h; cases h
                rw [if_neg hdp] at h ⊢
                rw [skipSpace_append c t hsp]
                cases hsk : skipSpace bs with
                | nil => rw [hsk] at h; cases h
                | cons c1 cs =>
                    rw [hsk] at h
                    simp only [List.cons_append] at h ⊢
                    by_cases h3 : c1 = 125
                    · rw [if_pos h3] at h ⊢
                      rw [Option.some.injEq] at h
                      rw [h]
                    · rw [if_neg h3] at h ⊢
                      exact ih _ .members (c1 :: cs) r h
              rw [if_neg h2] at h ⊢
              by_cases h3 : b = 91
              · rw [if_pos h3] at h ⊢
                by_cases hdp : maxNestingDepth ≤ dp
                · rw [if_pos hdp] at h; cases h
                rw [if_neg hdp] at h ⊢
                rw [skipSpace_append c t hsp]
                cases hsk : skipSpace bs with
                | nil => rw [hsk] at h; cases h
                | cons c1 cs =>
                    rw [hsk] at h
                    simp only [List.cons_append] at h ⊢
                    by_cases h4 : c1 = 93
                    · rw [if_pos h4] at h ⊢
                      rw [Option.some.injEq] at h
                      rw [h]
                    · rw [if_neg h4] at h ⊢
                      exact ih _ .elems (c1 :: cs) r h
              rw [if_neg h3] at h ⊢
              by_cases h4 : b = 116
              · rw [if_pos h4] at h ⊢
                exact scanLit_append _ _ bs r h
              rw [if_neg h4] at h ⊢
              by_cases h5 : b = 102
              · rw [if_pos h5] at h ⊢
                exact scanLit_append _ _ bs r h
              rw [if_neg h5] at h ⊢
              by_cases h6 : b = 110
              · rw [if_pos h6] at h ⊢
                exact scanLit_append _ _ bs r h
              rw [if_neg h6] at h ⊢
              exact scanNumber_append c t hnum (b :: bs) r h
          | elems =>
              show scan (n + 1) dp .elems (b :: (bs ++ c :: t)) = some (r ++ c :: t)
              rw [scan_elems_cons] at h ⊢
              cases hv : scan n dp .value (b :: bs) with
              | none => rw [hv] at h; cases h
              | some r1 =>
                  rw [hv] at h
                  have hv2 := ih _ .value (b :: bs) r1 hv
                  rw [List.cons_append] at hv2
                  rw [hv2]
                  simp only [Option.some_bind] at h ⊢
                  rw [skipSpace_append c t hsp]
                  cases hsk : skipSpace r1 with
                  | nil => rw [hsk] at h; cases h
                  | cons c1 cs =>
                      rw [hsk] at h
                      simp only [List.cons_append] at h ⊢
                      by_cases h1 : c1 = 44
                      · rw [if_pos h1] at h ⊢
                        rw [skipSpace_append c t hsp]
                        exact ih _ .elems _ r h
                      · rw [if_neg h1] at h ⊢
                        by_cases h2 : c1 = 93
                        · rw [if_pos h2] at h ⊢
                          rw [Option.some.injEq] at h
                          rw [h]
                        · rw [if_neg h2] at h
                          cases h
          | members =>
              show scan (n + 1) dp .members (b :: (bs ++ c :: t)) = some (r ++ c :: t)
              rw [scan_members_cons] at h ⊢
              by_cases hq : b = 34
              · rw [if_pos hq] at h ⊢
                cases hs : scanString 0 bs with
                | none => rw [hs] at h; cases h
                | some r1 =>
                    rw [hs] at h
                    rw [scanString_append _ bs 0 r1 hs]
                    simp only [Option.some_bind] at h ⊢
                    rw [skipSpace_append c t hsp]
                    cases hsk : skipSpace r1 with
                    | nil => rw [hsk] at h; cases h
                    | cons c1 cs =>
                        rw [hsk] at h
                        simp only [List.cons_append] at h ⊢
                        by_cases h1 : c1 = 58
                        · rw [if_pos h1] at h ⊢
                          rw [skipSpace_append c t hsp]
                          cases hv : scan n dp .value (skipSpace cs) with
                          | none => rw [hv] at h; cases h
                          | some r2 =>
                              rw [hv] at h
                              rw [ih _ .value _ r2 hv]
                              simp only [Option.some_bind] at h ⊢
                              rw [skipSpace_append c t hsp]
                              cases hsk2 : skipSpace r2 with
                              | nil => rw [hsk2] at h; cases h
                              | cons d ds =>
                                  rw [hsk2] at h
                                  simp only [List.cons_append] at h ⊢
                                  by_cases h2 : d = 44
                                  · rw [if_pos h2] at h ⊢
                                    rw [skipSpace_append c t hsp]
                                    exact ih _ .members _ r h
                                  · rw [if_neg h2] at h ⊢
                                    by_cases h3 : d = 125
                                    · rw [if_pos h3] at h ⊢
                                      rw [Option.some.injEq] at h
                                      rw [h]
                                    · rw [if_neg h3] at h
                                      cases h
                        · rw [if_neg h1] at h
                          cases h
              · rw [if_neg hq] at h
                cases h

/-- More room for nested calls does not change what the scanner reads. -/
theorem scan_succ : ∀ (n dp : Nat) (m : ScanMode) (inp r : Bytes),
    scan n dp m inp = some r → scan (n + 1) dp m inp = some r := by
  intro n
  induction n with
  | zero => intro dp m inp r h; simp [scan] at h
  | succ n ih =>
      intro dp m inp r h
      cases inp with
      | nil => rw [scan_nil] at h; cases h
      | cons b bs =>
          cases m with
          | value =>
              rw [scan_value_cons] at h ⊢
              by_cases h1 : b = 34
              · rw [if_pos h1] at h ⊢; exact h
              rw [if_neg h1] at h ⊢
              by_cases h2 : b = 123
              · rw [if_pos h2] at h ⊢
                by_cases hdp : maxNestingDepth ≤ dp
                · rw [if_pos hdp] at h; cases h
                rw [if_neg hdp] at h ⊢
                cases hsk : skipSpace bs with
                | nil => rw [hsk] at h; cases h
                | cons c1 cs =>
                    rw [hsk] at h
                    simp only at h ⊢
                    by_cases h3 : c1 = 125
                    · rw [if_pos h3] at h ⊢; exact h
                    · rw [if_neg h3] at h ⊢
                      exact ih _ .members (c1 :: cs) r h
              rw [if_neg h2] at h ⊢
              by_cases h3 : b = 91
              · rw [if_pos h3] at h ⊢
                by_cases hdp : maxNestingDepth ≤ dp
                · rw [if_pos hdp] at h; cases h
                rw [if_neg hdp] at h ⊢
                cases hsk : skipSpace bs with
                | nil => rw [hsk] at h; cases h
                | cons c1 cs =>
                    rw [hsk] at h
                    simp only at h ⊢
                    by_cases h4 : c1 = 93
                    · rw [if_pos h4] at h ⊢; exact h
                    · rw [if_neg h4] at h ⊢
                      exact ih _ .elems (c1 :: cs) r h
              rw [if_neg h3] at h ⊢
              exact h
          | elems =>
              rw [scan_elems_cons] at h ⊢
              cases hv : scan n dp .value (b :: bs) with
              | none => rw [hv] at h; cases h
              | some r1 =>
                  rw [hv] at h
                  rw [ih _ .value (b :: bs) r1 hv]
                  simp only [Option.some_bind] at h ⊢
                  cases hsk : skipSpace r1 with
                  | nil => rw [hsk] at h; cases h
                  | cons c1 cs =>
                      rw [hsk] at h
                      simp only at h ⊢
                      by_cases h1 : c1 = 44
                      · rw [if_pos h1] at h ⊢
                        exact ih _ .elems _ r h
                      · rw [if_neg h1] at h ⊢
                        exact h
          | members =>
              rw [scan_members_cons] at h ⊢
              by_cases hq : b = 34
              · rw [if_pos hq] at h ⊢
                cases hs : scanString 0 bs with
                | none => rw [hs] at h; cases h
                | some r1 =>
                    rw [hs] at h
                    simp only [Option.some_bind] at h ⊢
                    cases hsk : skipSpace r1 with
                    | nil => rw [hsk] at h; cases h
                    | cons c1 cs =>
                        rw [hsk] at h
                        simp only at h ⊢
                        by_cases h1 : c1 = 58
                        · rw [if_pos h1] at h ⊢
                          cases hv : scan n dp .value (skipSpace cs) with
                          | none => rw [hv] at h; cases h
                          | some r2 =>
                              rw [hv] at h
                              rw [ih _ .value _ r2 hv]
                              simp only [Option.some_bind] at h ⊢
                              cases hsk2 : skipSpace r2 with
                              | nil => rw [hsk2] at h; cases h
                              | cons d ds =>
                                  rw [hsk2] at h
                                  simp only at h ⊢
                                  by_cases h2 : d = 44
                                  · rw [if_pos h2] at h ⊢
                                    exact ih _ .members _ r h
                                  · rw [if_neg h2] at h ⊢
                                    exact h
                        · rw [if_neg h1] at h
                          cases h
              · rw [if_neg hq] at h
                cases h

theorem scan_mono (n k dp : Nat) (m : ScanMode) (inp r : Bytes)
    (h : scan n dp m inp = some r) (hk : n ≤ k) : scan k dp m inp = some r := by
  induction hk with
  | refl => exact h
  | step _ ih => exact scan_succ _ dp m inp r ih

/-- What the scanner reads with more arrays and objects open around it, it reads
with fewer. -/
theorem scan_shallower : ∀ (n dp dq : Nat) (m : ScanMode) (inp r : Bytes), dp ≤ dq →
    scan n dq m inp = some r → scan n dp m inp = some r := by
  intro n
  induction n with
  | zero => intro dp dq m inp r _ h; simp [scan] at h
  | succ n ih =>
      intro dp dq m inp r hle h
      cases inp with
      | nil => rw [scan_nil] at h; cases h
      | cons b bs =>
          cases m with
          | value =>
              rw [scan_value_cons] at h ⊢
              by_cases h1 : b = 34
              · rw [if_pos h1] at h ⊢; exact h
              rw [if_neg h1] at h ⊢
              by_cases h2 : b = 123
              · rw [if_pos h2] at h ⊢
                by_cases hdq : maxNestingDepth ≤ dq
                · rw [if_pos hdq] at h; cases h
                rw [if_neg hdq] at h
                rw [if_neg (fun hdp => hdq (Nat.le_trans hdp hle))]
                cases hsk : skipSpace bs with
                | nil => rw [hsk] at h; cases h
                | cons c1 cs =>
                    rw [hsk] at h
                    simp only at h ⊢
                    by_cases h3 : c1 = 125
                    · rw [if_pos h3] at h ⊢; exact h
                    · rw [if_neg h3] at h ⊢
                      exact ih (dp + 1) (dq + 1) .members (c1 :: cs) r (Nat.succ_le_succ hle) h
              rw [if_neg h2] at h ⊢
              by_cases h3 : b = 91
              · rw [if_pos h3] at h ⊢
                by_cases hdq : maxNestingDepth ≤ dq
                · rw [if_pos hdq] at h; cases h
                rw [if_neg hdq] at h
                rw [if_neg (fun hdp => hdq (Nat.le_trans hdp hle))]
                cases hsk : skipSpace bs with
                | nil => rw [hsk] at h; cases h
                | cons c1 cs =>
                    rw [hsk] at h
                    simp only at h ⊢
                    by_cases h4 : c1 = 93
                    · rw [if_pos h4] at h ⊢; exact h
                    · rw [if_neg h4] at h ⊢
                      exact ih (dp + 1) (dq + 1) .elems (c1 :: cs) r (Nat.succ_le_succ hle) h
              rw [if_neg h3] at h ⊢
              exact h
          | elems =>
              rw [scan_elems_cons] at h ⊢
              cases hv : scan n dq .value (b :: bs) with
              | none => rw [hv] at h; cases h
              | some r1 =>
                  rw [hv] at h
                  rw [ih dp dq .value (b :: bs) r1 hle hv]
                  simp only [Option.some_bind] at h ⊢
                  cases hsk : skipSpace r1 with
                  | nil => rw [hsk] at h; cases h
                  | cons c1 cs =>
                      rw [hsk] at h
                      simp only at h ⊢
                      by_cases h1 : c1 = 44
                      · rw [if_pos h1] at h ⊢
                        exact ih dp dq .elems _ r hle h
                      · rw [if_neg h1] at h ⊢
                        exact h
          | members =>
              rw [scan_members_cons] at h ⊢
              by_cases hq : b = 34
              · rw [if_pos hq] at h ⊢
                cases hs : scanString 0 bs with
                | none => rw [hs] at h; cases h
                | some r1 =>
                    rw [hs] at h
                    simp only [Option.some_bind] at h ⊢
                    cases hsk : skipSpace r1 with
                    | nil => rw [hsk] at h; cases h
                    | cons c1 cs =>
                        rw [hsk] at h
                        simp only at h ⊢
                        by_cases h1 : c1 = 58
                        · rw [if_pos h1] at h ⊢
                          cases hv : scan n dq .value (skipSpace cs) with
                          | none => rw [hv] at h; cases h
                          | some r2 =>
                              rw [hv] at h
                              rw [ih dp dq .value _ r2 hle hv]
                              simp only [Option.some_bind] at h ⊢
                              cases hsk2 : skipSpace r2 with
                              | nil => rw [hsk2] at h; cases h
                              | cons d ds =>
                                  rw [hsk2] at h
                                  simp only at h ⊢
                                  by_cases h2 : d = 44
                                  · rw [if_pos h2] at h ⊢
                                    exact ih dp dq .members _ r hle h
                                  · rw [if_neg h2] at h ⊢
                                    exact h
                        · rw [if_neg h1] at h
                          cases h
              · rw [if_neg hq] at h
                cases h

theorem scanMembers_cons (n : Nat) (q : UInt8) (bs : Bytes) :
    scanMembers (n + 1) (q :: bs) =
      if q = 34 then
        (scanString 0 bs).bind fun r1 =>
          (unquote bs.length (before bs r1 1)).bind fun key =>
            match skipSpace r1 with
            | [] => none
            | c :: cs =>
                if c = 58 then
                  (scan (scanFuel cs) 1 .value (skipSpace cs)).bind fun r2 =>
                    match skipSpace r2 with
                    | [] => none
                    | d :: ds =>
                        if d = 44 then
                          (scanMembers n (skipSpace ds)).map fun m =>
                            ((key, before (skipSpace cs) r2 0) :: m.1, m.2)
                        else if d = 125 then some ([(key, before (skipSpace cs) r2 0)], ds)
                        else none
                else none
      else none := rfl

theorem members_key (k : List Char) (v : Bytes) (d : UInt8) (rest : Bytes) (n : Nat)
    (hv : ValueText 1 v) (hd : d = 44 ∨ d = 125) :
    scanMembers (n + 1) (34 :: (escBytes k ++ [34]) ++ 58 :: v ++ d :: rest) =
      if d = 44 then
        (scanMembers n (skipSpace rest)).map fun m =>
          ((k.flatMap String.utf8EncodeChar, v) :: m.1, m.2)
      else some ([(k.flatMap String.utf8EncodeChar, v)], rest) := by
  have hshape : 34 :: (escBytes k ++ [34]) ++ 58 :: v ++ d :: rest
      = 34 :: (escBytes k ++ 34 :: (58 :: (v ++ d :: rest))) := by simp
  rw [hshape, scanMembers_cons, if_pos rfl, scanString_escBytes]
  simp only [Option.some_bind]
  have hb : before (escBytes k ++ 34 :: 58 :: (v ++ d :: rest)) (58 :: (v ++ d :: rest)) 1
      = escBytes k := by
    have := before_append (escBytes k) (58 :: (v ++ d :: rest)) 1 [34] rfl
    simpa using this
  have hlen : k.length ≤ (escBytes k ++ 34 :: 58 :: (v ++ d :: rest)).length := by
    have := escBytes_length k
    simp only [List.length_append]
    omega
  rw [hb, unquote_escBytes k _ hlen]
  simp only [Option.some_bind]
  have hsp : skipSpace (58 :: (v ++ d :: rest)) = 58 :: (v ++ d :: rest) := rfl
  rw [hsp]
  simp only [if_true]
  obtain ⟨hv0, kf, hkf, hscan⟩ := hv d rest hd
  rw [hv0, scan_mono kf _ 1 .value _ _ hscan hkf]
  simp only [Option.some_bind]
  have hsd : skipSpace (d :: rest) = d :: rest := by
    rcases hd with h | h <;> rw [h] <;> rfl
  rw [hsd, before_append0]
  rcases hd with h | h
  · subst h
    simp
  · subst h
    simp

theorem endsValue_sep (d : UInt8) (hd : d = 44 ∨ d = 125) : endsValue d := by
  rcases hd with h | h <;> subst h <;>
    exact ⟨⟨rfl, by decide, by decide, by decide⟩, rfl⟩

theorem scanFuel_pos (x : Bytes) : scanFuel x = (2 * x.length + 1) + 1 := rfl

theorem ValueText_int (dp : Nat) (v : Int) : ValueText dp (strBytes (toString v)) := by
  intro d rest hd
  have he := endsValue_sep d hd
  have hfirst : ∃ b t, strBytes (toString v) = b :: t ∧ (b = 45 ∨ isDigit b = true) := by
    rcases intBytes_cases v with ⟨_, hne, hall, _, _⟩ | ⟨_, ds, he, _⟩
    · cases hds : strBytes (toString v) with
      | nil => exact absurd hds hne
      | cons b t =>
          rw [hds] at hall
          exact ⟨b, t, rfl, Or.inr (hall b (List.mem_cons_self _ _))⟩
    · exact ⟨45, ds, he, Or.inl rfl⟩
  refine ⟨?_, scanFuel _, Nat.le_refl _, ?_⟩
  · obtain ⟨b, t, hb, hb'⟩ := hfirst
    rw [hb]
    have hns : isSpace b = false := by
      rcases hb' with h | h
      · rw [h]; rfl
      · have := (isDigit_iff b).mp h
        cases hsp : isSpace b with
        | false => rfl
        | true =>
            exfalso
            simp only [isSpace, Bool.or_eq_true, decide_eq_true_eq] at hsp
            rcases hsp with ((h1 | h1) | h1) | h1 <;> rw [h1] at this <;> revert this <;> decide
    simp only [List.cons_append, skipSpace, hns]
    rfl
  · rw [scanFuel_pos]
    exact scan_int _ dp v d rest he.1

theorem ValueText_string (dp : Nat) (cs : List Char) :
    ValueText dp (34 :: (escBytes cs ++ [34])) := by
  intro d rest hd
  refine ⟨rfl, scanFuel _, Nat.le_refl _, ?_⟩
  rw [scanFuel_pos]
  have hshape : (34 :: (escBytes cs ++ [34])) ++ d :: rest
      = 34 :: (escBytes cs ++ 34 :: (d :: rest)) := by simp
  rw [hshape, scan_value_cons, if_pos rfl, scanString_escBytes]

theorem scan_value_space (n dp : Nat) (b : UInt8) (bs : Bytes) (h : isSpace b = true) :
    scan n dp .value (b :: bs) = none := by
  cases n with
  | zero => rfl
  | succ n =>
      simp only [isSpace, Bool.or_eq_true, decide_eq_true_eq] at h
      rcases h with ((h1 | h1) | h1) | h1 <;> subst h1 <;> rfl

theorem ValueText_compact (p : Bytes) (h : Compact p) : ValueText 1 p := by
  intro d rest hd
  have he := endsValue_sep d hd
  obtain ⟨hscan, _⟩ := h
  have hmono : scanFuel p ≤ scanFuel (p ++ d :: rest) := by
    simp only [scanFuel, List.length_append]
    omega
  refine ⟨?_, scanFuel p, hmono, ?_⟩
  · cases p with
    | nil => rw [scan_nil] at hscan; cases hscan
    | cons b bs =>
        have hns : isSpace b = false := by
          cases hsp : isSpace b with
          | false => rfl
          | true => rw [scan_value_space _ _ b bs hsp] at hscan; cases hscan
        simp only [List.cons_append, skipSpace, hns]
        rfl
  · have := scan_append d rest he (scanFuel p) 1 .value p [] hscan
    simpa using this

theorem memberText_eq (k : String) (v : Bytes) (x : Bytes) :
    memberText k v ++ x = 34 :: (escBytes k.toList ++ [34]) ++ 58 :: v ++ x := by
  rw [memberText, strBytes_jsonString]

theorem skipSpace_memberText (k : String) (v x : Bytes) :
    skipSpace (memberText k v ++ x) = memberText k v ++ x := by
  rw [memberText, strBytes_jsonString]
  rfl

theorem skipSpace_objectText (m : String × Bytes) (ms : List (String × Bytes)) (x : Bytes) :
    skipSpace (objectText (m :: ms) ++ x) = objectText (m :: ms) ++ x := by
  cases ms with
  | nil => rw [objectText, List.append_assoc]; exact skipSpace_memberText _ _ _
  | cons m1 ms => rw [objectText, List.append_assoc]; exact skipSpace_memberText _ _ _

/-- The decoder reads the members of a written object in order. -/
theorem scanMembers_objectText (ms : List (String × Bytes)) :
    ∀ (m : String × Bytes) (n : Nat) (rest : Bytes), ms.length < n →
      (∀ x ∈ m :: ms, ValueText 1 x.2) →
      scanMembers n (objectText (m :: ms) ++ rest)
        = some ((m :: ms).map (fun x => (strBytes x.1, x.2)), rest) := by
  induction ms with
  | nil =>
      intro m n rest hn hv
      cases n with
      | zero => exact absurd hn (Nat.not_lt_zero _)
      | succ n =>
          have h1 : objectText [m] ++ rest = memberText m.1 m.2 ++ 125 :: rest := by
            simp [objectText]
          rw [h1, memberText_eq,
            members_key m.1.toList m.2 125 rest n (hv m (List.mem_cons_self _ _)) (Or.inr rfl)]
          simp [strBytes]
  | cons m1 ms ih =>
      intro m n rest hn hv
      cases n with
      | zero => exact absurd hn (Nat.not_lt_zero _)
      | succ n =>
          have h1 : objectText (m :: m1 :: ms) ++ rest
              = memberText m.1 m.2 ++ 44 :: (objectText (m1 :: ms) ++ rest) := by
            simp [objectText]
          rw [h1, memberText_eq,
            members_key m.1.toList m.2 44 _ n (hv m (List.mem_cons_self _ _)) (Or.inl rfl),
            if_pos rfl, skipSpace_objectText,
            ih m1 n rest (by simpa using hn) (fun x hx => hv x (List.mem_cons_of_mem _ hx))]
          simp [strBytes]

theorem objectText_length (ms : List (String × Bytes)) : ms.length < (objectText ms).length + 1 := by
  induction ms with
  | nil => simp [objectText]
  | cons m ms ih =>
      cases ms with
      | nil => simp [objectText]
      | cons m1 ms =>
          simp only [objectText, List.length_append, List.length_cons] at ih ⊢
          omega

/-- The decoder reads a written object as its members. -/
theorem objectMembers_objectText (m : String × Bytes) (ms : List (String × Bytes))
    (hv : ∀ x ∈ m :: ms, ValueText 1 x.2) :
    objectMembers (123 :: objectText (m :: ms))
      = some ((m :: ms).map (fun x => (strBytes x.1, x.2))) := by
  have hsk : skipSpace (123 :: objectText (m :: ms)) = 123 :: objectText (m :: ms) := rfl
  have h0 := skipSpace_objectText m ms []
  rw [List.append_nil] at h0
  have hhead : ∃ t, objectText (m :: ms) = 34 :: t := by
    cases ms with
    | nil => exact ⟨_, by rw [objectText, memberText, strBytes_jsonString]; rfl⟩
    | cons m1 ms => exact ⟨_, by rw [objectText, memberText, strBytes_jsonString]; rfl⟩
  obtain ⟨t, ht⟩ := hhead
  have hlen : ms.length < (123 :: objectText (m :: ms)).length := by
    have := objectText_length (m :: ms)
    simp only [List.length_cons] at this ⊢
    omega
  have hs := scanMembers_objectText ms m (123 :: objectText (m :: ms)).length [] hlen hv
  rw [List.append_nil] at hs
  unfold objectMembers
  rw [hsk]
  simp only [if_true, h0]
  rw [ht] at hs ⊢
  have hne : ¬ ((34 : UInt8) = 125) := by decide
  simp only [hne, if_false]
  rw [hs]
  rfl

theorem jsonCompact_of_Compact (p : Bytes) (h : Compact p) : jsonCompact p = some p := by
  obtain ⟨hscan, hsq⟩ := h
  have hsk : skipSpace p = p := by
    cases p with
    | nil => rfl
    | cons b bs =>
        have hns : isSpace b = false := by
          cases hsp : isSpace b with
          | false => rfl
          | true => rw [scan_value_space _ _ b bs hsp] at hscan; cases hscan
        simp only [skipSpace, hns]
        rfl
  have hv : jsonValid p = true := by
    unfold jsonValid
    rw [hsk, scan_shallower _ 0 1 _ _ _ (Nat.zero_le 1) hscan]
    rfl
  rw [jsonCompact, if_pos hv, hsq]

theorem strBytes_lbrace : strBytes "\x7b" = [123] := by decide
theorem strBytes_rbrace : strBytes "\x7d" = [125] := by decide
theorem strBytes_colon : strBytes ":" = [58] := by decide
theorem strBytes_comma : strBytes "," = [44] := by decide

/-- A compact raw message holds a byte, so it is written as it is. -/
theorem rawMessageJSON_of_Compact (p : Bytes) (h : Compact p) : rawMessageJSON p = p := by
  cases p with
  | nil => exact absurd h.1 (by rw [scan_nil]; exact fun hc => Option.noConfusion hc)
  | cons b bs => rfl

/-- The bytes `Envelope.Marshal` writes, as an object of five members. -/
theorem Marshal_text (e : Envelope) :
    e.Marshal = (jsonCompact (rawMessageJSON e.Payload)).map fun p =>
      123 :: objectText [("v", strBytes (toString e.V)), ("type", strBytes (jsonString e.MsgType)),
        ("id", strBytes (jsonString e.ID)), ("ts", strBytes (toString e.TS)), ("payload", p)] := by
  unfold Envelope.Marshal
  refine congrArg (fun f => Option.map f (jsonCompact (rawMessageJSON e.Payload))) ?_
  funext p
  simp only [strBytes_append, strBytes_lbrace, strBytes_rbrace, strBytes_colon, strBytes_comma,
    objectText, memberText, List.append_assoc, List.cons_append, List.nil_append,
    List.singleton_append]

theorem decodeString_string (old : Bytes) (s : String) :
    decodeString old (strBytes (jsonString s)) = some (strBytes s) := by
  rw [strBytes_jsonString]
  have hn : ¬ (34 :: (escBytes s.toList ++ [34]) = nullLit) := by
    intro h
    have := congrArg List.head? h
    simp [nullLit] at this
  have hd : (escBytes s.toList ++ [34]).dropLast = escBytes s.toList := by simp
  have hl : s.toList.length ≤ (escBytes s.toList ++ [34]).length := by
    have := escBytes_length s.toList
    simp only [List.length_append]
    omega
  simp only [decodeString, hn, if_false, if_true, hd]
  rw [unquote_escBytes _ _ hl]
  rfl

/-- The decoder reads the object `Marshal` writes back as the envelope, for a
payload that stands in it as one value and integers within `int64`. -/
theorem unmarshal_objectText (e : Envelope) (hp : ValueText 1 e.Payload)
    (hV : -(2 : Int) ^ 63 ≤ e.V ∧ e.V < (2 : Int) ^ 63)
    (hTS : -(2 : Int) ^ 63 ≤ e.TS ∧ e.TS < (2 : Int) ^ 63) :
    jsonUnmarshal (123 :: objectText [(("v" : String), strBytes (toString e.V)),
      ("type", strBytes (jsonString e.MsgType)), ("id", strBytes (jsonString e.ID)),
      ("ts", strBytes (toString e.TS)), ("payload", e.Payload)]) = some e.wire := by
  have hv : ∀ x ∈ [(("v" : String), strBytes (toString e.V)),
      ("type", strBytes (jsonString e.MsgType)), ("id", strBytes (jsonString e.ID)),
      ("ts", strBytes (toString e.TS)), ("payload", e.Payload)], ValueText 1 x.2 := by
    intro x hx
    simp only [List.mem_cons, List.mem_singleton, List.not_mem_nil, or_false] at hx
    rcases hx with rfl | rfl | rfl | rfl | rfl
    · exact ValueText_int _ _
    · rw [strBytes_jsonString]; exact ValueText_string _ _
    · rw [strBytes_jsonString]; exact ValueText_string _ _
    · exact ValueText_int _ _
    · exact hp
  have hm := objectMembers_objectText _ _ hv
  unfold jsonUnmarshal
  have hnull : ¬ ((skipSpace (123 :: objectText [(("v" : String), strBytes (toString e.V)),
      ("type", strBytes (jsonString e.MsgType)), ("id", strBytes (jsonString e.ID)),
      ("ts", strBytes (toString e.TS)), ("payload", e.Payload)])).take 4 = nullLit ∧
      skipSpace ((skipSpace (123 :: objectText [(("v" : String), strBytes (toString e.V)),
      ("type", strBytes (jsonString e.MsgType)), ("id", strBytes (jsonString e.ID)),
      ("ts", strBytes (toString e.TS)), ("payload", e.Payload)])).drop 4) = []) := by
    intro h
    have h1 := congrArg List.head? h.1
    have hsk : ∀ x : Bytes, skipSpace (123 :: x) = 123 :: x := fun _ => rfl
    rw [hsk] at h1
    simp [nullLit] at h1
  rw [if_neg hnull, hm]
  simp only [List.map, Option.some_bind, setFields]
  have k1 : foldName 0 (strBytes "v") = [86] := by decide
  have k2 : foldName 0 (strBytes "type") = [84, 89, 80, 69] := by decide
  have k3 : foldName 0 (strBytes "id") = [73, 68] := by decide
  have k4 : foldName 0 (strBytes "ts") = [84, 83] := by decide
  have k5 : foldName 0 (strBytes "payload") = [80, 65, 89, 76, 79, 65, 68] := by decide
  simp only [setField, k1, k2, k3, k4, k5, if_true, decodeInt_int _ _ hV.1 hV.2,
    decodeInt_int _ _ hTS.1 hTS.2, decodeString_string, Option.map_some', Option.some_bind]
  simp [Envelope.wire, WireEnvelope.zero]

/-! ## encoding/json: what compaction leaves of written text -/

theorem lineSeparatorAt_ne (b : UInt8) (bs : Bytes) (h : b ≠ 226) :
    lineSeparatorAt (b :: bs) = false := by
  cases bs with
  | nil => rfl
  | cons b1 t =>
      cases t with
      | nil => rfl
      | cons b2 u => simp [lineSeparatorAt, h]

theorem squeeze_in (b : UInt8) (bs : Bytes) (h : inertByte b) :
    squeeze 1 0 (b :: bs) = b :: squeeze 1 0 bs := by
  obtain ⟨h1, h2, h3, h4, h5, h6⟩ := h
  have hl := lineSeparatorAt_ne b bs h4
  have hs : ¬ (b = 60 ∨ b = 62 ∨ b = 38) := by
    rintro (h | h | h)
    · exact h1 h
    · exact h2 h
    · exact h3 h
  simp [squeeze, hs, hl, h5, h6]

theorem squeeze_out (b : UInt8) (bs : Bytes) (h : inertByte b) (hsp : isSpace b = false) :
    squeeze 0 0 (b :: bs) = b :: squeeze 0 0 bs := by
  obtain ⟨h1, h2, h3, h4, h5, h6⟩ := h
  have hl := lineSeparatorAt_ne b bs h4
  have hs : ¬ (b = 60 ∨ b = 62 ∨ b = 38) := by
    rintro (h | h | h)
    · exact h1 h
    · exact h2 h
    · exact h3 h
  simp [squeeze, hs, hl, h5, hsp]

theorem squeeze_open (bs : Bytes) : squeeze 0 0 (34 :: bs) = 34 :: squeeze 1 0 bs := by
  have hl := lineSeparatorAt_ne 34 bs (by decide)
  simp [squeeze, hl, isSpace]

theorem squeeze_close (bs : Bytes) : squeeze 1 0 (34 :: bs) = 34 :: squeeze 0 0 bs := by
  have hl := lineSeparatorAt_ne 34 bs (by decide)
  simp [squeeze, hl]

theorem squeeze_backslash (e : UInt8) (bs : Bytes) (h1 : e ≠ 60) (h2 : e ≠ 62) (h3 : e ≠ 38)
    (h4 : e ≠ 226) : squeeze 1 0 (92 :: e :: bs) = 92 :: e :: squeeze 1 0 bs := by
  have hl := lineSeparatorAt_ne 92 (e :: bs) (by decide)
  have hl2 := lineSeparatorAt_ne e bs h4
  have hs : ¬ (e = 60 ∨ e = 62 ∨ e = 38) := by
    rintro (h | h | h)
    · exact h1 h
    · exact h2 h
    · exact h3 h
  simp [squeeze, hl, hl2, hs]

theorem squeeze_in_run (w tail : Bytes) (h : ∀ b ∈ w, inertByte b) :
    squeeze 1 0 (w ++ tail) = w ++ squeeze 1 0 tail := by
  induction w with
  | nil => rfl
  | cons b bs ih =>
      rw [List.cons_append, squeeze_in b _ (h b (List.mem_cons_self _ _)),
        ih (fun x hx => h x (List.mem_cons_of_mem _ hx))]
      rfl

theorem inertByte_of_toNat (b : UInt8) (h : b.toNat ≠ 60 ∧ b.toNat ≠ 62 ∧ b.toNat ≠ 38 ∧
    b.toNat ≠ 226 ∧ b.toNat ≠ 34 ∧ b.toNat ≠ 92) : inertByte b := by
  obtain ⟨h1, h2, h3, h4, h5, h6⟩ := h
  exact ⟨fun e => h1 (by rw [e]; rfl), fun e => h2 (by rw [e]; rfl), fun e => h3 (by rw [e]; rfl),
    fun e => h4 (by rw [e]; rfl), fun e => h5 (by rw [e]; rfl), fun e => h6 (by rw [e]; rfl)⟩

/-- Compaction copies the encoding of a three-byte character other than U+2028
and U+2029. -/
theorem squeeze_three (b0 b1 b2 : UInt8) (tail : Bytes) (h0 : 224 ≤ b0.toNat)
    (h1 : 128 ≤ b1.toNat ∧ b1.toNat ≤ 191) (h2 : 128 ≤ b2.toNat ∧ b2.toNat ≤ 191)
    (hn : ¬ (b0.toNat = 226 ∧ b1.toNat = 128 ∧ (b2.toNat = 168 ∨ b2.toNat = 169))) :
    squeeze 1 0 (b0 :: b1 :: b2 :: tail) = b0 :: b1 :: b2 :: squeeze 1 0 tail := by
  have i1 : inertByte b1 := inertByte_of_toNat b1 (by omega)
  have i2 : inertByte b2 := inertByte_of_toNat b2 (by omega)
  by_cases hb : b0 = 226
  · subst hb
    have hl : lineSeparatorAt (226 :: b1 :: b2 :: tail) = false := by
      have hn' : ¬ (b1 = 128 ∧ (b2 = 168 ∨ b2 = 169)) := by
        rintro ⟨e1, e2⟩
        apply hn
        refine ⟨rfl, by rw [e1]; rfl, ?_⟩
        rcases e2 with e | e
        · left; rw [e]; rfl
        · right; rw [e]; rfl
      simp only [lineSeparatorAt, decide_True, Bool.true_and]
      cases hd : (decide (b1 = 128) && (decide (b2 = 168) || decide (b2 = 169))) with
      | false => rfl
      | true =>
          exfalso
          simp only [Bool.and_eq_true, Bool.or_eq_true, decide_eq_true_eq] at hd
          exact hn' hd
    have hs : squeeze 1 0 (226 :: b1 :: b2 :: tail) = 226 :: squeeze 1 0 (b1 :: b2 :: tail) := by
      simp [squeeze, hl]
    rw [hs, squeeze_in b1 _ i1, squeeze_in b2 _ i2]
  · have i0 : inertByte b0 := by
      refine ⟨?_, ?_, ?_, hb, ?_, ?_⟩ <;> intro e <;> rw [e] at h0 <;> revert h0 <;> decide
    rw [squeeze_in b0 _ i0, squeeze_in b1 _ i1, squeeze_in b2 _ i2]

theorem isHexDigit_inert (b : UInt8) (h : isHexDigit b = true) : inertByte b := by
  apply inertByte_of_toNat
  have h' : (48 ≤ b.toNat ∧ b.toNat ≤ 57) ∨ (97 ≤ b.toNat ∧ b.toNat ≤ 102) ∨
      (65 ≤ b.toNat ∧ b.toNat ≤ 70) := by
    simp only [isHexDigit, isDigit, Bool.or_eq_true, Bool.and_eq_true, decide_eq_true_eq] at h
    rcases h with (h | h) | h
    · exact Or.inl h
    · exact Or.inr (Or.inl h)
    · exact Or.inr (Or.inr h)
  omega

theorem simpleEscape_set (e x : UInt8) (h : simpleEscape e = some x) :
    e ≠ 60 ∧ e ≠ 62 ∧ e ≠ 38 ∧ e ≠ 226 := by
  refine ⟨?_, ?_, ?_, ?_⟩ <;> intro he <;> rw [he] at h <;> cases h

/-- Compaction copies the escaped form of one character of a string. -/
theorem squeeze_escape (c : Char) (tail : Bytes) :
    squeeze 1 0 ((jsonEscapeChar c).flatMap String.utf8EncodeChar ++ tail)
      = (jsonEscapeChar c).flatMap String.utf8EncodeChar ++ squeeze 1 0 tail := by
  rcases escape_cases c with ⟨e, x, he, hs, _⟩ | ⟨a, b, h, l, he, ha, hb, hh, hl, _, _⟩ |
      ⟨he, h1, h2, h3, h4, h5, h6, h7, h8⟩
  · rw [he]
    obtain ⟨e1, e2, e3, e4⟩ := simpleEscape_set e x hs
    exact squeeze_backslash e tail e1 e2 e3 e4
  · rw [he]
    show squeeze 1 0 (92 :: 117 :: a :: b :: h :: l :: tail) = _
    rw [squeeze_backslash 117 _ (by decide) (by decide) (by decide) (by decide),
      squeeze_in a _ (isHexDigit_inert a ha), squeeze_in b _ (isHexDigit_inert b hb),
      squeeze_in h _ (isHexDigit_inert h hh), squeeze_in l _ (isHexDigit_inert l hl)]
    rfl
  · rw [he]
    have hr := char_range c
    rcases utf8_cases c with ⟨hc, b0, hu, e0⟩ | ⟨hc, hc', b0, b1, hu, e0, e1⟩ |
        ⟨hc, hc', b0, b1, b2, hu, e0, e1, e2⟩ | ⟨hc, b0, b1, b2, b3, hu, e0, e1, e2, e3⟩
    · rw [hu]
      exact squeeze_in b0 tail (inertByte_of_toNat b0 (by omega))
    · rw [hu]
      show squeeze 1 0 (b0 :: b1 :: tail) = _
      rw [squeeze_in b0 _ (inertByte_of_toNat b0 (by omega)),
        squeeze_in b1 _ (inertByte_of_toNat b1 (by omega))]
      rfl
    · rw [hu]
      exact squeeze_three b0 b1 b2 tail (by omega) (by omega) (by omega) (by omega)
    · rw [hu]
      show squeeze 1 0 (b0 :: b1 :: b2 :: b3 :: tail) = _
      rw [squeeze_in b0 _ (inertByte_of_toNat b0 (by omega)),
        squeeze_in b1 _ (inertByte_of_toNat b1 (by omega)),
        squeeze_in b2 _ (inertByte_of_toNat b2 (by omega)),
        squeeze_in b3 _ (inertByte_of_toNat b3 (by omega))]
      rfl

theorem squeeze_escBytes (cs : List Char) (tail : Bytes) :
    squeeze 1 0 (escBytes cs ++ tail) = escBytes cs ++ squeeze 1 0 tail := by
  induction cs with
  | nil => rfl
  | cons c cs ih =>
      rw [escBytes_cons, List.append_assoc, squeeze_escape, ih, List.append_assoc]

theorem SqueezeFixed_string (cs : List Char) : SqueezeFixed (34 :: (escBytes cs ++ [34])) := by
  intro tail
  have : (34 :: (escBytes cs ++ [34])) ++ tail = 34 :: (escBytes cs ++ 34 :: tail) := by simp
  rw [this, squeeze_open, squeeze_escBytes, squeeze_close]
  simp

theorem squeeze_out_run (w tail : Bytes) (h : ∀ b ∈ w, inertByte b ∧ isSpace b = false) :
    squeeze 0 0 (w ++ tail) = w ++ squeeze 0 0 tail := by
  induction w with
  | nil => rfl
  | cons b bs ih =>
      have hb := h b (List.mem_cons_self _ _)
      rw [List.cons_append, squeeze_out b _ hb.1 hb.2,
        ih (fun x hx => h x (List.mem_cons_of_mem _ hx))]
      rfl

theorem digit_out (b : UInt8) (h : isDigit b = true ∨ b = 45) :
    inertByte b ∧ isSpace b = false := by
  have h' : (48 ≤ b.toNat ∧ b.toNat ≤ 57) ∨ b.toNat = 45 := by
    rcases h with h | h
    · exact Or.inl ((isDigit_iff b).mp h)
    · right; rw [h]; rfl
  refine ⟨inertByte_of_toNat b (by omega), ?_⟩
  cases hsp : isSpace b with
  | false => rfl
  | true =>
      exfalso
      simp only [isSpace, Bool.or_eq_true, decide_eq_true_eq] at hsp
      rcases hsp with ((h1 | h1) | h1) | h1 <;> rw [h1] at h' <;> revert h' <;> decide

theorem SqueezeFixed_int (v : Int) : SqueezeFixed (strBytes (toString v)) := by
  intro tail
  apply squeeze_out_run
  intro b hb
  rcases intBytes_cases v with ⟨_, _, hall, _, _⟩ | ⟨_, ds, he, _, hall, _, _⟩
  · exact digit_out b (Or.inl (hall b hb))
  · rw [he] at hb
    rcases List.mem_cons.mp hb with h | h
    · exact digit_out b (Or.inr h)
    · exact digit_out b (Or.inl (hall b h))

theorem SqueezeFixed_memberText (k : String) (v : Bytes) (hv : SqueezeFixed v) :
    SqueezeFixed (memberText k v) := by
  intro tail
  have h1 : memberText k v ++ tail
      = (34 :: (escBytes k.toList ++ [34])) ++ ([58] ++ (v ++ tail)) := by
    rw [memberText, strBytes_jsonString]
    simp
  have h2 : squeeze 0 0 ([58] ++ (v ++ tail)) = [58] ++ squeeze 0 0 (v ++ tail) :=
    squeeze_out_run [58] _ (by
      intro b hb
      simp only [List.mem_singleton] at hb
      subst hb
      exact ⟨inertByte_of_toNat _ (by decide), rfl⟩)
  rw [h1, SqueezeFixed_string, h2, hv tail, memberText, strBytes_jsonString]
  simp

theorem SqueezeFixed_objectText (ms : List (String × Bytes))
    (hv : ∀ x ∈ ms, SqueezeFixed x.2) : SqueezeFixed (objectText ms) := by
  have hsep : ∀ (d : UInt8) (t : Bytes), d = 44 ∨ d = 125 →
      squeeze 0 0 (d :: t) = d :: squeeze 0 0 t := by
    intro d t hd
    apply squeeze_out
    · rcases hd with h | h <;> subst h <;> exact inertByte_of_toNat _ (by decide)
    · rcases hd with h | h <;> subst h <;> rfl
  induction ms with
  | nil =>
      intro tail
      exact hsep 125 tail (Or.inr rfl)
  | cons m ms ih =>
      intro tail
      have hm := SqueezeFixed_memberText m.1 m.2 (hv m (List.mem_cons_self _ _))
      cases ms with
      | nil =>
          have h1 : objectText [m] ++ tail = memberText m.1 m.2 ++ 125 :: tail := by
            simp [objectText]
          rw [h1, hm, hsep 125 tail (Or.inr rfl)]
          simp [objectText]
      | cons m1 ms =>
          have h1 : objectText (m :: m1 :: ms) ++ tail
              = memberText m.1 m.2 ++ 44 :: (objectText (m1 :: ms) ++ tail) := by
            simp [objectText]
          rw [h1, hm, hsep 44 _ (Or.inl rfl),
            ih (fun x hx => hv x (List.mem_cons_of_mem _ hx)) tail]
          simp [objectText]

/-- The scanner reads the members of a written object up to its closing brace. -/
theorem scan_members_objectText (ms : List (String × Bytes)) :
    ∀ (m : String × Bytes) (n dp : Nat) (rest : Bytes),
      scanFuel (objectText (m :: ms) ++ rest) ≤ n →
      (∀ x ∈ m :: ms, ValueText dp x.2) →
      scan n dp .members (objectText (m :: ms) ++ rest) = some rest := by
  induction ms with
  | nil =>
      intro m n dp rest hn hv
      have h1 : objectText [m] ++ rest
          = 34 :: (escBytes m.1.toList ++ 34 :: (58 :: (m.2 ++ 125 :: rest))) := by
        simp [objectText, memberText, strBytes_jsonString]
      rw [h1] at hn ⊢
      cases n with
      | zero => simp [scanFuel] at hn
      | succ n =>
          obtain ⟨hv0, kf, hkf, hscan⟩ := hv m (List.mem_cons_self _ _) 125 rest (Or.inr rfl)
          have hk : kf ≤ n := by
            simp only [scanFuel, List.length_cons, List.length_append] at hn hkf
            omega
          rw [scan_members_cons, if_pos rfl, scanString_escBytes]
          simp only [Option.some_bind]
          have hsp : skipSpace (58 :: (m.2 ++ 125 :: rest)) = 58 :: (m.2 ++ 125 :: rest) := rfl
          rw [hsp]
          simp only [if_true]
          rw [hv0, scan_mono kf n dp .value _ _ hscan hk]
          rfl
  | cons m1 ms ih =>
      intro m n dp rest hn hv
      have h1 : objectText (m :: m1 :: ms) ++ rest
          = 34 :: (escBytes m.1.toList ++ 34 :: (58 :: (m.2 ++ 44 ::
              (objectText (m1 :: ms) ++ rest)))) := by
        simp [objectText, memberText, strBytes_jsonString]
      rw [h1] at hn ⊢
      cases n with
      | zero => simp [scanFuel] at hn
      | succ n =>
          obtain ⟨hv0, kf, hkf, hscan⟩ :=
            hv m (List.mem_cons_self _ _) 44 (objectText (m1 :: ms) ++ rest) (Or.inl rfl)
          have hk : kf ≤ n := by
            simp only [scanFuel, List.length_cons, List.length_append] at hn hkf
            omega
          have hn2 : scanFuel (objectText (m1 :: ms) ++ rest) ≤ n := by
            simp only [scanFuel, List.length_cons, List.length_append] at hn ⊢
            omega
          rw [scan_members_cons, if_pos rfl, scanString_escBytes]
          simp only [Option.some_bind]
          have hsp : skipSpace (58 :: (m.2 ++ 44 :: (objectText (m1 :: ms) ++ rest)))
              = 58 :: (m.2 ++ 44 :: (objectText (m1 :: ms) ++ rest)) := rfl
          rw [hsp]
          simp only [if_true]
          rw [hv0, scan_mono kf n dp .value _ _ hscan hk]
          simp only [Option.some_bind]
          have hsp2 : skipSpace (44 :: (objectText (m1 :: ms) ++ rest))
              = 44 :: (objectText (m1 :: ms) ++ rest) := rfl
          rw [hsp2]
          simp only [if_true]
          rw [skipSpace_objectText]
          exact ih m1 n dp rest hn2 (fun x hx => hv x (List.mem_cons_of_mem _ hx))

/-- A written object with at least one member is in compact form when its
values are. -/
theorem Compact_object (m : String × Bytes) (ms : List (String × Bytes))
    (hv : ∀ x ∈ m :: ms, ValueText 2 x.2) (hs : ∀ x ∈ m :: ms, SqueezeFixed x.2) :
    Compact (123 :: objectText (m :: ms)) := by
  constructor
  · have hhead : ∃ t, objectText (m :: ms) = 34 :: t := by
      cases ms with
      | nil => exact ⟨_, by rw [objectText, memberText, strBytes_jsonString]; rfl⟩
      | cons m1 ms => exact ⟨_, by rw [objectText, memberText, strBytes_jsonString]; rfl⟩
    obtain ⟨t, ht⟩ := hhead
    have h0 := skipSpace_objectText m ms []
    rw [List.append_nil] at h0
    have hm := scan_members_objectText ms m (2 * (123 :: objectText (m :: ms)).length + 1) 2 []
      (by simp only [scanFuel, List.length_cons, List.length_append, List.length_nil]; omega) hv
    rw [List.append_nil] at hm
    rw [scanFuel_pos, scan_value_cons]
    have n1 : ¬ ((123 : UInt8) = 34) := by decide
    have nd : ¬ (maxNestingDepth ≤ 1) := by decide
    rw [if_neg n1, if_pos rfl, if_neg nd, h0]
    rw [ht] at hm ⊢
    have n2 : ¬ ((34 : UInt8) = 125) := by decide
    simp only [n2, if_false]
    exact hm
  · have h1 : squeeze 0 0 (123 :: objectText (m :: ms))
        = 123 :: squeeze 0 0 (objectText (m :: ms)) :=
      squeeze_out 123 _ (inertByte_of_toNat _ (by decide)) rfl
    have h2 := SqueezeFixed_objectText (m :: ms) hs []
    rw [List.append_nil] at h2
    have h3 : squeeze 0 0 ([] : Bytes) = [] := rfl
    rw [h1, h2, h3, List.append_nil]

theorem jsonMarshal_object (pv : PayloadValue) (h : pv ≠ .null) :
    jsonMarshal pv = 123 :: objectText (payloadMembers pv) := by
  cases pv with
  | null => exact absurd rfl h
  | status p =>
      simp only [jsonMarshal, jsonMarshalText, payloadMembers, strBytes_append, strBytes_lbrace,
        strBytes_rbrace, strBytes_colon, objectText, memberText, List.append_assoc,
        List.cons_append, List.nil_append, List.singleton_append]
  | error p =>
      by_cases hr : p.RetryAfterMs = 0
      · simp only [jsonMarshal, jsonMarshalText, payloadMembers, hr, if_true, strBytes_append,
          strBytes_lbrace, strBytes_rbrace, strBytes_colon, strBytes_comma, objectText,
          memberText, List.append_assoc, List.cons_append, List.nil_append,
          List.singleton_append, List.append_nil]
        rfl
      · simp only [jsonMarshal, jsonMarshalText, payloadMembers, hr, if_false, strBytes_append,
          strBytes_lbrace, strBytes_rbrace, strBytes_colon, strBytes_comma, objectText,
          memberText, List.append_assoc, List.cons_append, List.nil_append,
          List.singleton_append]

theorem payloadMembers_values (dp : Nat) (pv : PayloadValue) :
    ∀ x ∈ payloadMembers pv, ValueText dp x.2 ∧ SqueezeFixed x.2 := by
  have hstr : ∀ s : String, ValueText dp (strBytes (jsonString s)) ∧
      SqueezeFixed (strBytes (jsonString s)) := by
    intro s
    rw [strBytes_jsonString]
    exact ⟨ValueText_string _ _, SqueezeFixed_string _⟩
  intro x hx
  cases pv with
  | null => simp [payloadMembers] at hx
  | status p =>
      simp only [payloadMembers, List.mem_singleton] at hx
      subst hx
      exact hstr _
  | error p =>
      simp only [payloadMembers, List.mem_append, List.mem_cons, List.mem_singleton,
        List.not_mem_nil, or_false] at hx
      rcases hx with (h | h) | h
      · subst h; exact hstr _
      · subst h; exact hstr _
      · by_cases hr : p.RetryAfterMs = 0
        · simp [hr] at h
        · simp only [hr, if_false, List.mem_singleton] at h
          subst h
          exact ⟨ValueText_int _ _, SqueezeFixed_int _⟩

/-- Every payload `NewEnvelope` stores is in the form `json.Marshal` writes, so
`Envelope.Marshal` has no error to report on it. -/
theorem Compact_jsonMarshal (pv : PayloadValue) : Compact (jsonMarshal pv) := by
  by_cases h : pv = .null
  · subst h
    decide
  · rw [jsonMarshal_object pv h]
    have hv := payloadMembers_values 2 pv
    cases hm : payloadMembers pv with
    | nil =>
        cases pv with
        | null => exact absurd rfl h
        | status p => simp [payloadMembers] at hm
        | error p => simp [payloadMembers] at hm
    | cons m ms =>
        rw [hm] at hv
        exact Compact_object m ms (fun x hx => (hv x hx).1) (fun x hx => (hv x hx).2)

/-- Every envelope `NewEnvelope` builds marshals without error, to an object of
five members. -/
theorem NewEnvelope_Marshal (t : String) (pv : PayloadValue) (id : String) (ts : Int) :
    (NewEnvelope t pv id ts).Marshal
      = some (123 :: objectText [("v", strBytes (toString ProtocolVersion)),
          ("type", strBytes (jsonString t)), ("id", strBytes (jsonString id)),
          ("ts", strBytes (toString ts)), ("payload", jsonMarshal pv)]) := by
  rw [Marshal_text]
  show Option.map _ (jsonCompact (rawMessageJSON (jsonMarshal pv))) = _
  rw [rawMessageJSON_of_Compact _ (Compact_jsonMarshal pv),
    jsonCompact_of_Compact _ (Compact_jsonMarshal pv)]
  rfl

/-! ## encoding/json: the nesting limit -/

/-- The scanner reads `k + 1` arrays inside one another when the limit allows
as many more. -/
theorem scan_nested (k : Nat) : ∀ (n dp : Nat) (rest : Bytes),
    dp + (k + 1) ≤ maxNestingDepth → 2 * k + 1 ≤ n →
    scan n dp .value (List.replicate (k + 1) 91 ++ (List.replicate (k + 1) 93 ++ rest))
      = some rest := by
  have n1 : ¬ ((91 : UInt8) = 34) := by decide
  have n2 : ¬ ((91 : UInt8) = 123) := by decide
  have n3 : ¬ ((91 : UInt8) = 93) := by decide
  have n4 : ¬ ((93 : UInt8) = 44) := by decide
  induction k with
  | zero =>
      intro n dp rest hdp hn
      cases n with
      | zero => exact absurd hn (by decide)
      | succ n =>
          have hd : ¬ (maxNestingDepth ≤ dp) := by omega
          show scan (n + 1) dp .value (91 :: 93 :: rest) = some rest
          rw [scan_value_cons, if_neg n1, if_neg n2, if_pos rfl, if_neg hd]
          show (if (93 : UInt8) = 93 then some rest else _) = some rest
          rw [if_pos rfl]
  | succ k ih =>
      intro n dp rest hdp hn
      cases n with
      | zero => exact absurd hn (by omega)
      | succ n =>
        cases n with
        | zero => exact absurd hn (by omega)
        | succ n =>
          have hd : ¬ (maxNestingDepth ≤ dp) := by omega
          have hin := ih n (dp + 1) (93 :: rest) (by omega) (by omega)
          have hshape : List.replicate (k + 1 + 1) 91 ++ (List.replicate (k + 1 + 1) 93 ++ rest)
              = 91 :: 91 :: (List.replicate k 91 ++ (List.replicate (k + 1) 93 ++ 93 :: rest)) := by
            have h93 : List.replicate (k + 1 + 1) (93 : UInt8)
                = List.replicate (k + 1) 93 ++ [93] := List.replicate_succ' _ _
            rw [h93, List.replicate_succ, List.replicate_succ]
            simp
          have hin' : scan n (dp + 1) .value
              (91 :: (List.replicate k 91 ++ (List.replicate (k + 1) 93 ++ 93 :: rest)))
              = some (93 :: rest) := hin
          rw [hshape, scan_value_cons, if_neg n1, if_neg n2, if_pos rfl, if_neg hd]
          show (if (91 : UInt8) = 93 then _ else scan (n + 1) (dp + 1) .elems
            (91 :: (List.replicate k 91 ++ (List.replicate (k + 1) 93 ++ 93 :: rest)))) = some rest
          rw [if_neg n3, scan_elems_cons, hin', Option.some_bind]
          show (if (93 : UInt8) = 44 then _ else if (93 : UInt8) = 93 then some rest else none)
            = some rest
          rw [if_neg n4, if_pos rfl]

/-- The scanner refuses `k + 1` opening brackets when fewer than that many more
arrays may be open: "exceeded max depth". -/
theorem scan_nested_none (k : Nat) : ∀ (n dp : Nat) (rest : Bytes),
    maxNestingDepth ≤ dp + k →
    scan n dp .value (List.replicate (k + 1) 91 ++ rest) = none := by
  have n1 : ¬ ((91 : UInt8) = 34) := by decide
  have n2 : ¬ ((91 : UInt8) = 123) := by decide
  have n3 : ¬ ((91 : UInt8) = 93) := by decide
  induction k with
  | zero =>
      intro n dp rest hdp
      cases n with
      | zero => rfl
      | succ n =>
          have hdp' : maxNestingDepth ≤ dp := hdp
          show scan (n + 1) dp .value (91 :: rest) = none
          rw [scan_value_cons, if_neg n1, if_neg n2, if_pos rfl, if_pos hdp']
  | succ k ih =>
      intro n dp rest hdp
      cases n with
      | zero => rfl
      | succ n =>
          show scan (n + 1) dp .value (91 :: (List.replicate (k + 1) 91 ++ rest)) = none
          rw [scan_value_cons, if_neg n1, if_neg n2, if_pos rfl]
          by_cases hd : maxNestingDepth ≤ dp
          · rw [if_pos hd]
          · rw [if_neg hd]
            show (if (91 : UInt8) = 93 then _ else scan n (dp + 1) .elems
              (91 :: (List.replicate k 91 ++ rest))) = none
            rw [if_neg n3]
            cases n with
            | zero => rfl
            | succ n =>
                have hin : scan n (dp + 1) .value (91 :: (List.replicate k 91 ++ rest)) = none :=
                  ih n (dp + 1) rest (by omega)
                rw [scan_elems_cons, hin]
                rfl

theorem nestedArrays_succ (k : Nat) (rest : Bytes) :
    nestedArrays (k + 1) ++ rest
      = List.replicate (k + 1) 91 ++ (List.replicate (k + 1) 93 ++ rest) := by
  rw [nestedArrays, List.append_assoc]

theorem nestedArrays_length (k : Nat) : (nestedArrays k).length = 2 * k := by
  simp only [nestedArrays, List.length_append, List.length_replicate]
  omega

theorem skipSpace_nestedArrays (k : Nat) (rest : Bytes) :
    skipSpace (nestedArrays (k + 1) ++ rest) = nestedArrays (k + 1) ++ rest := by
  rw [nestedArrays_succ, List.replicate_succ]
  rfl

/-- Compaction copies nested arrays as they are. -/
theorem SqueezeFixed_nestedArrays (k : Nat) : SqueezeFixed (nestedArrays k) := by
  intro tail
  refine squeeze_out_run _ tail ?_
  intro b hb
  have hb' : b = 91 ∨ b = 93 := by
    rcases List.mem_append.mp hb with h | h
    · exact Or.inl (List.eq_of_mem_replicate h)
    · exact Or.inr (List.eq_of_mem_replicate h)
  rcases hb' with h | h <;> subst h <;> exact ⟨inertByte_of_toNat _ (by decide), rfl⟩

/-- Arrays nested as deep as the limit allows are valid JSON on their own, and
compaction returns them as they are. -/
theorem jsonCompact_nestedArrays (k : Nat) (hk : k + 1 ≤ maxNestingDepth) :
    jsonValid (nestedArrays (k + 1)) = true ∧
    jsonCompact (nestedArrays (k + 1)) = some (nestedArrays (k + 1)) := by
  have hsk := skipSpace_nestedArrays k []
  rw [List.append_nil] at hsk
  have hscan : scan (scanFuel (nestedArrays (k + 1))) 0 .value (nestedArrays (k + 1))
      = some [] := by
    have h := scan_nested k (scanFuel (nestedArrays (k + 1))) 0 []
      (by omega) (by rw [scanFuel, nestedArrays_length]; omega)
    rw [← nestedArrays_succ, List.append_nil] at h
    exact h
  have hv : jsonValid (nestedArrays (k + 1)) = true := by
    unfold jsonValid
    rw [hsk, hscan]
    rfl
  have hsq := SqueezeFixed_nestedArrays (k + 1) []
  have h3 : squeeze 0 0 ([] : Bytes) = [] := rfl
  rw [List.append_nil, h3, List.append_nil] at hsq
  refine ⟨hv, ?_⟩
  rw [jsonCompact, if_pos hv, hsq]

theorem objectText_snoc (m : String × Bytes) (ms : List (String × Bytes))
    (x : String × Bytes) :
    objectText (m :: (ms ++ [x])) = memberText m.1 m.2 ++ 44 :: objectText (ms ++ [x]) := by
  cases ms <;> rfl

/-- The decoder gives up on an object whose last value the scanner refuses. -/
theorem scanMembers_bad_value (k : String) (v : Bytes)
    (hbad : ∀ (n : Nat) (rest : Bytes), scan n 1 .value (skipSpace (v ++ rest)) = none) :
    ∀ (ms : List (String × Bytes)) (n : Nat) (rest : Bytes),
      (∀ x ∈ ms, ValueText 1 x.2) →
      scanMembers n (objectText (ms ++ [(k, v)]) ++ rest) = none := by
  intro ms
  induction ms with
  | nil =>
      intro n rest _
      cases n with
      | zero => rfl
      | succ n =>
          have h1 : objectText ([] ++ [(k, v)]) ++ rest
              = 34 :: (escBytes k.toList ++ 34 :: (58 :: (v ++ 125 :: rest))) := by
            simp [objectText, memberText, strBytes_jsonString]
          rw [h1, scanMembers_cons, if_pos rfl, scanString_escBytes]
          simp only [Option.some_bind]
          have hb : before (escBytes k.toList ++ 34 :: 58 :: (v ++ 125 :: rest))
              (58 :: (v ++ 125 :: rest)) 1 = escBytes k.toList := by
            have := before_append (escBytes k.toList) (58 :: (v ++ 125 :: rest)) 1 [34] rfl
            simpa using this
          have hlen : k.toList.length
              ≤ (escBytes k.toList ++ 34 :: 58 :: (v ++ 125 :: rest)).length := by
            have := escBytes_length k.toList
            simp only [List.length_append]
            omega
          rw [hb, unquote_escBytes k.toList _ hlen]
          simp only [Option.some_bind]
          have hsp : skipSpace (58 :: (v ++ 125 :: rest)) = 58 :: (v ++ 125 :: rest) := rfl
          rw [hsp]
          simp only [if_true]
          rw [hbad]
          rfl
  | cons m ms ih =>
      intro n rest hv
      cases n with
      | zero => rfl
      | succ n =>
          have hne : ∃ m1 ms1, ms ++ [(k, v)] = m1 :: ms1 := by
            cases ms with
            | nil => exact ⟨_, _, rfl⟩
            | cons a as => exact ⟨_, _, rfl⟩
          obtain ⟨m1, ms1, hm1⟩ := hne
          have hsk : skipSpace (objectText (ms ++ [(k, v)]) ++ rest)
              = objectText (ms ++ [(k, v)]) ++ rest := by
            rw [hm1]; exact skipSpace_objectText m1 ms1 rest
          have h1 : objectText (m :: ms ++ [(k, v)]) ++ rest
              = memberText m.1 m.2 ++ 44 :: (objectText (ms ++ [(k, v)]) ++ rest) := by
            rw [List.cons_append, objectText_snoc, List.append_assoc]
            rfl
          rw [h1, memberText_eq,
            members_key m.1.toList m.2 44 _ n (hv m (List.mem_cons_self _ _)) (Or.inl rfl),
            if_pos rfl, hsk, ih n rest (fun x hx => hv x (List.mem_cons_of_mem _ hx))]
          rfl

/-- The decoder returns an error for a written object whose last value the
scanner refuses. -/
theorem jsonUnmarshal_bad_value (k : String) (v : Bytes) (ms : List (String × Bytes))
    (hbad : ∀ (n : Nat) (rest : Bytes), scan n 1 .value (skipSpace (v ++ rest)) = none)
    (hv : ∀ x ∈ ms, ValueText 1 x.2) :
    jsonUnmarshal (123 :: objectText (ms ++ [(k, v)])) = none := by
  have hne : ∃ m1 ms1, ms ++ [(k, v)] = m1 :: ms1 := by
    cases ms with
    | nil => exact ⟨_, _, rfl⟩
    | cons a as => exact ⟨_, _, rfl⟩
  obtain ⟨m1, ms1, hm1⟩ := hne
  have hhead : ∃ t, objectText (ms ++ [(k, v)]) = 34 :: t := by
    rw [hm1]
    cases ms1 with
    | nil => exact ⟨_, by rw [objectText, memberText, strBytes_jsonString]; rfl⟩
    | cons m2 ms2 => exact ⟨_, by rw [objectText, memberText, strBytes_jsonString]; rfl⟩
  obtain ⟨t, ht⟩ := hhead
  have h0 : skipSpace (objectText (ms ++ [(k, v)])) = objectText (ms ++ [(k, v)]) := by
    have := skipSpace_objectText m1 ms1 []
    rw [List.append_nil, ← hm1] at this
    exact this
  have hs := scanMembers_bad_value k v hbad ms (123 :: objectText (ms ++ [(k, v)])).length [] hv
  rw [List.append_nil] at hs
  have hsk : skipSpace (123 :: objectText (ms ++ [(k, v)])) = 123 :: objectText (ms ++ [(k, v)]) :=
    rfl
  have hom : objectMembers (123 :: objectText (ms ++ [(k, v)])) = none := by
    unfold objectMembers
    rw [hsk]
    simp only [if_true, h0]
    rw [ht] at hs ⊢
    have hne : ¬ ((34 : UInt8) = 125) := by decide
    simp only [hne, if_false]
    rw [hs]
    rfl
  have hnull : ¬ ((skipSpace (123 :: objectText (ms ++ [(k, v)]))).take 4 = nullLit ∧
      skipSpace ((skipSpace (123 :: objectText (ms ++ [(k, v)]))).drop 4) = []) := by
    rintro ⟨h, _⟩
    rw [hsk] at h
    have := congrArg List.head? h
    simp [nullLit] at this
  rw [jsonUnmarshal, if_neg hnull, hom]
  rfl

/-! ## C17: the envelope round trip -/

/-- An envelope with a nil payload is written with the member `"payload":null`,
and the decoder hands the four bytes `null` to the payload. -/
theorem Marshal_nil_payload (e : Envelope) (hp : e.Payload = [])
    (hV : -(2 : Int) ^ 63 ≤ e.V ∧ e.V < (2 : Int) ^ 63)
    (hTS : -(2 : Int) ^ 63 ≤ e.TS ∧ e.TS < (2 : Int) ^ 63) :
    e.Marshal = some (123 :: objectText [(("v" : String), strBytes (toString e.V)),
      ("type", strBytes (jsonString e.MsgType)), ("id", strBytes (jsonString e.ID)),
      ("ts", strBytes (toString e.TS)), ("payload", nullLit)]) ∧
    e.Marshal.bind jsonUnmarshal = some { e.wire with Payload := nullLit } := by
  have hc : Compact nullLit := by decide
  have hM : e.Marshal = some (123 :: objectText [(("v" : String), strBytes (toString e.V)),
      ("type", strBytes (jsonString e.MsgType)), ("id", strBytes (jsonString e.ID)),
      ("ts", strBytes (toString e.TS)), ("payload", nullLit)]) := by
    rw [Marshal_text, hp]
    show Option.map _ (jsonCompact nullLit) = _
    rw [jsonCompact_of_Compact _ hc]
    rfl
  refine ⟨hM, ?_⟩
  rw [hM, Option.some_bind]
  exact unmarshal_objectText { e with Payload := nullLit } (ValueText_compact _ hc) hV hTS

/-- The round trip needs the bound on the nesting of the payload. The payload of
`RoundTrip.deep` is 10000 arrays deep: it is valid JSON, compaction leaves it as
it is and `Marshal` succeeds, but the decoder refuses the bytes `Marshal` wrote,
in which the payload stands one object deeper ("exceeded max depth"). -/
theorem Marshal_deep_payload :
    jsonValid RoundTrip.deep.Payload = true ∧
    jsonCompact RoundTrip.deep.Payload = some RoundTrip.deep.Payload ∧
    ¬ Compact RoundTrip.deep.Payload ∧
    ∃ data, RoundTrip.deep.Marshal = some data ∧ jsonUnmarshal data = none := by
  have hp : RoundTrip.deep.Payload = nestedArrays (9999 + 1) := rfl
  have hk : 9999 + 1 ≤ maxNestingDepth := by decide
  obtain ⟨hvalid, hcompact⟩ := jsonCompact_nestedArrays 9999 hk
  have hbad : ∀ (n : Nat) (rest : Bytes),
      scan n 1 .value (skipSpace (nestedArrays (9999 + 1) ++ rest)) = none := by
    intro n rest
    rw [skipSpace_nestedArrays, nestedArrays_succ]
    exact scan_nested_none 9999 n 1 _ (by decide)
  have hraw : rawMessageJSON (nestedArrays (9999 + 1)) = nestedArrays (9999 + 1) := by
    rw [nestedArrays, List.replicate_succ]
    rfl
  have hM : RoundTrip.deep.Marshal
      = some (123 :: objectText ([(("v" : String), strBytes (toString RoundTrip.deep.V)),
          ("type", strBytes (jsonString RoundTrip.deep.MsgType)),
          ("id", strBytes (jsonString RoundTrip.deep.ID)),
          ("ts", strBytes (toString RoundTrip.deep.TS))]
          ++ [("payload", nestedArrays (9999 + 1))])) := by
    rw [Marshal_text, hp, hraw, hcompact]
    rfl
  refine ⟨by rw [hp]; exact hvalid, by rw [hp]; exact hcompact, ?_, _, hM, ?_⟩
  · rintro ⟨hscan, _⟩
    rw [hp] at hscan
    have h := hbad (scanFuel (nestedArrays (9999 + 1))) []
    rw [skipSpace_nestedArrays, List.append_nil] at h
    rw [h] at hscan
    cases hscan
  · refine jsonUnmarshal_bad_value _ _ _ hbad ?_
    intro x hx
    simp only [List.mem_cons, List.mem_singleton, List.not_mem_nil, or_false] at hx
    rcases hx with rfl | rfl | rfl | rfl
    · exact ValueText_int _ _
    · rw [strBytes_jsonString]; exact ValueText_string _ _
    · rw [strBytes_jsonString]; exact ValueText_string _ _
    · exact ValueText_int _ _

/-- C17, as first stated, fails: `RoundTrip.spaced` carries the valid payload
`{"a": 1}`; `Marshal` succeeds and the decoder returns an envelope, but its
payload is the compacted text `{"a":1}`, one byte shorter than the original. -/
theorem Marshal_compacts_payload :
    jsonValid RoundTrip.spaced.Payload = true ∧
    (RoundTrip.spaced.Marshal.bind jsonUnmarshal).map (fun w => w.Payload)
      = some (strBytes "\x7b\"a\":1\x7d") ∧
    RoundTrip.spaced.Marshal.bind jsonUnmarshal ≠ some RoundTrip.spaced.wire := by
  decide

/-- C17 (corrected): for every envelope whose payload is a JSON value already in
the form `json.Marshal` writes, with at most 9999 arrays and objects open at
once inside it so that it can stand in the envelope object (`Compact`), whose
`type` and `id` are valid UTF-8 (any `String`) and whose `v` and `ts` lie
within `int64`, `Marshal` succeeds and decoding its bytes gives an envelope
equal to the original in all five fields. -/
theorem Marshal_round_trip (e : Envelope) (hp : Compact e.Payload)
    (hV : -(2 : Int) ^ 63 ≤ e.V ∧ e.V < (2 : Int) ^ 63)
    (hTS : -(2 : Int) ^ 63 ≤ e.TS ∧ e.TS < (2 : Int) ^ 63) :
    ∃ data, e.Marshal = some data ∧ jsonUnmarshal data = some e.wire := by
  have hc : jsonCompact e.Payload = some e.Payload := jsonCompact_of_Compact _ hp
  have hM : e.Marshal = some (123 :: objectText [(("v" : String), strBytes (toString e.V)),
      ("type", strBytes (jsonString e.MsgType)), ("id", strBytes (jsonString e.ID)),
      ("ts", strBytes (toString e.TS)), ("payload", e.Payload)]) := by
    rw [Marshal_text, rawMessageJSON_of_Compact _ hp, hc]
    rfl
  have hpayload : ValueText 1 e.Payload := ValueText_compact _ hp
  exact ⟨_, hM, unmarshal_objectText e hpayload hV hTS⟩

/-- The pong envelope, with its null payload, is within C17 as corrected. -/
theorem Marshal_round_trip_witness :
    Compact RoundTrip.pong.Payload ∧
    (-(2 : Int) ^ 63 ≤ RoundTrip.pong.V ∧ RoundTrip.pong.V < (2 : Int) ^ 63) ∧
    (-(2 : Int) ^ 63 ≤ RoundTrip.pong.TS ∧ RoundTrip.pong.TS < (2 : Int) ^ 63) ∧
    ∃ data, RoundTrip.pong.Marshal = some data ∧ jsonUnmarshal data = some RoundTrip.pong.wire :=
  ⟨by decide, by decide, by decide,
    Marshal_round_trip RoundTrip.pong (by decide) (by decide) (by decide)⟩

/-- Every envelope the relay builds with `NewEnvelope`, with a timestamp within
`int64`, marshals without error and decodes to itself. -/
theorem NewEnvelope_round_trip (t : String) (pv : PayloadValue) (id : String) (ts : Int)
    (hts : -(2 : Int) ^ 63 ≤ ts ∧ ts < (2 : Int) ^ 63) :
    ∃ data, (NewEnvelope t pv id ts).Marshal = some data ∧
      jsonUnmarshal data = some (NewEnvelope t pv id ts).wire :=
  ⟨_, NewEnvelope_Marshal t pv id ts,
    unmarshal_objectText (NewEnvelope t pv id ts)
      (ValueText_compact _ (Compact_jsonMarshal pv))
      (show -(2 : Int) ^ 63 ≤ (1 : Int) ∧ (1 : Int) < (2 : Int) ^ 63 by decide) hts⟩

/-! ## C18: the fields of a chat.error payload -/

theorem lookupKey_error (code message : String) (retryMs : Int) :
    lookupKey (strBytes "code") ((payloadMembers (.error ⟨code, message, retryMs⟩)).map
        (fun x => (strBytes x.1, x.2))) = some (strBytes (jsonString code)) ∧
    lookupKey (strBytes "message") ((payloadMembers (.error ⟨code, message, retryMs⟩)).map
        (fun x => (strBytes x.1, x.2))) = some (strBytes (jsonString message)) ∧
    lookupKey (strBytes "retry_after_ms") ((payloadMembers (.error ⟨code, message, retryMs⟩)).map
        (fun x => (strBytes x.1, x.2)))
      = (if retryMs = 0 then none else some (strBytes (toString retryMs))) := by
  have k1 : strBytes "code" ≠ strBytes "message" := by decide
  have k2 : strBytes "code" ≠ strBytes "retry_after_ms" := by decide
  have k3 : strBytes "message" ≠ strBytes "retry_after_ms" := by decide
  by_cases hr : retryMs = 0
  · simp [payloadMembers, hr, lookupKey, k1, k2, k3]
  · simp [payloadMembers, hr, lookupKey, k1, k2, k3]

set_option maxRecDepth 100000 in
/-- C18, as first stated, fails for the two replies it names. Agent `a1`, alone
in its session, sends a frame; `ForwardMessage` answers `PEER_OFFLINE` with
`retryMs` 0, and the payload of the frame it queued has the two members `code`
and `message` and no `retry_after_ms`. The `MESSAGE_TOO_LARGE` frame likewise. -/
theorem peer_offline_reply_omits_retry :
    Alone.reply.2 = .refused ErrPeerOffline 0 ∧
    (Alone.frame.bind jsonUnmarshal).map (fun w => w.Payload)
      = some (strBytes "\x7b\"code\":\"PEER_OFFLINE\",\"message\":\"Peer is not connected\"\x7d") ∧
    ((Alone.frame.bind jsonUnmarshal).bind fun w => objectMembers w.Payload).map
        (fun ms => (ms.map (fun m => m.1), lookupKey (strBytes "retry_after_ms") ms))
      = some ([strBytes "code", strBytes "message"], none) ∧
    (((jsonUnmarshal Alone.tooLarge).bind fun w => objectMembers w.Payload).map
        (fun ms => (ms.map (fun m => m.1), lookupKey (strBytes "retry_after_ms") ms))
      = some ([strBytes "code", strBytes "message"], none)) :=
  ⟨by decide, by decide, by decide, by decide⟩

/-- C18 (corrected): the frame of every `chat.error` envelope the relay builds
(`sendError` with any code, message and `retryMs`, a timestamp within `int64`)
decodes to an envelope of type `chat.error` whose payload is an object with the
members `code` and `message`, holding the two strings, followed by
`retry_after_ms`, holding `retryMs`, exactly when `retryMs` is not 0. -/
theorem chat_error_fields (code message : String) (retryMs : Int) (id : String) (ts : Int)
    (hts : -(2 : Int) ^ 63 ≤ ts ∧ ts < (2 : Int) ^ 63) :
    ∃ w ms, jsonUnmarshal (errorFrame code message retryMs id ts) = some w ∧
      w.MsgType = strBytes TypeChatError ∧
      objectMembers w.Payload = some ms ∧
      ms.map (fun m => m.1)
        = (if retryMs = 0 then [strBytes "code", strBytes "message"]
            else [strBytes "code", strBytes "message", strBytes "retry_after_ms"]) ∧
      lookupKey (strBytes "code") ms = some (strBytes (jsonString code)) ∧
      lookupKey (strBytes "message") ms = some (strBytes (jsonString message)) ∧
      lookupKey (strBytes "retry_after_ms") ms
        = (if retryMs = 0 then none else some (strBytes (toString retryMs))) := by
  have hV : -(2 : Int) ^ 63 ≤ (1 : Int) ∧ (1 : Int) < (2 : Int) ^ 63 := by decide
  have hM := NewEnvelope_Marshal TypeChatError (.error ⟨code, message, retryMs⟩) id ts
  have hU := unmarshal_objectText
    (NewEnvelope TypeChatError (.error ⟨code, message, retryMs⟩) id ts)
    (ValueText_compact _ (Compact_jsonMarshal (.error ⟨code, message, retryMs⟩))) hV hts
  have hf : errorFrame code message retryMs id ts
      = 123 :: objectText [(("v" : String), strBytes (toString ProtocolVersion)),
          ("type", strBytes (jsonString TypeChatError)), ("id", strBytes (jsonString id)),
          ("ts", strBytes (toString ts)),
          ("payload", jsonMarshal (.error ⟨code, message, retryMs⟩))] := by
    show ((NewEnvelope TypeChatError (.error ⟨code, message, retryMs⟩) id ts).Marshal).getD []
      = _
    rw [hM]
    rfl
  have hne : PayloadValue.error ⟨code, message, retryMs⟩ ≠ .null := by
    intro h
    cases h
  have hobj : objectMembers
        (NewEnvelope TypeChatError (.error ⟨code, message, retryMs⟩) id ts).wire.Payload
      = some ((payloadMembers (.error ⟨code, message, retryMs⟩)).map
          (fun x => (strBytes x.1, x.2))) := by
    show objectMembers (jsonMarshal (.error ⟨code, message, retryMs⟩)) = _
    rw [jsonMarshal_object _ hne]
    have hv := payloadMembers_values 1 (.error ⟨code, message, retryMs⟩)
    cases hm : payloadMembers (.error ⟨code, message, retryMs⟩) with
    | nil => simp [payloadMembers] at hm
    | cons m ms =>
        rw [hm] at hv
        exact objectMembers_objectText m ms (fun x hx => (hv x hx).1)
  obtain ⟨l1, l2, l3⟩ := lookupKey_error code message retryMs
  refine ⟨_, _, by rw [hf]; exact hU, rfl, hobj, ?_, l1, l2, l3⟩
  by_cases hr : retryMs = 0
  · simp [payloadMembers, hr]
  · simp [payloadMembers, hr]

/-- The reply for a full peer queue, with `retryMs` 1000, is within C18 as
corrected and carries all three members. -/
theorem chat_error_fields_witness :
    (-(2 : Int) ^ 63 ≤ (1762250000000 : Int) ∧ (1762250000000 : Int) < (2 : Int) ^ 63) ∧
    ∃ w ms, jsonUnmarshal (errorFrame ErrPeerOffline "Peer send buffer full" 1000
        "0b7e2f6a-93c1-4d58-a1f0-6c2d9e8b7a45" 1762250000000) = some w ∧
      w.MsgType = strBytes TypeChatError ∧
      objectMembers w.Payload = some ms ∧
      ms.map (fun m => m.1)
        = (if (1000 : Int) = 0 then [strBytes "code", strBytes "message"]
            else [strBytes "code", strBytes "message", strBytes "retry_after_ms"]) ∧
      lookupKey (strBytes "code") ms = some (strBytes (jsonString ErrPeerOffline)) ∧
      lookupKey (strBytes "message") ms = some (strBytes (jsonString "Peer send buffer full")) ∧
      lookupKey (strBytes "retry_after_ms") ms
        = (if (1000 : Int) = 0 then none else some (strBytes (toString (1000 : Int)))) :=
  ⟨by decide, chat_error_fields ErrPeerOffline "Peer send buffer full" 1000
    "0b7e2f6a-93c1-4d58-a1f0-6c2d9e8b7a45" 1762250000000 (by decide)⟩

/-! ## C21: the live-connection counter -/

section counter

variable {σ : Type}

/-- The three ways a call of `Authenticate` ends: an error with the hub as it
was, a session with the connection installed, a panic with the connection
installed. -/
theorem Authenticate_result (S : Store σ) (h : Hub σ) (c : ConnId)
    (parsed : Except String AuthPayload) (now : Time) :
    (∃ e, h.Authenticate S c parsed now = (h, .error e)) ∨
    (∃ auth, parsed = .ok auth ∧ (auth.Role = RolePhone ∨ auth.Role = RoleAgent) ∧
      16 ≤ strLen auth.Token ∧
      h.Authenticate S c parsed now
        = ((h.install c auth now).1, .ok (h.install c auth now).2)) ∨
    (∃ auth, parsed = .ok auth ∧ (auth.Role = RolePhone ∨ auth.Role = RoleAgent) ∧
      strLen auth.Token < 16 ∧ S.TokenExists h.store auth.Token = .ok true ∧
      h.Authenticate S c parsed now = ((h.install c auth now).1, .panic)) := by
  cases parsed with
  | error e => exact Or.inl ⟨e, rfl⟩
  | ok auth =>
      cases hst : S.TokenExists h.store auth.Token with
      | error e => exact Or.inl ⟨e, by simp [Hub.Authenticate, hst]⟩
      | ok present =>
          cases present with
          | false => exact Or.inl ⟨"invalid token", by simp [Hub.Authenticate, hst]⟩
          | true =>
              by_cases hr : auth.Role ≠ RolePhone ∧ auth.Role ≠ RoleAgent
              · exact Or.inl ⟨"invalid role: " ++ auth.Role, by
                  simp only [Hub.Authenticate, hst, if_pos hr]⟩
              · have hr' : auth.Role = RolePhone ∨ auth.Role = RoleAgent := by
                  by_cases h1 : auth.Role = RolePhone
                  · exact Or.inl h1
                  · by_cases h2 : auth.Role = RoleAgent
                    · exact Or.inr h2
                    · exact absurd ⟨h1, h2⟩ hr
                by_cases hl : strLen auth.Token < 16
                · exact Or.inr (Or.inr ⟨auth, rfl, hr', hl, hst, by
                    simp only [Hub.Authenticate, hst, if_neg hr, if_pos hl]⟩)
                · exact Or.inr (Or.inl ⟨auth, rfl, hr', Nat.le_of_not_lt hl, by
                    simp only [Hub.Authenticate, hst, if_neg hr, if_neg hl]⟩)

theorem install_sessions_eq (h : Hub σ) (c : ConnId) (auth : AuthPayload) (now : Time)
    (t : String) :
    (h.install c auth now).1.sessions t
      = if t = auth.Token then some (h.install c auth now).2 else h.sessions t := by
  by_cases ht : t = auth.Token
  · subst ht
    rw [if_pos rfl]
    exact install_sessions h c auth now
  · rw [if_neg ht]
    simp only [Hub.install, modifySess_sessions, closeExisting_sessions,
      lookupOrInsert_modifyConn, modifyConn_sessions]
    unfold Hub.lookupOrInsert
    split
    · rfl
    · simp [Function.update_noteq ht]

theorem install_fst_snd (h : Hub σ) (c : ConnId) (auth : AuthPayload) (now : Time) :
    (h.install c auth now).2 = (h.lookupOrInsert auth.Token).2 := by
  simp [Hub.install, lookupOrInsert_modifyConn]

theorem install_sess_other (h : Hub σ) (c : ConnId) (auth : AuthPayload) (now : Time)
    (s : SessId) (hs : s ≠ (h.install c auth now).2) (hlt : s < h.nextSess) :
    (h.install c auth now).1.sess s = h.sess s := by
  rw [install_fst_snd] at hs
  simp only [Hub.install, lookupOrInsert_modifyConn]
  rw [modifySess_sess_other _ _ _ _ hs]
  rw [closeExisting_sess]
  unfold Hub.lookupOrInsert
  cases h.sessions auth.Token with
  | some s0 => rfl
  | none =>
      show Function.update h.sess h.nextSess _ s = h.sess s
      rw [Function.update_noteq (Nat.ne_of_lt hlt)]

theorem install_Role_other (h : Hub σ) (c d : ConnId) (auth : AuthPayload) (now : Time)
    (hd : d ≠ c) : ((h.install c auth now).1.conn d).Role = (h.conn d).Role := by
  simp only [Hub.install, lookupOrInsert_modifyConn, modifySess_conn, closeExisting_Role]
  rw [modifyConn_conn_other _ _ _ _ hd, lookupOrInsert_conn]

/-- The session `install` writes to, before the write: the session the table had
for the token, or a fresh one with empty slots. -/
theorem install_sess_self (h : Hub σ) (c : ConnId) (auth : AuthPayload) (now : Time) :
    (h.sessions auth.Token = some (h.install c auth now).2 ∧
      (h.install c auth now).1.sess (h.install c auth now).2
        = (h.sess (h.install c auth now).2).SetConn auth.Role c now) ∨
    (h.sessions auth.Token = none ∧ (h.install c auth now).2 = h.nextSess ∧
      (h.install c auth now).1.sess (h.install c auth now).2
        = ({ Token := auth.Token, PhoneConn := none, AgentConn := none, LastActive := none } :
            Session).SetConn auth.Role c now) := by
  rw [install_sess, install_fst_snd]
  unfold Hub.lookupOrInsert
  cases hs : h.sessions auth.Token with
  | some s => left; simp
  | none => right; simp

theorem SetConn_PhoneConn (x : Session) (role : String) (c : ConnId) (now : Time) :
    (x.SetConn role c now).PhoneConn = if role = "phone" then some c else x.PhoneConn := by
  unfold Session.SetConn
  by_cases h : role = "phone" <;> simp [h]

theorem SetConn_AgentConn (x : Session) (role : String) (c : ConnId) (now : Time) :
    (x.SetConn role c now).AgentConn = if role = "phone" then x.AgentConn else some c := by
  unfold Session.SetConn
  by_cases h : role = "phone" <;> simp [h]

theorem countInv_start (st : σ) : (CountRun.start st).Inv := by
  refine ⟨NewHub_wellKeyed st, rfl, List.nodup_nil, ?_, ?_, ?_⟩
  · intro p hp; cases hp
  · intro t s c hs; simp [CountRun.start, NewHub] at hs
  · intro t s c hs; simp [CountRun.start, NewHub] at hs

/-- Installing a connection that was never given a session keeps the
invariant, with the connection live. -/
theorem countInv_install (r : CountRun σ) (hi : r.Inv) (c : ConnId) (auth : AuthPayload)
    (now : Time) (hr : auth.Role = RolePhone ∨ auth.Role = RoleAgent) (hc : c ∉ r.seen) :
    ({ hub := (r.hub.install c auth now).1,
       live := (c, (r.hub.install c auth now).2) :: r.live,
       seen := c :: r.seen } : CountRun σ).Inv := by
  obtain ⟨hk, hcount, hnodup, hseen, hphone, hagent⟩ := hi
  have hfresh : ∀ s0, (c, s0) ∉ r.live := fun s0 hm => hc (hseen _ hm)
  have hother : ∀ t s' , (r.hub.install c auth now).1.sessions t = some s' →
      s' ≠ (r.hub.install c auth now).2 →
      r.hub.sessions t = some s' ∧
        (r.hub.install c auth now).1.sess s' = r.hub.sess s' := by
    intro t s' hs hne
    rw [install_sessions_eq] at hs
    by_cases ht : t = auth.Token
    · rw [if_pos ht] at hs
      exact absurd (Option.some.inj hs).symm hne
    · rw [if_neg ht] at hs
      exact ⟨hs, install_sess_other _ _ _ _ _ hne (hk t s' hs).2⟩
  have hrole : ∀ d s0, (d, s0) ∈ r.live →
      ((r.hub.install c auth now).1.conn d).Role = (r.hub.conn d).Role := by
    intro d s0 hm
    apply install_Role_other
    rintro rfl
    exact hfresh s0 hm
  refine ⟨install_wellKeyed _ _ _ _ hk, ?_, ?_, ?_, ?_, ?_⟩
  · show (r.hub.install c auth now).1.connCount = _
    rw [install_connCount, hcount]
    simp
  · show (c :: r.live.map Prod.fst).Nodup
    refine List.nodup_cons.mpr ⟨?_, hnodup⟩
    intro hm
    obtain ⟨p, hp, hp1⟩ := List.mem_map.mp hm
    apply hfresh p.2
    rw [← hp1]
    exact hp
  · intro p hp
    rcases List.mem_cons.mp hp with rfl | hp
    · exact List.mem_cons_self _ _
    · exact List.mem_cons_of_mem _ (hseen p hp)
  · intro t s' c' hs hslot
    show (c', s') ∈ (c, (r.hub.install c auth now).2) :: r.live ∧ _
    by_cases hss : s' = (r.hub.install c auth now).2
    · subst hss
      rcases install_sess_self r.hub c auth now with ⟨hex, hsess⟩ | ⟨_, _, hsess⟩
      · rw [hsess, SetConn_PhoneConn] at hslot
        by_cases hp : auth.Role = "phone"
        · rw [if_pos hp] at hslot
          have : c' = c := (Option.some.inj hslot).symm
          subst this
          exact ⟨List.mem_cons_self _ _, by rw [install_Role]; exact hp⟩
        · rw [if_neg hp] at hslot
          obtain ⟨hm, hro⟩ := hphone _ _ _ hex hslot
          exact ⟨List.mem_cons_of_mem _ hm, by rw [hrole _ _ hm]; exact hro⟩
      · rw [hsess, SetConn_PhoneConn] at hslot
        by_cases hp : auth.Role = "phone"
        · rw [if_pos hp] at hslot
          have : c' = c := (Option.some.inj hslot).symm
          subst this
          exact ⟨List.mem_cons_self _ _, by rw [install_Role]; exact hp⟩
        · rw [if_neg hp] at hslot
          cases hslot
    · obtain ⟨hs0, hsess⟩ := hother t s' hs hss
      rw [hsess] at hslot
      obtain ⟨hm, hro⟩ := hphone _ _ _ hs0 hslot
      exact ⟨List.mem_cons_of_mem _ hm, by rw [hrole _ _ hm]; exact hro⟩
  · intro t s' c' hs hslot
    show (c', s') ∈ (c, (r.hub.install c auth now).2) :: r.live ∧ _
    have hag : auth.Role ≠ "phone" → auth.Role = RoleAgent := by
      intro hn
      rcases hr with h | h
      · exact absurd h hn
      · exact h
    by_cases hss : s' = (r.hub.install c auth now).2
    · subst hss
      rcases install_sess_self r.hub c auth now with ⟨hex, hsess⟩ | ⟨_, _, hsess⟩
      · rw [hsess, SetConn_AgentConn] at hslot
        by_cases hp : auth.Role = "phone"
        · rw [if_pos hp] at hslot
          obtain ⟨hm, hro⟩ := hagent _ _ _ hex hslot
          exact ⟨List.mem_cons_of_mem _ hm, by rw [hrole _ _ hm]; exact hro⟩
        · rw [if_neg hp] at hslot
          have : c' = c := (Option.some.inj hslot).symm
          subst this
          exact ⟨List.mem_cons_self _ _, by rw [install_Role]; exact hag hp⟩
      · rw [hsess, SetConn_AgentConn] at hslot
        by_cases hp : auth.Role = "phone"
        · rw [if_pos hp] at hslot
          cases hslot
        · rw [if_neg hp] at hslot
          have : c' = c := (Option.some.inj hslot).symm
          subst this
          exact ⟨List.mem_cons_self _ _, by rw [install_Role]; exact hag hp⟩
    · obtain ⟨hs0, hsess⟩ := hother t s' hs hss
      rw [hsess] at hslot
      obtain ⟨hm, hro⟩ := hagent _ _ _ hs0 hslot
      exact ⟨List.mem_cons_of_mem _ hm, by rw [hrole _ _ hm]; exact hro⟩

theorem ClearConn_PhoneConn (x : Session) (role : String) :
    (x.ClearConn role).PhoneConn = if role = "phone" then none else x.PhoneConn := by
  unfold Session.ClearConn
  by_cases h : role = "phone" <;> simp [h]

theorem ClearConn_AgentConn (x : Session) (role : String) :
    (x.ClearConn role).AgentConn = if role = "phone" then x.AgentConn else none := by
  unfold Session.ClearConn
  by_cases h : role = "phone" <;> simp [h]

/-- `Disconnect` of a live connection, with its session, keeps the invariant,
with the connection no longer live. -/
theorem countInv_disconnect (S : Store σ) (r : CountRun σ) (hi : r.Inv) (s : SessId)
    (c : ConnId) (id : String) (ts : Int) (hm : (c, s) ∈ r.live) :
    ({ r with hub := r.hub.Disconnect (some s) (some c) id ts,
              live := r.live.erase (c, s) } : CountRun σ).Inv := by
  obtain ⟨hk, hcount, hnodup, hseen, hphone, hagent⟩ := hi
  have hsess : ∀ s', (r.hub.Disconnect (some s) (some c) id ts).sess s'
      = if s' = s then (r.hub.sess s).ClearConn (r.hub.conn c).Role else r.hub.sess s' := by
    intro s'
    rw [Disconnect_sess]
    by_cases h : s' = s
    · subst h; simp
    · rw [Function.update_noteq h, if_neg h]
  refine ⟨(WellKeyed_preserved S r.hub hk).2.1 _ _ _ _, ?_, ?_, ?_, ?_, ?_⟩
  · show (r.hub.Disconnect (some s) (some c) id ts).connCount
      = ((r.live.erase (c, s)).length : Int)
    rw [Disconnect_connCount, hcount, List.length_erase_of_mem hm]
    have hpos : 0 < r.live.length := List.length_pos_of_mem hm
    omega
  · show ((r.live.erase (c, s)).map Prod.fst).Nodup
    exact hnodup.sublist ((List.erase_sublist _ _).map _)
  · intro p hp
    exact hseen p (List.mem_of_mem_erase hp)
  · intro t s' c' hs hslot
    show (c', s') ∈ r.live.erase (c, s) ∧
      ((r.hub.Disconnect (some s) (some c) id ts).conn c').Role = RolePhone
    rw [Disconnect_Role]
    have hs0 : r.hub.sessions t = some s' := by
      rw [Disconnect_sessions] at hs; exact hs
    have hslot' : ((r.hub.Disconnect (some s) (some c) id ts).sess s').PhoneConn = some c' :=
      hslot
    rw [hsess] at hslot'
    by_cases h : s' = s
    · subst h
      rw [if_pos rfl, ClearConn_PhoneConn] at hslot'
      by_cases hp : (r.hub.conn c).Role = "phone"
      · rw [if_pos hp] at hslot'; cases hslot'
      · rw [if_neg hp] at hslot'
        obtain ⟨hm', hro⟩ := hphone _ _ _ hs0 hslot'
        refine ⟨(List.mem_erase_of_ne ?_).mpr hm', hro⟩
        intro he
        have : c' = c := congrArg Prod.fst he
        subst this
        exact hp hro
    · rw [if_neg h] at hslot'
      obtain ⟨hm', hro⟩ := hphone _ _ _ hs0 hslot'
      refine ⟨(List.mem_erase_of_ne ?_).mpr hm', hro⟩
      intro he
      exact h (congrArg Prod.snd he)
  · intro t s' c' hs hslot
    show (c', s') ∈ r.live.erase (c, s) ∧
      ((r.hub.Disconnect (some s) (some c) id ts).conn c').Role = RoleAgent
    rw [Disconnect_Role]
    have hs0 : r.hub.sessions t = some s' := by
      rw [Disconnect_sessions] at hs; exact hs
    have hslot' : ((r.hub.Disconnect (some s) (some c) id ts).sess s').AgentConn = some c' :=
      hslot
    rw [hsess] at hslot'
    by_cases h : s' = s
    · subst h
      rw [if_pos rfl, ClearConn_AgentConn] at hslot'
      by_cases hp : (r.hub.conn c).Role = "phone"
      · rw [if_pos hp] at hslot'
        obtain ⟨hm', hro⟩ := hagent _ _ _ hs0 hslot'
        refine ⟨(List.mem_erase_of_ne ?_).mpr hm', hro⟩
        intro he
        have : c' = c := congrArg Prod.fst he
        subst this
        rw [hro] at hp
        exact absurd hp (by decide)
      · rw [if_neg hp] at hslot'; cases hslot'
    · rw [if_neg h] at hslot'
      obtain ⟨hm', hro⟩ := hagent _ _ _ hs0 hslot'
      refine ⟨(List.mem_erase_of_ne ?_).mpr hm', hro⟩
      intro he
      exact h (congrArg Prod.snd he)

theorem evict_Role (h : Hub σ) (t : String) (d : ConnId) :
    ((h.evict t).conn d).Role = (h.conn d).Role := by
  have hclose : ∀ (k : Hub σ) (e : ConnId),
      ((k.modifyConn e Connection.CloseDone).conn d).Role = (k.conn d).Role := by
    intro k e
    by_cases hd : d = e
    · subst hd; simp [Connection.CloseDone]
    · rw [modifyConn_conn_other _ _ _ _ hd]
  unfold Hub.evict
  cases h.sessions t with
  | none => rfl
  | some s =>
      simp only
      cases (h.sess s).PhoneConn <;> cases (h.sess s).AgentConn <;> simp [hclose]

theorem evict_connCount (h : Hub σ) (t : String) : (h.evict t).connCount = h.connCount := by
  unfold Hub.evict
  cases h.sessions t with
  | none => rfl
  | some s =>
      simp only
      cases (h.sess s).PhoneConn <;> cases (h.sess s).AgentConn <;> rfl

theorem evict_nextSess (h : Hub σ) (t : String) : (h.evict t).nextSess = h.nextSess := by
  unfold Hub.evict
  cases h.sessions t with
  | none => rfl
  | some s =>
      simp only
      cases (h.sess s).PhoneConn <;> cases (h.sess s).AgentConn <;> rfl

/-- A hub that differs only by entries missing from the table, done signals,
queues and the Store keeps the invariant. -/
theorem countInv_shrink (r : CountRun σ) (hi : r.Inv) (k : Hub σ)
    (hsessions : ∀ t s, k.sessions t = some s → r.hub.sessions t = some s)
    (hsess : k.sess = r.hub.sess) (hnext : k.nextSess = r.hub.nextSess)
    (hcount : k.connCount = r.hub.connCount)
    (hrole : ∀ d, (k.conn d).Role = (r.hub.conn d).Role) :
    ({ r with hub := k } : CountRun σ).Inv := by
  obtain ⟨hk, hc, hnodup, hseen, hphone, hagent⟩ := hi
  refine ⟨?_, ?_, hnodup, hseen, ?_, ?_⟩
  · intro t s hs
    have := hk t s (hsessions t s hs)
    show (k.sess s).Token = t ∧ s < k.nextSess
    rw [hsess, hnext]
    exact this
  · show k.connCount = _
    rw [hcount]; exact hc
  · intro t s c hs hslot
    show (c, s) ∈ r.live ∧ (k.conn c).Role = RolePhone
    rw [hrole]
    have hslot' : (k.sess s).PhoneConn = some c := hslot
    rw [hsess] at hslot'
    exact hphone t s c (hsessions t s hs) hslot'
  · intro t s c hs hslot
    show (c, s) ∈ r.live ∧ (k.conn c).Role = RoleAgent
    rw [hrole]
    have hslot' : (k.sess s).AgentConn = some c := hslot
    rw [hsess] at hslot'
    exact hagent t s c (hsessions t s hs) hslot'

theorem countInv_deleteToken (S : Store σ) (r : CountRun σ) (hi : r.Inv) (token : String) :
    ({ r with hub := (r.hub.DeleteToken S token).1 } : CountRun σ).Inv := by
  apply countInv_shrink r hi
  · intro t s hs
    have hs' : (r.hub.evict token).sessions t = some s := hs
    rw [evict_sessions] at hs'
    by_cases ht : t = token
    · rw [if_pos ht] at hs'; cases hs'
    · rw [if_neg ht] at hs'; exact hs'
  · exact evict_sess _ _
  · exact evict_nextSess _ _
  · exact evict_connCount _ _
  · intro d; exact evict_Role _ _ d

theorem countInv_cleanIdle (r : CountRun σ) (hi : r.Inv) (clock : String → Time) :
    ({ r with hub := r.hub.cleanIdleSessions clock } : CountRun σ).Inv := by
  apply countInv_shrink r hi
  · intro t s hs
    have hs' : (match r.hub.sessions t with
      | some s => if (r.hub.sess s).IsIdle IdleSessionTimeout (clock t) then none else some s
      | none => none) = some s := hs
    cases hx : r.hub.sessions t with
    | none => rw [hx] at hs'; cases hs'
    | some u =>
        rw [hx] at hs'
        simp only at hs'
        by_cases hidle : (r.hub.sess u).IsIdle IdleSessionTimeout (clock t) = true
        · rw [if_pos hidle] at hs'; cases hs'
        · rw [if_neg hidle] at hs'; exact hs'
  · rfl
  · rfl
  · rfl
  · intro d; rfl

theorem mem_holders (x : Session) (c : ConnId) :
    c ∈ x.holders ↔ x.PhoneConn = some c ∨ x.AgentConn = some c := by
  unfold Session.holders
  cases x.PhoneConn <;> cases x.AgentConn <;> simp [Option.toList, eq_comm]

/-- The sessions listed by `tableSessions` are the sessions of the table. -/
theorem mem_tableSessions (h : Hub σ) (hk : h.WellKeyed) (s : SessId) :
    s ∈ h.tableSessions ↔ ∃ t, h.sessions t = some s := by
  unfold Hub.tableSessions
  rw [List.mem_filter, List.mem_range, decide_eq_true_iff]
  constructor
  · rintro ⟨_, hs⟩
    exact ⟨_, hs⟩
  · rintro ⟨t, ht⟩
    obtain ⟨htok, hlt⟩ := hk t s ht
    exact ⟨hlt, by rw [htok]; exact ht⟩

/-- Under the invariant the occupied slots are no more than the live
connections: the connections in the slots are live and pairwise different. -/
theorem occupiedSlots_le (r : CountRun σ) (hi : r.Inv) :
    r.hub.occupiedSlots ≤ r.live.length := by
  obtain ⟨hk, _, hnodup, _, hphone, hagent⟩ := hi
  have hlive : ∀ s, s ∈ r.hub.tableSessions → ∀ c, c ∈ (r.hub.sess s).holders →
      (c, s) ∈ r.live ∧ ((r.hub.sess s).PhoneConn = some c ∧ (r.hub.conn c).Role = RolePhone ∨
        (r.hub.sess s).AgentConn = some c ∧ (r.hub.conn c).Role = RoleAgent) := by
    intro s hs c hc
    obtain ⟨t, ht⟩ := (mem_tableSessions r.hub hk s).mp hs
    rcases (mem_holders _ c).mp hc with h | h
    · obtain ⟨hm, hro⟩ := hphone t s c ht h
      exact ⟨hm, Or.inl ⟨h, hro⟩⟩
    · obtain ⟨hm, hro⟩ := hagent t s c ht h
      exact ⟨hm, Or.inr ⟨h, hro⟩⟩
  have hfun : ∀ c s s', (c, s) ∈ r.live → (c, s') ∈ r.live → s = s' := by
    intro c s s' h1 h2
    have := List.inj_on_of_nodup_map hnodup h1 h2 rfl
    exact congrArg Prod.snd this
  have hnd : (r.hub.tableSessions.flatMap (fun s => (r.hub.sess s).holders)).Nodup := by
    rw [List.nodup_flatMap]
    constructor
    · intro s hs
      unfold Session.holders
      cases hp : (r.hub.sess s).PhoneConn with
      | none => cases (r.hub.sess s).AgentConn <;> simp [Option.toList]
      | some p =>
          cases ha : (r.hub.sess s).AgentConn with
          | none => simp [Option.toList]
          | some a =>
              have h1 := (hlive s hs p ((mem_holders _ p).mpr (Or.inl hp))).1
              have h2 := (hlive s hs a ((mem_holders _ a).mpr (Or.inr ha))).1
              obtain ⟨t, ht⟩ := (mem_tableSessions r.hub hk s).mp hs
              have r1 := (hphone t s p ht hp).2
              have r2 := (hagent t s a ht ha).2
              have hne : p ≠ a := by
                rintro rfl
                rw [r1] at r2
                exact absurd r2 (by decide)
              simp [Option.toList, hne]
    · have hts : r.hub.tableSessions.Nodup := (List.nodup_range _).filter _
      refine hts.pairwise_of_forall_ne ?_
      intro s hs s' hs' hne
      intro c hc hc'
      exact hne (hfun c s s' (hlive s hs c hc).1 (hlive s' hs' c hc').1)
  have hsub : r.hub.tableSessions.flatMap (fun s => (r.hub.sess s).holders)
      ⊆ r.live.map Prod.fst := by
    intro c hc
    obtain ⟨s, hs, hcs⟩ := List.mem_flatMap.mp hc
    exact List.mem_map.mpr ⟨(c, s), (hlive s hs c hcs).1, rfl⟩
  have := (hnd.subperm hsub).length_le
  rw [List.length_map] at this
  exact this

/-- One allowed step that does not panic keeps the invariant. -/
theorem countInv_step (S : Store σ) (r : CountRun σ) (hi : r.Inv) (st : HubStep)
    (ha : r.Allowed S st) (hp : r.NoPanic S [st]) : (r.step S st).Inv := by
  cases st with
  | authenticate c parsed now =>
      have hnp : (r.hub.Authenticate S c parsed now).2 ≠ .panic := hp.1
      rcases Authenticate_result S r.hub c parsed now with ⟨e, he⟩ | ⟨auth, _, hr, _, he⟩ |
          ⟨auth, _, _, _, _, he⟩
      · have hstep : r.step S (.authenticate c parsed now) = r := by
          simp only [CountRun.step, he]
        rw [hstep]
        exact hi
      · have hseen : c ∉ r.seen := ha ⟨_, by rw [he]⟩
        have hstep : r.step S (.authenticate c parsed now)
            = { hub := (r.hub.install c auth now).1,
                live := (c, (r.hub.install c auth now).2) :: r.live,
                seen := c :: r.seen } := by
          simp only [CountRun.step, he]
        rw [hstep]
        exact countInv_install r hi c auth now hr hseen
      · rw [he] at hnp
        exact absurd rfl hnp
  | disconnect s c id ts => exact countInv_disconnect S r hi s c id ts ha
  | deleteToken token => exact countInv_deleteToken S r hi token
  | cleanIdle clock => exact countInv_cleanIdle r hi clock

theorem countInv_exec (S : Store σ) (steps : List HubStep) :
    ∀ r : CountRun σ, r.Inv → r.Disciplined S steps → r.NoPanic S steps →
      (r.exec S steps).Inv := by
  induction steps with
  | nil => intro r hi _ _; exact hi
  | cons st rest ih =>
      intro r hi hd hp
      exact ih (r.step S st) (countInv_step S r hi st hd.1 ⟨hp.1, trivial⟩) hd.2 hp.2

theorem Disciplined_take (S : Store σ) (steps : List HubStep) :
    ∀ (r : CountRun σ) (k : Nat), r.Disciplined S steps → r.Disciplined S (steps.take k) := by
  induction steps with
  | nil => intro r k h; simpa using h
  | cons st rest ih =>
      intro r k h
      cases k with
      | zero => exact trivial
      | succ k => exact ⟨h.1, ih (r.step S st) k h.2⟩

theorem NoPanic_take (S : Store σ) (steps : List HubStep) :
    ∀ (r : CountRun σ) (k : Nat), r.NoPanic S steps → r.NoPanic S (steps.take k) := by
  induction steps with
  | nil => intro r k h; simpa using h
  | cons st rest ih =>
      intro r k h
      cases k with
      | zero => exact trivial
      | succ k => exact ⟨h.1, ih (r.step S st) k h.2⟩

/-- C21. On every run of `Authenticate`, `Disconnect`, `DeleteToken` and
`cleanIdleSessions` steps that keeps the discipline and in which no call of
`Authenticate` ends in a panic (a panic ends the process, so such a run has no
later state), at every point of the run, after any number `k` of its steps: the
counter is the number of live connections, it is not negative, and it is at
least the number of occupied slots over the sessions in the table. -/
theorem connCount_of_disciplined (S : Store σ) (st : σ) (steps : List HubStep)
    (hd : (CountRun.start st).Disciplined S steps) (hp : (CountRun.start st).NoPanic S steps)
    (k : Nat) :
    ((CountRun.start st).exec S (steps.take k)).hub.connCount
        = (((CountRun.start st).exec S (steps.take k)).live.length : Int) ∧
      0 ≤ ((CountRun.start st).exec S (steps.take k)).hub.connCount ∧
      (((CountRun.start st).exec S (steps.take k)).hub.occupiedSlots : Int)
        ≤ ((CountRun.start st).exec S (steps.take k)).hub.connCount := by
  have hi := countInv_exec S (steps.take k) (CountRun.start st) (countInv_start st)
    (Disciplined_take S steps _ k hd) (NoPanic_take S steps _ k hp)
  have hle := occupiedSlots_le _ hi
  obtain ⟨_, hcount, _⟩ := hi
  refine ⟨hcount, ?_, ?_⟩
  · rw [hcount]; exact Int.ofNat_nonneg _
  · rw [hcount]; exact Int.ofNat_le.mpr hle

/-- Witness for C21. The takeover, with the deferred `Disconnect` of each
connection, a revocation and a pass of the reaper at the end, keeps the
discipline and does not panic. After the three calls of `Authenticate` the
counter is 3 with two occupied slots, at the end it is 0, and the counter is
the number of live connections after the first three steps. -/
theorem connCount_of_disciplined_example :
    (CountRun.start Takeover.store0).Disciplined mockStore Counted.steps ∧
    (CountRun.start Takeover.store0).NoPanic mockStore Counted.steps ∧
    ((CountRun.start Takeover.store0).exec mockStore (Counted.steps.take 3)).hub.connCount = 3 ∧
    ((CountRun.start Takeover.store0).exec mockStore (Counted.steps.take 3)).hub.occupiedSlots
      = 2 ∧
    ((CountRun.start Takeover.store0).exec mockStore Counted.steps).hub.connCount = 0 ∧
    (((CountRun.start Takeover.store0).exec mockStore (Counted.steps.take 3)).hub.connCount
        = (((CountRun.start Takeover.store0).exec mockStore
            (Counted.steps.take 3)).live.length : Int) ∧
      0 ≤ ((CountRun.start Takeover.store0).exec mockStore (Counted.steps.take 3)).hub.connCount ∧
      (((CountRun.start Takeover.store0).exec mockStore
          (Counted.steps.take 3)).hub.occupiedSlots : Int)
        ≤ ((CountRun.start Takeover.store0).exec mockStore
            (Counted.steps.take 3)).hub.connCount) := by
  have hmem : ∀ (r : CountRun MockState) (s : SessId) (c : ConnId) (id : String) (ts : Int),
      (c, s) ∈ r.live → r.Allowed mockStore (.disconnect s c id ts) := fun _ _ _ _ _ h => h
  have hd : (CountRun.start Takeover.store0).Disciplined mockStore Counted.steps :=
    ⟨fun _ => by decide, fun _ => by decide, fun _ => by decide,
      hmem _ _ _ _ _ (by decide), hmem _ _ _ _ _ (by decide), hmem _ _ _ _ _ (by decide),
      trivial, trivial, trivial⟩
  have hp : (CountRun.start Takeover.store0).NoPanic mockStore Counted.steps :=
    ⟨by decide, by decide, by decide, trivial, trivial, trivial, trivial, trivial, trivial⟩
  exact ⟨hd, hp, by decide, by decide, by decide,
    connCount_of_disciplined mockStore Takeover.store0 Counted.steps hd hp 3⟩

/-- A run in which a call of `Authenticate` panics: a Store filled by hand with
the five-byte token `t0k3n`, and a phone that authenticates with it.
`Authenticate` panics at the slice `token[:16]` after it has counted the
connection, which ends the process; at that point no connection was given a
session, the counter is 1 and one slot is occupied. -/
theorem short_token_run_miscounts :
    (CountRun.start ShortToken.store0).Disciplined mockStore ShortToken.steps ∧
    ShortToken.auth.2 = AuthResult.panic ∧
    ((CountRun.start ShortToken.store0).exec mockStore ShortToken.steps).seen = [] ∧
    ((CountRun.start ShortToken.store0).exec mockStore ShortToken.steps).live = [] ∧
    ((CountRun.start ShortToken.store0).exec mockStore ShortToken.steps).hub.connCount = 1 ∧
    ((CountRun.start ShortToken.store0).exec mockStore ShortToken.steps).hub.occupiedSlots
      = 1 := by
  have hpanic : ShortToken.auth.2 = AuthResult.panic := by decide
  refine ⟨⟨?_, trivial⟩, hpanic, by decide, by decide, by decide, by decide⟩
  rintro ⟨s, hs⟩
  have hs' : ShortToken.auth.2 = AuthResult.ok s := hs
  rw [hpanic] at hs'
  cases hs'

end counter

/-! ## C22: Authenticate on a short token -/

section shorttoken

variable {σ : Type}

theorem hexDigit_size (n : Nat) : (hexDigit n).utf8Size = 1 := by
  have h := hexDigit_mem n
  have hall : ∀ c ∈ "0123456789abcdef".toList, c.utf8Size = 1 := by decide
  exact hall _ h

theorem utf8Len_hex (bs : Bytes) : String.utf8Len (bs.flatMap hexByte) = 2 * bs.length := by
  induction bs with
  | nil => rfl
  | cons b bs ih =>
      simp only [List.flatMap_cons, hexByte, List.cons_append, List.nil_append,
        String.utf8Len_cons, hexDigit_size, ih, List.length_cons]
      omega

/-- A token minted from 16 random bytes has 40 bytes, so the slice `token[:16]`
is in range for it. -/
theorem GenerateToken_length (b : Bytes) (nanos : Int) (hb : b.length = 16) :
    strLen (GenerateToken (some b) nanos) = 40 := by
  show ("oc_pair_" ++ hexBytes b).utf8ByteSize = 40
  have : ("oc_pair_" ++ hexBytes b).utf8ByteSize
      = String.utf8Len ("oc_pair_".toList ++ (b.flatMap hexByte)) := rfl
  rw [this, String.utf8Len_append, utf8Len_hex, hb]
  rfl

/-- When `Authenticate` panics: exactly when the payload parses, the token is in
the Store, the role is one of the two, and the token has fewer than 16 bytes. -/
theorem Authenticate_panic_iff (S : Store σ) (h : Hub σ) (c : ConnId)
    (parsed : Except String AuthPayload) (now : Time) :
    (h.Authenticate S c parsed now).2 = .panic ↔
      ∃ auth, parsed = .ok auth ∧ S.TokenExists h.store auth.Token = .ok true ∧
        (auth.Role = RolePhone ∨ auth.Role = RoleAgent) ∧ strLen auth.Token < 16 := by
  constructor
  · intro hp
    rcases Authenticate_result S h c parsed now with ⟨e, he⟩ | ⟨auth, _, _, _, he⟩ |
        ⟨auth, hpa, hr, hl, hst, _⟩
    · rw [he] at hp; cases hp
    · rw [he] at hp; cases hp
    · exact ⟨auth, hpa, hst, hr, hl⟩
  · rintro ⟨auth, rfl, hst, hr, hl⟩
    have hr' : ¬ (auth.Role ≠ RolePhone ∧ auth.Role ≠ RoleAgent) := by
      rintro ⟨h1, h2⟩
      rcases hr with h | h
      · exact h1 h
      · exact h2 h
    simp only [Hub.Authenticate, hst, if_neg hr', if_pos hl]

/-- C22. The five-byte token `t0k3n` is in the Store and the role is `agent`,
yet `Authenticate` returns no session: it panics at the slice `token[:16]` of
its log line, after it has put the connection into the agent slot and counted
it. -/
theorem Authenticate_short_token_agent_panics :
    mockStore.TokenExists (NewHub ShortToken.store0).store ShortToken.token = .ok true ∧
    strLen ShortToken.token = 5 ∧
    ShortToken.authAgent.2 = AuthResult.panic ∧
    (ShortToken.authAgent.1.sess 0).AgentConn = some 2 ∧
    ShortToken.authAgent.1.connCount = 1 :=
  ⟨rfl, by decide, by decide, by decide, by decide⟩

end shorttoken

/-! ## The tokens of the Store -/

section longtokens

variable {σ : Type}

theorem mockStore_tokenFrame : mockStore.TokenFrame where
  create_other st t u hne := by simp [mockStore, hne]
  delete_sub st t u h := by
    by_cases hu : u = t
    · subst hu; simp [mockStore] at h
    · simpa [mockStore, hu] using h
  record_tokens st t n u := rfl

theorem install_store (h : Hub σ) (conn : ConnId) (auth : AuthPayload) (now : Time) :
    (h.install conn auth now).1.store = h.store := by
  simp [Hub.install]

theorem Authenticate_store (S : Store σ) (h : Hub σ) (conn : ConnId)
    (parsed : Except String AuthPayload) (now : Time) :
    (h.Authenticate S conn parsed now).1.store = h.store := by
  rcases Authenticate_result S h conn parsed now with ⟨e, he⟩ | ⟨auth, _, _, _, he⟩ |
      ⟨auth, _, _, _, _, he⟩
  · rw [he]
  · rw [he]; exact install_store h conn auth now
  · rw [he]; exact install_store h conn auth now

theorem Disconnect_store (h : Hub σ) (session : Option SessId) (conn : Option ConnId)
    (id : String) (ts : Int) : (h.Disconnect session conn id ts).store = h.store := by
  cases session with
  | none => rfl
  | some s =>
    cases conn with
    | none => rfl
    | some c =>
      simp only [Hub.Disconnect]
      split <;> simp

/-- A fresh hub on the empty `mockStore` holds no token at all. -/
theorem LongTokens_NewHub : (NewHub newMockStore).LongTokens mockStore := by
  intro t ht
  simp [NewHub, mockStore, newMockStore] at ht

/-- Every operation of the hub keeps the tokens of the Store at 16 bytes or
more: `CreateToken` adds at most the token `GenerateToken` minted, which has 40
bytes when `rand.Read` filled its 16, and 16 or more whenever `CreateToken`
returns a token; no other operation adds one. -/
theorem LongTokens_preserved (S : Store σ) (hf : S.TokenFrame) (h : Hub σ)
    (hl : h.LongTokens S) :
    (∀ rand nanos, 16 ≤ strLen (GenerateToken rand nanos) →
      (h.CreateToken S rand nanos).1.LongTokens S) ∧
    (∀ b nanos, b.length = 16 → (h.CreateToken S (some b) nanos).1.LongTokens S) ∧
    (∀ rand nanos token, (h.CreateToken S rand nanos).2 = .ok token →
      (h.CreateToken S rand nanos).1.LongTokens S) ∧
    (∀ token, (h.DeleteToken S token).1.LongTokens S) ∧
    (∀ conn parsed now, (h.Authenticate S conn parsed now).1.LongTokens S) ∧
    (∀ session conn id ts, (h.Disconnect session conn id ts).LongTokens S) ∧
    (∀ session sender raw now id ts,
      (h.ForwardMessage S session sender raw now id ts).1.LongTokens S) ∧
    (∀ clock, (h.cleanIdleSessions clock).LongTokens S) := by
  have hcreate : ∀ rand nanos, 16 ≤ strLen (GenerateToken rand nanos) →
      (h.CreateToken S rand nanos).1.LongTokens S := by
    intro rand nanos hlen t ht
    have hstore : (h.CreateToken S rand nanos).1.store
        = (S.CreateToken h.store (GenerateToken rand nanos)).1 := by
      unfold Hub.CreateToken
      simp only
      split
      · rename_i st e heq; rw [heq]
      · rename_i st heq
        split <;> rw [heq]
    rw [hstore] at ht
    by_cases hu : t = GenerateToken rand nanos
    · rw [hu]; exact hlen
    · rw [hf.create_other _ _ _ hu] at ht
      exact hl t ht
  refine ⟨hcreate, ?_, ?_, ?_, ?_, ?_, ?_, ?_⟩
  · intro b nanos hb
    exact hcreate (some b) nanos (by rw [GenerateToken_length b nanos hb]; decide)
  · intro rand nanos token hok
    refine hcreate rand nanos ?_
    unfold Hub.CreateToken at hok
    simp only at hok
    split at hok
    · cases hok
    · split at hok
      · cases hok
      · rename_i hn; exact Nat.not_lt.mp hn
  · intro token t ht
    have hstore : (h.DeleteToken S token).1.store = (S.DeleteToken h.store token).1 := by
      simp [Hub.DeleteToken]
    rw [hstore] at ht
    exact hl t (hf.delete_sub _ _ _ ht)
  · intro conn parsed now t ht
    rw [Authenticate_store] at ht
    exact hl t ht
  · intro session conn id ts t ht
    rw [Disconnect_store] at ht
    exact hl t ht
  · intro session sender raw now id ts t ht
    rcases ForwardMessage_shape S h session sender raw now id ts with
      ⟨peer, _, hfm⟩ | ⟨c, m, r, hfm | hfm⟩
    · rw [hfm] at ht
      simp only [deliver_store, limiterGate_store] at ht
      rw [hf.record_tokens] at ht
      exact hl t ht
    · rw [hfm] at ht
      exact hl t ht
    · rw [hfm] at ht
      simp only [sendError_store, limiterGate_store] at ht
      exact hl t ht
  · intro clock t ht
    exact hl t ht

/-- A hub whose Store holds only tokens of 16 bytes or more never panics in
`Authenticate`, whatever the run. -/
theorem NoPanic_of_longTokens (S : Store σ) (hf : S.TokenFrame) (steps : List HubStep) :
    ∀ r : CountRun σ, r.hub.LongTokens S → r.NoPanic S steps := by
  induction steps with
  | nil => intro r _; exact trivial
  | cons st rest ih =>
      intro r hl
      obtain ⟨_, _, _, hdel, hauth, hdis, _, hclean⟩ := LongTokens_preserved S hf r.hub hl
      refine ⟨?_, ih _ ?_⟩
      · cases st with
        | authenticate c parsed now =>
            intro hpanic
            obtain ⟨auth, _, hst, _, hlt⟩ := (Authenticate_panic_iff S r.hub c parsed now).mp hpanic
            exact absurd (hl auth.Token hst) (Nat.not_le.mpr hlt)
        | disconnect s c id ts => exact trivial
        | deleteToken token => exact trivial
        | cleanIdle clock => exact trivial
      · cases st with
        | authenticate c parsed now =>
            have hhub : (r.step S (.authenticate c parsed now)).hub
                = (r.hub.Authenticate S c parsed now).1 := by
              simp only [CountRun.step]
              split <;> rfl
            rw [hhub]
            exact hauth c parsed now
        | disconnect s c id ts => exact hdis (some s) (some c) id ts
        | deleteToken token => exact hdel token
        | cleanIdle clock => exact hclean clock

end longtokens

end Relay
